import Mathlib

/-!
# Verification of the gym-sparksched discrete-event scheduling engine

This file embeds the simulation engine of the repository
(`src/gym_dagsched/envs/dagsched_env.py`, `src/gym_dagsched/entities/job.py`,
`src/gym_dagsched/entities/sys_state.py`) as executable Lean definitions and
proves or refutes the frozen specification claims about it.

Machine floats of the source are modelled as rationals (`ℚ`); Python sets of
entity objects are modelled as sets or lists of integer handles into the
engine state; Python `assert` failures and `KeyError`s raised inside event
processing are modelled by an `assertFail` flag on the state.
-/

namespace DagSched

/-- A task of an operation.  Modelled from the spec (§3 Task; `task.py` is not
under `src/`): `{workerID: optional, acceptedTime: optional, completedTime:
optional}`; the owning operation and job are implicit in where the task is
stored. -/
structure Task where
  workerId : Option ℕ
  tAccepted : Option ℚ
  tCompleted : Option ℚ
  deriving Repr, DecidableEq

/-- An operation (DAG node).  Modelled from the spec (§3 Operation;
`operation.py` is not under `src/`): a pool of tasks partitioned into
remaining / processing / completed id-sets, a per-worker-type duration model,
and (for `Worker.can_assign` / `compatible_with`) the set of compatible worker
types. -/
structure Op where
  numTasks : ℕ
  remainingTasks : List ℕ
  processingTasks : List ℕ
  completedTasks : List ℕ
  tasks : List Task
  taskDuration : ℕ → ℚ
  compatTypes : List ℕ

/-- `saturated ⇔ remainingTasks.isEmpty()` (spec §3). -/
def Op.saturated (op : Op) : Bool := op.remainingTasks.isEmpty

/-- `completed ⇔ completedTasks.size == totalTaskCount` (spec §3). -/
def Op.isComplete (op : Op) : Bool := op.completedTasks.length == op.numTasks

/-- Modelled from the spec: `num_saturated_tasks` counts tasks that are at
least assigned (possibly not yet complete), i.e. processing or completed. -/
def Op.numSaturatedTasks (op : Op) : ℕ :=
  op.processingTasks.length + op.completedTasks.length

def Op.numRemainingTasks (op : Op) : ℕ := op.remainingTasks.length

/-- The criterion argument of `job.py` `find_new_frontier_ops` /
`check_criterion` (the strings `'saturated'` and `'completed'`). -/
inductive Criterion where
  | saturated
  | completed
  deriving Repr, DecidableEq

/-- `Operation.check_criterion` as used by `job.py` (operation.py is not under
`src/`; modelled from the spec: the criterion names the corresponding state
predicate of the operation). -/
def Op.checkCriterion (op : Op) : Criterion → Bool
  | .saturated => op.saturated
  | .completed => op.isComplete

/-- A worker.  Modelled from the spec (§3 Worker; `worker.py` is not under
`src/`): `{currentTask: optional, jobID: optional, isMoving: bool}` plus the
worker type used by the duration model.  The worker id is its index in the
engine's worker list. -/
structure Worker where
  type_ : ℕ
  task : Option (ℕ × ℕ × ℕ)
  jobId : Option ℕ
  isMoving : Bool
  deriving Repr, DecidableEq

/-- Modelled from the spec (§3): `available ⇔ currentTask == none && !isMoving`. -/
def Worker.available (w : Worker) : Bool := w.task.isNone && !w.isMoving

/-- `Worker.can_assign(op)` as called at `dagsched_env.py:399,426`
(`worker.py` is not under `src/`; modelled from the spec §4.3/§4.6: the worker
must be available and of a type compatible with the operation). -/
def Worker.canAssign (w : Worker) (op : Op) : Bool :=
  w.available && w.type_ ∈ op.compatTypes

/-- A job: a DAG of operations (`entities/job.py`).  `dagEdges` is the edge
list of the networkx dag (an edge `(a, b)` means `a` must complete before `b`);
`activeOps` are the ids of operations not yet completed. -/
structure Job where
  id : ℕ
  ops : List Op
  dagEdges : List (ℕ × ℕ)
  tArrival : ℚ
  tCompleted : Option ℚ
  localWorkers : List ℕ
  saturatedOpCount : ℕ
  activeOps : List ℕ

/-- `Job.is_complete` as read at `dagsched_env.py:333`: the job is complete
when no active (not-yet-completed) operations remain (spec §3:
`completed ⇔ activeOperations.isEmpty()`; `job.py` `completed`). -/
def Job.isComplete (jb : Job) : Bool := jb.activeOps.isEmpty

/-- `job.py` `check_dependencies`: all dag predecessors of `opId` satisfy the
criterion. -/
def Job.checkDependencies (jb : Job) (opId : ℕ) (c : Criterion) : Bool :=
  (jb.dagEdges.filter (fun e => e.2 == opId)).all fun e =>
    match jb.ops.get? e.1 with
    | some p => p.checkCriterion c
    | none => false

/-- `job.py` `find_new_frontier_ops` (lines 123-143): if `op` satisfies the
criterion, all of its dag successors that do not yet satisfy it but whose
dependencies all do. -/
def Job.findNewFrontierOps (jb : Job) (opId : ℕ) (c : Criterion) : List ℕ :=
  match jb.ops.get? opId with
  | none => []
  | some op =>
    if ! op.checkCriterion c then []
    else
      ((jb.dagEdges.filter (fun e => e.1 == opId)).map (·.2)).filter fun su =>
        match jb.ops.get? su with
        | some newOp => ! newOp.checkCriterion c && jb.checkDependencies su c
        | none => false

/-- `job.py` `source_ops` / the env's `job.find_src_ops()`: ids of dag nodes
with in-degree zero. -/
def Job.findSrcOps (jb : Job) : List ℕ :=
  (List.range jb.ops.length).filter fun o => jb.dagEdges.all fun e => e.2 ≠ o

/-- A scheduling event (`entities/timeline.py` is not under `src/`; modelled
from the spec §3 Event: a tagged union `JobArrival{job}`,
`WorkerArrival{worker, operation}`, `TaskCompletion{operation, task}`, with
entity references modelled as handles). -/
inductive Event where
  | jobArrival (job : Job)
  | workerArrival (workerId : ℕ) (jobId : ℕ) (opId : ℕ)
  | taskCompletion (jobId : ℕ) (opId : ℕ) (taskId : ℕ)

/-- The event timeline: a time-ordered priority queue with FIFO tie-breaking
(`entities/timeline.py` is not under `src/`; modelled from the spec §3/§4.1).
It is represented as the insertion-ordered list of pending `(time, event)`
pairs; `push` appends and `popMin` removes the earliest-time, earliest-pushed
event. -/
def Timeline := List (ℚ × Event)

/-- `timeline.pop()`: remove and return the minimum-time event, FIFO among
equal timestamps. -/
def popMin : List (ℚ × Event) → Option ((ℚ × Event) × List (ℚ × Event))
  | [] => none
  | x :: xs =>
    match popMin xs with
    | none => some (x, [])
    | some (y, rest) => if x.1 ≤ y.1 then some (x, xs) else some (y, x :: rest)

/-- The mutable state of `DagSchedEnv` (`dagsched_env.py` `reset`): wall time,
the job table, active/completed job id lists, the global frontier and
saturated operation sets (as sets of `(jobId, opId)` handles), the worker
pool, the available-worker id set (kept as an insertion-ordered duplicate-free
list), and the timeline.  `assertFail` records whether a Python `assert` /
`KeyError` inside event processing would have fired. -/
structure EnvState where
  timeline : List (ℚ × Event)
  workers : List Worker
  wallTime : ℚ
  jobs : List Job
  activeJobIds : List ℕ
  completedJobIds : List ℕ
  frontierOps : Finset (ℕ × ℕ)
  saturatedOps : Finset (ℕ × ℕ)
  availWorkerIds : List ℕ
  assertFail : Bool

/-- `REWARD_SCALE = 1e-5` (`dagsched_env.py:50`). -/
def REWARD_SCALE : ℚ := 1 / 100000

/-- `MOVING_COST = 2000.` (`dagsched_env.py:54`). -/
def MOVING_COST : ℚ := 2000

/-- Dictionary lookup `self.jobs[jobId]`. -/
def lookupJob (s : EnvState) (j : ℕ) : Option Job :=
  s.jobs.find? fun jb => jb.id == j

/-- Dictionary update of job `j` (the Python code mutates the shared job
object in place). -/
def updateJob (s : EnvState) (j : ℕ) (f : Job → Job) : EnvState :=
  { s with jobs := s.jobs.map fun jb => if jb.id == j then f jb else jb }

def getOp (s : EnvState) (j o : ℕ) : Option Op :=
  (lookupJob s j).bind fun jb => jb.ops.get? o

/-- In-place mutation of operation `o` of job `j`. -/
def updateOp (s : EnvState) (j o : ℕ) (f : Op → Op) : EnvState :=
  updateJob s j fun jb =>
    match jb.ops.get? o with
    | some op => { jb with ops := jb.ops.set o (f op) }
    | none => jb

def updateWorker (s : EnvState) (w : ℕ) (f : Worker → Worker) : EnvState :=
  match s.workers.get? w with
  | some wk => { s with workers := s.workers.set w (f wk) }
  | none => s

/-- Mark that a Python `assert` (or an exception such as `KeyError`) fired. -/
def flagFail (s : EnvState) : EnvState := { s with assertFail := true }

/-- `self.avail_worker_ids.add(id)` (Python set add). -/
def addAvail (s : EnvState) (w : ℕ) : EnvState :=
  if w ∈ s.availWorkerIds then s
  else { s with availWorkerIds := s.availWorkerIds ++ [w] }

/-- `self.avail_worker_ids.remove(id)` (Python set remove: `KeyError` if the
id is absent). -/
def removeAvail (s : EnvState) (w : ℕ) : EnvState :=
  if w ∈ s.availWorkerIds then { s with availWorkerIds := s.availWorkerIds.erase w }
  else flagFail s

/-- The timeline `push`. -/
def pushEvent (s : EnvState) (t : ℚ) (e : Event) : EnvState :=
  { s with timeline := s.timeline ++ [(t, e)] }

/-- The mutation `start_on_next_task` performs on the operation (the popped
remaining task becomes processing, bound to the worker at the given accepted
time). -/
def startTask (wIdx : ℕ) (t : ℚ) (tid : ℕ) (rest : List ℕ) (op : Op) : Op :=
  { op with
    remainingTasks := rest
    processingTasks := op.processingTasks ++ [tid]
    tasks := op.tasks.set tid
      { workerId := some wIdx, tAccepted := some t, tCompleted := none } }

def bumpSaturated (jb : Job) : Job :=
  { jb with saturatedOpCount := jb.saturatedOpCount + 1 }

/-- `job.py` `assign_worker` (lines 199-210), threading the shared mutable
state: asserts `op.num_saturated_tasks < op.num_tasks`, pops the operation's
next remaining task into processing (`start_on_next_task`, modelled from the
spec §4.3: deterministic pop order), bumps the job's saturated-operation count
when the operation saturates, binds the worker to the task and stamps its
accepted time.  Returns the id of the assigned task, or `none` if the
assertion fired. -/
def assignWorker (s : EnvState) (wIdx j o : ℕ) : EnvState × Option ℕ :=
  match getOp s j o with
  | none => (flagFail s, none)
  | some op =>
    if ! (op.numSaturatedTasks < op.numTasks) then (flagFail s, none)
    else
      match op.remainingTasks with
      | [] => (flagFail s, none)
      | tid :: rest =>
        let s1 := updateOp s j o (startTask wIdx s.wallTime tid rest)
        let s2 := if rest.isEmpty then updateJob s1 j bumpSaturated else s1
        let s3 := updateWorker s2 wIdx fun wk => { wk with task := some (j, o, tid) }
        (s3, some tid)

/-- `dagsched_env.py` `_push_task_completion_event` (lines 238-245): schedule
the completion of `task` at `task.t_accepted + op.task_duration[worker_type]`. -/
def pushTaskCompletionEvent (s : EnvState) (j o tid : ℕ) : EnvState :=
  match getOp s j o with
  | none => flagFail s
  | some op =>
    match op.tasks.get? tid with
    | none => flagFail s
    | some task =>
      match task.workerId with
      | none => flagFail s
      | some wIdx =>
        match s.workers.get? wIdx, task.tAccepted with
        | some wk, some tAcc =>
          pushEvent s (tAcc + op.taskDuration wk.type_) (.taskCompletion j o tid)
        | _, _ => flagFail s

/-- `dagsched_env.py` `_push_worker_arrival_event` (lines 249-255): the worker
arrives at `wall_time + MOVING_COST`. -/
def pushWorkerArrivalEvent (s : EnvState) (wIdx j o : ℕ) : EnvState :=
  pushEvent s (s.wallTime + MOVING_COST) (.workerArrival wIdx j o)

/-- Move a newly saturated operation from the frontier set to the saturated
set (`dagsched_env.py:433-436` and `453-455`). -/
def moveToSaturatedIfSat (s : EnvState) (j o : ℕ) : EnvState :=
  match getOp s j o with
  | none => s
  | some op =>
    if op.saturated && (j, o) ∈ s.frontierOps then
      { s with frontierOps := s.frontierOps.erase (j, o)
               saturatedOps := insert (j, o) s.saturatedOps }
    else s

/-- `dagsched_env.py` `_schedule_worker` (lines 441-457): assign one worker to
the operation, push the task-completion event, and move the operation to the
saturated set if it just saturated. -/
def scheduleWorkerOne (s : EnvState) (wIdx j o : ℕ) : EnvState :=
  let (s1, tid?) := assignWorker s wIdx j o
  match tid? with
  | none => s1
  | some tid =>
    let s2 := pushTaskCompletionEvent s1 j o tid
    moveToSaturatedIfSat s2 j o

/-- The loop body of `dagsched_env.py` `_schedule_workers` (lines 422-431):
walk the job's local workers, breaking once the operation is saturated,
assigning every worker that `can_assign` the operation and collecting the
assigned task ids. -/
def scheduleWorkersAux (j o : ℕ) : List ℕ → EnvState → List ℕ → EnvState × List ℕ
  | [], s, acc => (s, acc)
  | wIdx :: ws, s, acc =>
    match getOp s j o with
    | none => (flagFail s, acc)
    | some op =>
      if op.saturated then (s, acc)
      else
        match s.workers.get? wIdx with
        | none => (flagFail s, acc)
        | some wk =>
          if wk.canAssign op then
            let (s1, tid?) := assignWorker s wIdx j o
            match tid? with
            | none => (s1, acc)
            | some tid => scheduleWorkersAux j o ws s1 (acc ++ [tid])
          else scheduleWorkersAux j o ws s acc

/-- `dagsched_env.py` `_schedule_workers` (lines 415-438): assign the
available local workers of the operation's job to it, then move the operation
to the saturated set if it is now saturated.  Returns the assigned task ids. -/
def scheduleWorkers (s : EnvState) (j o : ℕ) : EnvState × List ℕ :=
  match lookupJob s j with
  | none => (flagFail s, [])
  | some jb =>
    let (s1, tasks) := scheduleWorkersAux j o jb.localWorkers s []
    (moveToSaturatedIfSat s1 j o, tasks)

/-- `dagsched_env.py` `_send_worker` (lines 405-411): remove the worker from
its old job's local set (`job.py` `remove_local_worker`, which also clears the
worker's job id), mark it moving, drop it from the available set and push its
arrival event. -/
def sendWorker (s : EnvState) (wIdx j o : ℕ) : EnvState :=
  match s.workers.get? wIdx with
  | none => flagFail s
  | some wk =>
    let s1 :=
      match wk.jobId with
      | some oldJ =>
        match lookupJob s oldJ with
        | none => flagFail s
        | some oldJb =>
          if wIdx ∈ oldJb.localWorkers then
            let s' := updateJob s oldJ fun jb =>
              { jb with localWorkers := jb.localWorkers.erase wIdx }
            updateWorker s' wIdx fun w => { w with jobId := none }
          else flagFail s
      | none => s
    let s2 := updateWorker s1 wIdx fun w => { w with isMoving := true }
    let s3 := removeAvail s2 wIdx
    pushWorkerArrivalEvent s3 wIdx j o

/-- The loop of `dagsched_env.py` `_send_more_workers` (lines 393-401) over a
snapshot of the available-worker id set, counting down the number of workers
still to send.  Returns the number of workers actually sent. -/
def sendMoreWorkersAux (op : Op) (j o : ℕ) : List ℕ → ℕ → EnvState → EnvState × ℕ
  | _, 0, s => (s, 0)
  | [], _, s => (s, 0)
  | wIdx :: ws, n + 1, s =>
    match s.workers.get? wIdx with
    | none => (flagFail s, 0)
    | some wk =>
      if wk.canAssign op then
        let s1 := sendWorker s wIdx j o
        let (s2, cnt) := sendMoreWorkersAux op j o ws n s1
        (s2, cnt + 1)
      else sendMoreWorkersAux op j o ws (n + 1) s

/-- `dagsched_env.py` `_send_more_workers` (lines 385-401): send
`min(prlvl, number of available workers that can_assign the op)` workers
toward the operation's job. -/
def sendMoreWorkers (s : EnvState) (j o prlvl : ℕ) : EnvState × ℕ :=
  match getOp s j o with
  | none => (flagFail s, 0)
  | some op => sendMoreWorkersAux op j o s.availWorkerIds prlvl s

/-- The loop of `dagsched_env.py` `_push_task_completion_events`
(lines 229-234). -/
def pushTaskCompletionEvents (s : EnvState) (j o : ℕ) (tids : List ℕ) : EnvState :=
  tids.foldl (fun s' tid => pushTaskCompletionEvent s' j o tid) s

/-- `dagsched_env.py` `_take_action` (lines 367-381): send more workers toward
the job, assign the available local workers, and push the completion events of
the newly scheduled tasks.  Also returns the number of workers sent into
transit and the assigned task ids (instrumentation of the Python locals). -/
def takeAction (s : EnvState) (j o prlvl : ℕ) : EnvState × ℕ × List ℕ :=
  let (s1, nSent) := sendMoreWorkers s j o prlvl
  let (s2, tasks) := scheduleWorkers s1 j o
  let s3 := if tasks.isEmpty then s2 else pushTaskCompletionEvents s2 j o tasks
  (s3, nSent, tasks)

/-- `dagsched_env.py` `_process_job_arrival` (lines 276-285): register the job
and add its source operations to the frontier.  Always requires the agent. -/
def processJobArrival (s : EnvState) (job : Job) : EnvState × Bool :=
  let s1 :=
    if s.jobs.any fun jb => jb.id == job.id then
      { s with jobs := s.jobs.map fun jb => if jb.id == job.id then job else jb }
    else { s with jobs := s.jobs ++ [job] }
  let s2 := { s1 with activeJobIds := s1.activeJobIds ++ [job.id] }
  let srcs := (job.findSrcOps.map fun o => (job.id, o)).toFinset
  ({ s2 with frontierOps := s2.frontierOps ∪ srcs }, true)

/-- `dagsched_env.py` `_process_worker_arrival` (lines 289-302): the worker
becomes local to the job; if the target operation is complete or saturated the
worker becomes available (agent needed), otherwise it is scheduled onto the
operation immediately. -/
def processWorkerArrival (s : EnvState) (wIdx j o : ℕ) : EnvState × Bool :=
  match lookupJob s j with
  | none => (flagFail s, false)
  | some _ =>
    let s1 := updateJob s j fun jb =>
      if wIdx ∈ jb.localWorkers then jb
      else { jb with localWorkers := jb.localWorkers ++ [wIdx] }
    let s2 := updateWorker s1 wIdx fun wk => { wk with isMoving := false, jobId := some j }
    match getOp s2 j o with
    | none => (flagFail s2, false)
    | some op =>
      if op.isComplete || op.saturated then (addAvail s2 wIdx, true)
      else (scheduleWorkerOne s2 wIdx j o, false)

/-- `dagsched_env.py` `_process_op_completion` (lines 342-354): the worker
becomes available, the job drops the operation from its active set
(`add_op_completion`; the env variant of `job.py` is not under `src/`:
modelled from the spec §4.4 "free it from the job's active set"), the
operation leaves the saturated set, and the newly ready successors
(`job.py` `find_new_frontier_ops` with the completed criterion) join the
frontier. -/
def processOpCompletion (s : EnvState) (j o wIdx : ℕ) : EnvState :=
  let s1 := addAvail s wIdx
  let s2 := updateJob s1 j fun jb => { jb with activeOps := jb.activeOps.erase o }
  let s3 :=
    if (j, o) ∈ s2.saturatedOps then { s2 with saturatedOps := s2.saturatedOps.erase (j, o) }
    else flagFail s2
  match lookupJob s3 j with
  | none => flagFail s3
  | some jb =>
    let newOps := jb.findNewFrontierOps o .completed
    { s3 with frontierOps := s3.frontierOps ∪ (newOps.map fun su => (j, su)).toFinset }

/-- `dagsched_env.py` `_process_job_completion` (lines 358-363): move the job
from active to completed and record its completion time. -/
def processJobCompletion (s : EnvState) (j : ℕ) : EnvState :=
  let s1 :=
    if j ∈ s.activeJobIds then { s with activeJobIds := s.activeJobIds.erase j }
    else flagFail s
  let s2 := { s1 with completedJobIds := s1.completedJobIds ++ [j] }
  updateJob s2 j fun jb => { jb with tCompleted := some s2.wallTime }

/-- `job.py` `add_task_completion` (lines 214-220) as invoked from
`dagsched_env.py:316`: assert the operation is not already complete, move the
task from processing to completed (`mark_task_completed`, modelled from the
spec §3 task lifecycle since `operation.py` is not under `src/`) and stamp its
completion time. -/
def addTaskCompletion (s : EnvState) (j o tid : ℕ) : EnvState :=
  match getOp s j o with
  | none => flagFail s
  | some op =>
    if op.isComplete then flagFail s
    else
      updateOp s j o fun op' =>
        { op' with
          processingTasks := op'.processingTasks.erase tid
          completedTasks :=
            if tid ∈ op'.completedTasks then op'.completedTasks
            else op'.completedTasks ++ [tid]
          tasks :=
            match op'.tasks.get? tid with
            | some task => op'.tasks.set tid { task with tCompleted := some s.wallTime }
            | none => op'.tasks }

/-- `dagsched_env.py` `_process_task_completion` (lines 308-338): record the
task completion, unbind its worker, then either process the operation's
completion (agent needed), or reschedule the worker if the operation is not
saturated; finally process the job's completion if it just completed. -/
def processTaskCompletion (s : EnvState) (j o tid : ℕ) : EnvState × Bool :=
  match lookupJob s j with
  | none => (flagFail s, false)
  | some _ =>
    let s1 := addTaskCompletion s j o tid
    match getOp s1 j o with
    | none => (flagFail s1, false)
    | some op =>
      match (op.tasks.get? tid).bind (·.workerId) with
      | none => (flagFail s1, false)
      | some wIdx =>
        let s2 := updateWorker s1 wIdx fun wk => { wk with task := none }
        let (s3, needsAgent) :=
          if op.isComplete then (processOpCompletion s2 j o wIdx, true)
          else if ! op.saturated then (scheduleWorkerOne s2 wIdx j o, false)
          else (s2, false)
        let s4 :=
          match lookupJob s3 j with
          | some jb => if jb.isComplete then processJobCompletion s3 j else s3
          | none => flagFail s3
        (s4, needsAgent)

/-- `dagsched_env.py` `_process_scheduling_event` (lines 259-272). -/
def processSchedulingEvent (s : EnvState) : Event → EnvState × Bool
  | .jobArrival job => processJobArrival s job
  | .workerArrival wIdx j o => processWorkerArrival s wIdx j o
  | .taskCompletion j o tid => processTaskCompletion s j o tid

/-- `dagsched_env.py` `_calculate_reward` (lines 462-474): minus the sum over
the currently active jobs of `min(t_completed, wall_time) -
max(t_arrival, prev_time)`, scaled by `REWARD_SCALE` (an active job's
`t_completed` is `np.inf`, modelled as `none`). -/
def calculateReward (s : EnvState) (prevTime : ℚ) : ℚ :=
  (s.activeJobIds.foldl
    (fun acc j =>
      match lookupJob s j with
      | some jb =>
        let startT := max jb.tArrival prevTime
        let endT := match jb.tCompleted with
          | some tc => min tc s.wallTime
          | none => s.wallTime
        acc - (endT - startT)
      | none => acc)
    0) * REWARD_SCALE

/-- `dagsched_env.py` `are_actions_available` (lines 90-95). -/
def areActionsAvailable (s : EnvState) : Bool :=
  0 < s.availWorkerIds.length && 0 < s.frontierOps.card

/-- The event loop of `dagsched_env.py` `step` (lines 178-183), with explicit
fuel: pop events, advance the wall clock, and process, until the agent is
needed or the timeline is empty. -/
def runEvents : ℕ → EnvState → EnvState
  | 0, s => s
  | fuel + 1, s =>
    match popMin s.timeline with
    | none => s
    | some ((t, e), rest) =>
      let (s1, needsAgent) := processSchedulingEvent { s with timeline := rest, wallTime := t } e
      if needsAgent then s1 else runEvents fuel s1

/-- The Python exceptions that can surface from `step`
(`self.jobs[job_id]` raises `KeyError`, `.ops[op_id]` raises `IndexError`,
`assert op in self.frontier_ops` raises `AssertionError`).
`invalidActionError` is modelled from the spec (§7 names an
`InvalidActionError`; no such class exists under `src/` and the env never
raises it). -/
inductive PyErr where
  | keyError
  | indexError
  | assertionError
  | invalidActionError
  deriving Repr, DecidableEq

/-- `dagsched_env.py` `step` (lines 157-190): apply the action if given
(failing on a missing job / operation or a non-frontier operation), drain the
timeline until the agent is needed, and return the new state together with the
reward since the previous step and the done flag
`timeline.empty and len(avail_worker_ids) == len(workers)`. -/
def stepEnv (fuel : ℕ) (s : EnvState) (action : Option (ℕ × ℕ × ℕ)) :
    Except PyErr (EnvState × ℚ × Bool) :=
  match action with
  | some (j, o, n) =>
    match lookupJob s j with
    | none => .error .keyError
    | some jb =>
      match jb.ops.get? o with
      | none => .error .indexError
      | some _ =>
        if (j, o) ∈ s.frontierOps then
          let s1 := (takeAction s j o n).1
          let prevTime := s1.wallTime
          let s2 := runEvents fuel s1
          let done := s2.timeline.isEmpty && s2.availWorkerIds.length == s2.workers.length
          .ok (s2, calculateReward s2 prevTime, done)
        else .error .assertionError
  | none =>
    let prevTime := s.wallTime
    let s2 := runEvents fuel s
    let done := s2.timeline.isEmpty && s2.availWorkerIds.length == s2.workers.length
    .ok (s2, calculateReward s2 prevTime, done)

/-- `dagsched_env.py` `reset` (lines 99-153): install the pre-seeded timeline
and worker pool, zero the clock, clear every table and mark every worker id
available. -/
def resetEnv (initialTimeline : List (ℚ × Event)) (workers : List Worker) : EnvState :=
  { timeline := initialTimeline
    workers := workers
    wallTime := 0
    jobs := []
    activeJobIds := []
    completedJobIds := []
    frontierOps := ∅
    saturatedOps := ∅
    availWorkerIds := List.range workers.length
    assertFail := false }

/-! ## The `entities/sys_state.py` variant

`sys_state.py` is an alternative engine in the repository with a flat
stage-mask representation.  Claims C2 and C7 also cite its `is_action_valid`
and `actions_available`, so the parts of its state they read are embedded
here. -/

/-- A stage (`entities/stage.py` is not under `src/`; modelled from the spec:
a DAG node owned by a job, with the worker types compatible with it). -/
structure Stage where
  jobId : ℕ
  id : ℕ
  compatTypes : List ℕ
  deriving Repr, DecidableEq

/-- A worker of the `sys_state.py` variant (`entities/worker.py` is not under
`src/`; modelled from the spec §3 Worker: a type, an optional current task and
a moving flag). -/
structure SWorker where
  type_ : ℕ
  task : Option ℕ
  isMoving : Bool
  deriving Repr, DecidableEq

/-- Modelled from the spec (§3): `available ⇔ currentTask == none && !isMoving`. -/
def SWorker.available (w : SWorker) : Bool := w.task.isNone && !w.isMoving

/-- `worker.compatible_with(stage)` as called at `sys_state.py:310`
(`worker.py` is not under `src/`; modelled from the spec §4.6: the worker's
type is one of the stage's compatible worker types). -/
def SWorker.compatibleWith (w : SWorker) (st : Stage) : Bool :=
  w.type_ ∈ st.compatTypes

/-- A job of the `sys_state.py` variant, reduced to its stage list. -/
structure SJob where
  stages : List Stage
  deriving Repr, DecidableEq

/-- The slice of `entities/sys_state.py` `SysState` read by
`is_action_valid` and `actions_available`: the job tuple, the worker tuple and
the flat frontier-stage mask of length `n_jobs * max_stages`. -/
structure SysState where
  jobs : List SJob
  workers : List SWorker
  maxStages : ℕ
  frontierStagesMask : List Bool
  deriving Repr, DecidableEq

/-- `sys_state.py` `get_frontier_stages` (lines 75-78): the stages whose mask
bit is set (`get_stage_from_idx`: `stage_id = idx % max_stages`,
`job_id = idx / max_stages`). -/
def SysState.getFrontierStages (ss : SysState) : List Stage :=
  ((List.range ss.frontierStagesMask.length).filter
      fun i => ss.frontierStagesMask.getD i false).filterMap
    fun i =>
      (ss.jobs.get? (i / ss.maxStages)).bind fun jb => jb.stages.get? (i % ss.maxStages)

/-- `sys_state.py` `find_available_workers` (lines 81-82). -/
def SysState.findAvailableWorkers (ss : SysState) : List SWorker :=
  ss.workers.filter SWorker.available

/-- `sys_state.py` `actions_available` (lines 301-313): false when there is no
available worker or no frontier stage, otherwise true iff some available
worker is compatible with some frontier stage. -/
def SysState.actionsAvailable (ss : SysState) : Bool :=
  let frontierStages := ss.getFrontierStages
  let availWorkers := ss.findAvailableWorkers
  if availWorkers.length == 0 || frontierStages.length == 0 then false
  else frontierStages.any fun st => availWorkers.any fun w => w.compatibleWith st

/-- An action of the `sys_state.py` variant (`Action`): a job id and stage
id, where `-1` models the `INVALID_ID` sentinel of the missing `Job` /
`Stage` classes. -/
structure SAction where
  jobId : ℤ
  stageId : ℤ
  deriving Repr, DecidableEq

/-- `Job.INVALID_ID` / `Stage.INVALID_ID` (their classes are not under
`src/`; modelled from the spec's invalid-action sentinel as `-1`). -/
def INVALID_ID : ℤ := -1

/-- `sys_state.py` `is_action_valid` (lines 122-158): false on the invalid-id
sentinel, otherwise look the stage up and report the frontier-mask bit (all
other checks are commented out in the source).  Returns `none` when an index
lookup would raise in Python. -/
def SysState.isActionValid (ss : SysState) (a : SAction) : Option Bool :=
  if a.jobId == INVALID_ID || a.stageId == INVALID_ID then some false
  else if a.jobId < 0 || a.stageId < 0 then none
  else
    match (ss.jobs.get? a.jobId.toNat).bind fun jb => jb.stages.get? a.stageId.toNat with
    | none => none
    | some _ =>
      match ss.frontierStagesMask.get? (a.jobId.toNat * ss.maxStages + a.stageId.toNat) with
      | none => none
      | some b => some b

/-! ## Claim-side conditions

Bool-valued renderings of the specification sentences the claims quote, used
to compare the spec's wording with the code's behaviour. -/

/-- The frontier membership condition exactly as claim C1 states it
(spec §8): all DAG predecessors completed, the operation itself not
completed, and the operation reached (its job has arrived). -/
def frontierClaimCond (s : EnvState) (j o : ℕ) : Bool :=
  match lookupJob s j with
  | none => false
  | some jb =>
    match jb.ops.get? o with
    | none => false
    | some op => jb.checkDependencies o .completed && !op.isComplete

/-- The frontier membership condition amended with the saturation clause:
additionally the operation must not be saturated (spec §3: an operation is in
exactly one of not-yet-reached / frontier / saturated / completed). -/
def frontierAmendedCond (s : EnvState) (j o : ℕ) : Bool :=
  match lookupJob s j with
  | none => false
  | some jb =>
    match jb.ops.get? o with
    | some op => jb.checkDependencies o .completed && !op.isComplete && !op.saturated
    | none => false

/-- Timeline invariant for claim C8: every pending event lies no earlier than
the current wall time. -/
def TimelineOK (s : EnvState) : Prop := ∀ p ∈ s.timeline, s.wallTime ≤ p.1

/-- Durations delivered by the task-duration models of the jobs in the system
are non-negative (as the task-duration data of the source is). -/
def DurOK (s : EnvState) : Prop :=
  ∀ jb ∈ s.jobs, ∀ op ∈ jb.ops, ∀ ty, 0 ≤ op.taskDuration ty

/-- A pending event carries only non-negative durations (only `JobArrival`
carries a payload with duration models). -/
def DurOKEvent : Event → Prop
  | .jobArrival job => ∀ op ∈ job.ops, ∀ ty, 0 ≤ op.taskDuration ty
  | _ => True

/-- Every listed task of operation `(j, o)` was accepted at the current wall
time (they were assigned during the current action, before any clock
advance), so their completions are pushed at `wallTime + duration`. -/
def AccOK (s : EnvState) (j o : ℕ) (acc : List ℕ) : Prop :=
  ∀ tid ∈ acc, ∀ op, getOp s j o = some op → ∀ task, op.tasks.get? tid = some task →
    task.tAccepted = some s.wallTime

/-- The hypothesis of claim C10 on the state at reward time: every active job
exists, has arrived by the current wall time, and (being active) has no
completion time yet. -/
def activeJobsRewardOK (s : EnvState) : Bool :=
  s.activeJobIds.all fun j =>
    match lookupJob s j with
    | some jb => decide (jb.tArrival ≤ s.wallTime) && jb.tCompleted.isNone
    | none => true

/-! ## The engine invariant

The inductive invariant maintained by `reset`, `_take_action` and the event
handlers, from which the (amended) frontier characterisation follows. -/

/-- Structural well-formedness of an operation: it has at least one task, and
its remaining / processing / completed id-sets are disjoint duplicate-free
subsets of the task ids whose sizes sum to the task count (the spec §3
partition invariant). -/
def OpWF (op : Op) : Prop :=
  0 < op.numTasks ∧
  op.tasks.length = op.numTasks ∧
  op.remainingTasks.Nodup ∧ op.processingTasks.Nodup ∧ op.completedTasks.Nodup ∧
  (∀ t ∈ op.remainingTasks, t < op.numTasks) ∧
  (∀ t ∈ op.processingTasks, t < op.numTasks) ∧
  (∀ t ∈ op.completedTasks, t < op.numTasks) ∧
  (∀ t ∈ op.remainingTasks, t ∉ op.processingTasks) ∧
  (∀ t ∈ op.remainingTasks, t ∉ op.completedTasks) ∧
  (∀ t ∈ op.processingTasks, t ∉ op.completedTasks) ∧
  op.remainingTasks.length + op.processingTasks.length + op.completedTasks.length =
    op.numTasks

/-- Structural well-formedness of a job in a system with `n` workers. -/
def JobWF (n : ℕ) (jb : Job) : Prop :=
  0 < jb.ops.length ∧
  (∀ op ∈ jb.ops, OpWF op) ∧
  (∀ e ∈ jb.dagEdges, e.1 < jb.ops.length ∧ e.2 < jb.ops.length) ∧
  jb.activeOps.Nodup ∧
  (∀ o ∈ jb.activeOps, o < jb.ops.length) ∧
  jb.localWorkers.Nodup ∧
  (∀ w ∈ jb.localWorkers, w < n)

/-- The operation is eligible for the frontier: not saturated and all DAG
predecessors completed (not-completed follows from not-saturated under
`OpWF`). -/
def eligibleAt (jb : Job) (o : ℕ) : Bool :=
  match jb.ops.get? o with
  | some op => !op.saturated && jb.checkDependencies o .completed
  | none => false

def frontierMemOK (s : EnvState) (p : ℕ × ℕ) : Bool :=
  match lookupJob s p.1 with
  | some jb => eligibleAt jb p.2
  | none => false

/-- The operation is saturated but not completed. -/
def satAt (jb : Job) (o : ℕ) : Bool :=
  match jb.ops.get? o with
  | some op => op.saturated && !op.isComplete
  | none => false

def satMemOK (s : EnvState) (p : ℕ × ℕ) : Bool :=
  match lookupJob s p.1 with
  | some jb => satAt jb p.2
  | none => false

/-- An operation with an uncompleted DAG predecessor has never received a
worker: all its tasks are still remaining. -/
def untouchedOK (jb : Job) (o : ℕ) : Bool :=
  match jb.ops.get? o with
  | some op =>
    jb.checkDependencies o .completed ||
      (op.remainingTasks.length == op.numTasks)
  | none => true

/-- The operation is not yet completed. -/
def activeAt (jb : Job) (o : ℕ) : Bool :=
  match jb.ops.get? o with
  | some op => !op.isComplete
  | none => false

def InvFlag (s : EnvState) : Prop := s.assertFail = false

def InvIds (s : EnvState) : Prop := (s.jobs.map Job.id).Nodup

def InvWF (s : EnvState) : Prop := ∀ jb ∈ s.jobs, JobWF s.workers.length jb

/-- Every member of the global frontier set is an existing, eligible
operation. -/
def InvFrontier (s : EnvState) : Prop :=
  ∀ p ∈ s.frontierOps, frontierMemOK s p = true

/-- Every eligible operation of an arrived job is in the global frontier
set. -/
def InvFrontierComplete (s : EnvState) : Prop :=
  ∀ jb ∈ s.jobs, ∀ o ∈ List.range jb.ops.length,
    eligibleAt jb o = true → (jb.id, o) ∈ s.frontierOps

/-- Every member of the saturated set is an existing saturated-not-completed
operation. -/
def InvSat (s : EnvState) : Prop :=
  ∀ p ∈ s.saturatedOps, satMemOK s p = true

/-- Every saturated-not-completed operation of an arrived job is in the
saturated set. -/
def InvSatComplete (s : EnvState) : Prop :=
  ∀ jb ∈ s.jobs, ∀ o ∈ List.range jb.ops.length,
    satAt jb o = true → (jb.id, o) ∈ s.saturatedOps

def InvUntouched (s : EnvState) : Prop :=
  ∀ jb ∈ s.jobs, ∀ o ∈ List.range jb.ops.length, untouchedOK jb o = true

/-- `active_ops` of each job holds exactly its not-yet-completed operations. -/
def InvActive (s : EnvState) : Prop :=
  ∀ jb ∈ s.jobs, ∀ o ∈ List.range jb.ops.length,
    (o ∈ jb.activeOps ↔ activeAt jb o = true)

/-- This active job id refers to an arrived, not-yet-completed job. -/
def activeJobOK (s : EnvState) (jid : ℕ) : Bool :=
  match lookupJob s jid with
  | some jb => !jb.isComplete
  | none => false

/-- `active_job_ids` holds exactly the ids of arrived, not-yet-completed
jobs. -/
def InvActiveJobs (s : EnvState) : Prop :=
  (∀ jid ∈ s.activeJobIds, activeJobOK s jid = true) ∧
  (∀ jb ∈ s.jobs, jb.isComplete = false → jb.id ∈ s.activeJobIds) ∧
  s.activeJobIds.Nodup

/-- If worker `w` is not moving and is recorded at a job, that job exists and
lists `w` among its local workers. -/
def workerOK (s : EnvState) (w : ℕ) : Bool :=
  match s.workers.get? w with
  | some wk =>
    wk.isMoving ||
      (match wk.jobId with
        | some jid =>
          match lookupJob s jid with
          | some jb => decide (w ∈ jb.localWorkers)
          | none => false
        | none => true)
  | none => true

/-- A non-moving worker recorded at a job is in that job's local-worker set. -/
def InvWorkers (s : EnvState) : Prop :=
  ∀ w ∈ List.range s.workers.length, workerOK s w = true

def InvAvail (s : EnvState) : Prop :=
  s.availWorkerIds.Nodup ∧ ∀ w ∈ s.availWorkerIds, w < s.workers.length

/-- The engine invariant. -/
def Inv (s : EnvState) : Prop :=
  InvFlag s ∧ InvIds s ∧ InvWF s ∧ InvFrontier s ∧ InvFrontierComplete s ∧
  InvSat s ∧ InvSatComplete s ∧ InvUntouched s ∧ InvActive s ∧
  InvActiveJobs s ∧ InvWorkers s ∧ InvAvail s

/-- The target operation of an in-progress assignment loop exists, has its
dependencies satisfied and is not completed (but may be saturated). -/
def midOpOK (s : EnvState) (j o : ℕ) : Bool :=
  match lookupJob s j with
  | some jb =>
    match jb.ops.get? o with
    | some op => jb.checkDependencies o .completed && !op.isComplete
    | none => false
  | none => false

/-- The mid-action invariant: during worker assignment to the frontier
operation `(j, o)`, the operation may already be saturated while still in the
frontier set (the saturation check runs after the assignment loop); everything
else holds as in `Inv`. -/
def InvMid (s : EnvState) (j o : ℕ) : Prop :=
  InvFlag s ∧ InvIds s ∧ InvWF s ∧
  (∀ p ∈ s.frontierOps, p = (j, o) ∨ frontierMemOK s p = true) ∧
  InvFrontierComplete s ∧
  InvSat s ∧
  (∀ jb ∈ s.jobs, ∀ o' ∈ List.range jb.ops.length,
    satAt jb o' = true →
      (jb.id, o') ∈ s.saturatedOps ∨ (jb.id = j ∧ o' = o)) ∧
  InvUntouched s ∧ InvActive s ∧ InvActiveJobs s ∧ InvWorkers s ∧ InvAvail s ∧
  (j, o) ∈ s.frontierOps ∧ midOpOK s j o = true

/-- The invariant as it stands between `_process_op_completion` and the
job-completion check at the end of `_process_task_completion`: job `j` may
have just become complete while still listed active; everything else is as in
`Inv`. -/
def InvJC (s : EnvState) (j : ℕ) : Prop :=
  InvFlag s ∧ InvIds s ∧ InvWF s ∧ InvFrontier s ∧ InvFrontierComplete s ∧
  InvSat s ∧ InvSatComplete s ∧ InvUntouched s ∧ InvActive s ∧
  ((∀ jid ∈ s.activeJobIds, activeJobOK s jid = true ∨ jid = j) ∧
   (∀ jb ∈ s.jobs, jb.isComplete = false → jb.id ∈ s.activeJobIds) ∧
   s.activeJobIds.Nodup) ∧
  InvWorkers s ∧ InvAvail s ∧ j ∈ s.activeJobIds

/-- A job value as constructed at generation time, before any scheduling
touched it: every operation has all tasks remaining, every operation is
active, and no worker is local. -/
def FreshJob (job : Job) : Prop :=
  (∀ op ∈ job.ops, op.processingTasks = [] ∧ op.completedTasks = []) ∧
  (∀ o ∈ List.range job.ops.length, o ∈ job.activeOps) ∧
  job.localWorkers = []

/-- The target of a pending worker arrival exists and is in the frontier set,
the saturated set, or completed. -/
def workerArrivalOK (s : EnvState) (j o : ℕ) : Bool :=
  match getOp s j o with
  | some op =>
    decide ((j, o) ∈ s.frontierOps) || decide ((j, o) ∈ s.saturatedOps) ||
      op.isComplete
  | none => false

/-- The target task of a pending task completion exists, is processing, and
records a valid worker id. -/
def taskCompletionOK (s : EnvState) (j o tid : ℕ) : Bool :=
  match getOp s j o with
  | some op =>
    decide (tid ∈ op.processingTasks) &&
      (match op.tasks.get? tid with
        | some task =>
          match task.workerId with
          | some w => decide (w < s.workers.length)
          | none => false
        | none => false)
  | none => false

/-- The conditions under which an event can actually be pending in a
reachable execution. -/
def EventOK (s : EnvState) : Event → Prop
  | .jobArrival job =>
    (lookupJob s job.id).isNone = true ∧ JobWF s.workers.length job ∧
      FreshJob job
  | .workerArrival w j o =>
    w < s.workers.length ∧ workerArrivalOK s j o = true
  | .taskCompletion j o tid => taskCompletionOK s j o tid = true

/-- Every task id in `acc` was assigned to the operation `(j, o)`: it is
processing, its task record carries a valid worker id and an accepted time
(so pushing its completion event cannot fail). -/
def PushTidOK (s : EnvState) (j o : ℕ) (acc : List ℕ) : Prop :=
  ∀ tid ∈ acc, ∃ op task w, getOp s j o = some op ∧
    op.tasks.get? tid = some task ∧ task.workerId = some w ∧
    w < s.workers.length ∧ task.tAccepted.isSome = true ∧
    tid ∈ op.processingTasks

/-- `s'` differs from `s` in the job table only at job `j`, which was `jb` and
became `jbP` (and the table's id multiset is unchanged). -/
def JobsSurgery (s s' : EnvState) (j : ℕ) (jb jbP : Job) : Prop :=
  lookupJob s j = some jb ∧ lookupJob s' j = some jbP ∧
  (∀ j', j' ≠ j → lookupJob s' j' = lookupJob s j') ∧
  (∀ x ∈ s'.jobs, x = jbP ∨ (x ∈ s.jobs ∧ x.id ≠ j)) ∧
  s'.jobs.map Job.id = s.jobs.map Job.id

/-- One transition of the engine: an action application or the processing of
one popped event (the wall clock set to the event's time). -/
inductive EngineAct where
  | action (j o prlvl : ℕ)
  | event (t : ℚ) (e : Event)

def ActOK (s : EnvState) : EngineAct → Prop
  | .action j o _ => (j, o) ∈ s.frontierOps
  | .event _ e => EventOK s e

def applyAct (s : EnvState) : EngineAct → EnvState
  | .action j o prlvl => (takeAction s j o prlvl).1
  | .event t e => (processSchedulingEvent { s with wallTime := t } e).1

/-! ## Concrete scenarios

Small concrete episodes, built through the public API (`resetEnv` /
`stepEnv`), used as counterexamples, failing inputs and witnesses. -/

def freshTask : Task := { workerId := none, tAccepted := none, tCompleted := none }

/-- A fresh operation with two tasks, unit worker type 0, duration 100. -/
def opA : Op :=
  { numTasks := 2
    remainingTasks := [0, 1]
    processingTasks := []
    completedTasks := []
    tasks := [freshTask, freshTask]
    taskDuration := fun _ => 100
    compatTypes := [0] }

/-- A single-operation job with two parallel tasks, arriving at time 0. -/
def jobA : Job :=
  { id := 0, ops := [opA], dagEdges := [], tArrival := 0, tCompleted := none,
    localWorkers := [], saturatedOpCount := 0, activeOps := [0] }

def idleWorker : Worker := { type_ := 0, task := none, jobId := none, isMoving := false }

def dummyState : EnvState := resetEnv [] []

/-- Scenario A: one two-task job, two workers. -/
def sA0 : EnvState := resetEnv [(0, .jobArrival jobA)] [idleWorker, idleWorker]

/-- Scenario A after `step(None)`: the job has arrived, frontier = {(0,0)}. -/
def sA1 : EnvState := ((stepEnv 10 sA0 none).toOption.map Prod.fst).getD dummyState

/-- Scenario A's second step: request two workers for the frontier operation
and run the episode to its end. -/
def stepA2 : Except PyErr (EnvState × ℚ × Bool) := stepEnv 10 sA1 (some (0, 0, 2))

/-- A fresh operation with a single task. -/
def opOne : Op :=
  { numTasks := 1, remainingTasks := [0], processingTasks := [], completedTasks := [],
    tasks := [freshTask], taskDuration := fun _ => 100, compatTypes := [0] }

/-- Scenario C, first job: a single one-task operation, arriving at time 0. -/
def jobC : Job :=
  { id := 0, ops := [opOne], dagEdges := [], tArrival := 0, tCompleted := none,
    localWorkers := [], saturatedOpCount := 0, activeOps := [0] }

/-- Scenario C, second job: identical, arriving at time 2001 (between the
worker's arrival at its target job and the task's completion). -/
def jobD : Job :=
  { id := 1, ops := [opOne], dagEdges := [], tArrival := 2001, tCompleted := none,
    localWorkers := [], saturatedOpCount := 0, activeOps := [0] }

/-- Scenario C: two single-task jobs, one worker. -/
def sC0 : EnvState := resetEnv [(0, .jobArrival jobC), (2001, .jobArrival jobD)] [idleWorker]

def sC1 : EnvState := ((stepEnv 10 sC0 none).toOption.map Prod.fst).getD dummyState

/-- Scenario C after the second step (action `(0,0,1)`): the worker was sent,
arrived and saturated operation `(0,0)`; the step stopped on job 1's arrival,
leaving `(0,0)` saturated but not complete. -/
def sC2 : EnvState := ((stepEnv 10 sC1 (some (0, 0, 1))).toOption.map Prod.fst).getD dummyState

/-- A saturated two-task operation with both tasks processing on workers 0
and 1 (the state reached mid-episode in scenario A at time 2100). -/
def opC5 : Op :=
  { numTasks := 2, remainingTasks := [], processingTasks := [0, 1], completedTasks := [],
    tasks := [{ workerId := some 0, tAccepted := some 2000, tCompleted := none },
              { workerId := some 1, tAccepted := some 2000, tCompleted := none }],
    taskDuration := fun _ => 100, compatTypes := [0] }

def jobC5 : Job :=
  { id := 0, ops := [opC5], dagEdges := [], tArrival := 0, tCompleted := none,
    localWorkers := [0, 1], saturatedOpCount := 1, activeOps := [0] }

def busyWorker (j o tid : ℕ) : Worker :=
  { type_ := 0, task := some (j, o, tid), jobId := some 0, isMoving := false }

/-- The engine state of scenario A just before the first `TaskCompletion`
event is processed: operation `(0,0)` is saturated, both its tasks are
processing, no worker is available. -/
def sC5 : EnvState :=
  { timeline := [(2100, .taskCompletion 0 0 1)]
    workers := [busyWorker 0 0 0, busyWorker 0 0 1]
    wallTime := 2100
    jobs := [jobC5]
    activeJobIds := [0]
    completedJobIds := []
    frontierOps := ∅
    saturatedOps := {(0, 0)}
    availWorkerIds := []
    assertFail := false }

/-- Processing the completion of task 0 of the saturated operation in `sC5`. -/
def c5res : EnvState × Bool := processTaskCompletion sC5 0 0 0

/-- A fresh one-task operation compatible only with worker type 1. -/
def op7 : Op :=
  { numTasks := 1, remainingTasks := [0], processingTasks := [], completedTasks := [],
    tasks := [freshTask], taskDuration := fun _ => 100, compatTypes := [1] }

def job7 : Job :=
  { id := 0, ops := [op7], dagEdges := [], tArrival := 0, tCompleted := none,
    localWorkers := [], saturatedOpCount := 0, activeOps := [0] }

/-- Scenario for C7: one frontier operation compatible only with type-1
workers, one available worker of type 5. -/
def s7 : EnvState :=
  { timeline := []
    workers := [{ type_ := 5, task := none, jobId := none, isMoving := false }]
    wallTime := 0
    jobs := [job7]
    activeJobIds := [0]
    completedJobIds := []
    frontierOps := {(0, 0)}
    saturatedOps := ∅
    availWorkerIds := [0]
    assertFail := false }

/-- The availability condition as claim C7 states it for the env: some
frontier operation and some available worker compatible with (assignable to)
some frontier operation. -/
def compatActionsAvailable (s : EnvState) : Bool :=
  decide (∃ p ∈ s.frontierOps,
    (s.availWorkerIds.any fun wIdx =>
      match getOp s p.1 p.2, s.workers.get? wIdx with
      | some op, some wk => wk.canAssign op
      | _, _ => false) = true)

/-- Scenario for C6: a job with a local idle worker (as after a worker
arrival at a saturated or completed operation), whose single fresh frontier
operation has two tasks. -/
def job6 : Job :=
  { id := 0, ops := [opA], dagEdges := [], tArrival := 0, tCompleted := none,
    localWorkers := [0], saturatedOpCount := 0, activeOps := [0] }

def s6 : EnvState :=
  { timeline := []
    workers := [{ type_ := 0, task := none, jobId := some 0, isMoving := false }]
    wallTime := 0
    jobs := [job6]
    activeJobIds := [0]
    completedJobIds := []
    frontierOps := {(0, 0)}
    saturatedOps := ∅
    availWorkerIds := [0]
    assertFail := false }

/-- The number of available-set workers that `can_assign` the operation
(those `_send_more_workers` can pick from). -/
def numAvailCompatible (s : EnvState) (j o : ℕ) : ℕ :=
  match getOp s j o with
  | some op =>
    (s.availWorkerIds.filter fun wIdx =>
      match s.workers.get? wIdx with
      | some wk => wk.canAssign op
      | none => false).length
  | none => 0

/-- Running a list of engine transitions in order. -/
def runActs (s : EnvState) : List EngineAct → EnvState
  | [] => s
  | a :: rest => runActs (applyAct s a) rest

/-- Every transition of the list is legal in the state where it is applied:
actions reference frontier operations and events are well formed (as the
`step` loop produces them). -/
def ActsOK (s : EnvState) : List EngineAct → Prop
  | [] => True
  | a :: rest => ActOK s a ∧ ActsOK (applyAct s a) rest

/-- A small invariant engine state: one arrived single-operation job (`jobC`)
whose operation is in the frontier, one idle available worker. -/
def sW : EnvState :=
  { timeline := []
    workers := [idleWorker]
    wallTime := 0
    jobs := [jobC]
    activeJobIds := [0]
    completedJobIds := []
    frontierOps := {(0, 0)}
    saturatedOps := ∅
    availWorkerIds := [0]
    assertFail := false }

/-! ## Theorems -/

/-! ### State-preservation lemmas -/

theorem find?_map_of_pred (p : α → Bool) (g : α → α) (hg : ∀ x, p (g x) = p x)
    (l : List α) : (l.map g).find? p = (l.find? p).map g := by
  rw [List.find?_map]
  have : (p ∘ g) = p := funext hg
  rw [this]

theorem lookupJob_updateJob (s : EnvState) (j' : ℕ) (f : Job → Job)
    (hid : ∀ jb, (f jb).id = jb.id) (j : ℕ) :
    lookupJob (updateJob s j' f) j =
      (lookupJob s j).map fun jb => if jb.id == j' then f jb else jb := by
  unfold lookupJob updateJob
  exact find?_map_of_pred _ _ (fun jb => by split <;> simp [hid]) s.jobs

theorem updateJob_workers (s : EnvState) (j : ℕ) (f : Job → Job) :
    (updateJob s j f).workers = s.workers := rfl

theorem updateJob_avail (s : EnvState) (j : ℕ) (f : Job → Job) :
    (updateJob s j f).availWorkerIds = s.availWorkerIds := rfl

theorem updateWorker_jobs (s : EnvState) (w : ℕ) (f : Worker → Worker) :
    (updateWorker s w f).jobs = s.jobs := by
  unfold updateWorker
  cases s.workers.get? w <;> rfl

theorem updateWorker_get?_ne (s : EnvState) (w : ℕ) (f : Worker → Worker) (w' : ℕ)
    (h : w' ≠ w) :
    (updateWorker s w f).workers.get? w' = s.workers.get? w' := by
  unfold updateWorker
  cases hw : s.workers.get? w with
  | none => rfl
  | some wk =>
    simp only [List.get?_eq_getElem?]
    exact List.getElem?_set_ne (Ne.symm h)

theorem updateWorker_workers_length (s : EnvState) (w : ℕ) (f : Worker → Worker) :
    (updateWorker s w f).workers.length = s.workers.length := by
  unfold updateWorker
  cases s.workers.get? w with
  | none => rfl
  | some wk => simp

theorem getOp_congr_jobs (s s' : EnvState) (h : s'.jobs = s.jobs) (j o : ℕ) :
    getOp s' j o = getOp s j o := by
  unfold getOp lookupJob
  rw [h]

theorem getOp_updateJob (s : EnvState) (j' : ℕ) (f : Job → Job)
    (hid : ∀ jb, (f jb).id = jb.id) (hops : ∀ jb, (f jb).ops = jb.ops) (j o : ℕ) :
    getOp (updateJob s j' f) j o = getOp s j o := by
  unfold getOp
  rw [lookupJob_updateJob s j' f hid j]
  cases lookupJob s j with
  | none => rfl
  | some jb =>
    simp only [Option.map_some', Option.some_bind]
    split <;> simp [hops]

theorem getOp_updateWorker (s : EnvState) (w : ℕ) (f : Worker → Worker) (j o : ℕ) :
    getOp (updateWorker s w f) j o = getOp s j o :=
  getOp_congr_jobs s _ (updateWorker_jobs s w f) j o

theorem addAvail_jobs (s : EnvState) (w : ℕ) : (addAvail s w).jobs = s.jobs := by
  unfold addAvail
  split <;> rfl

theorem removeAvail_jobs (s : EnvState) (w : ℕ) : (removeAvail s w).jobs = s.jobs := by
  unfold removeAvail
  split <;> rfl

theorem pushEvent_jobs (s : EnvState) (t : ℚ) (e : Event) :
    (pushEvent s t e).jobs = s.jobs := rfl

theorem flagFail_jobs (s : EnvState) : (flagFail s).jobs = s.jobs := rfl

theorem removeAvail_workers (s : EnvState) (w : ℕ) :
    (removeAvail s w).workers = s.workers := by
  unfold removeAvail
  split <;> rfl

theorem addAvail_workers (s : EnvState) (w : ℕ) :
    (addAvail s w).workers = s.workers := by
  unfold addAvail
  split <;> rfl

theorem getOp_flagFail (s : EnvState) (j o : ℕ) :
    getOp (flagFail s) j o = getOp s j o := rfl

theorem getOp_pushEvent (s : EnvState) (t : ℚ) (e : Event) (j o : ℕ) :
    getOp (pushEvent s t e) j o = getOp s j o := rfl

theorem getOp_removeAvail (s : EnvState) (w j o : ℕ) :
    getOp (removeAvail s w) j o = getOp s j o :=
  getOp_congr_jobs s _ (removeAvail_jobs s w) j o

theorem getOp_addAvail (s : EnvState) (w j o : ℕ) :
    getOp (addAvail s w) j o = getOp s j o :=
  getOp_congr_jobs s _ (addAvail_jobs s w) j o

theorem getOp_updateJob_local (s : EnvState) (j'' w j o : ℕ) :
    getOp (updateJob s j'' fun jb => { jb with localWorkers := jb.localWorkers.erase w })
      j o = getOp s j o :=
  getOp_updateJob s j''
    (fun jb => { jb with localWorkers := jb.localWorkers.erase w })
    (fun _ => rfl) (fun _ => rfl) j o

theorem getOp_sendWorker (s : EnvState) (w j' o' j o : ℕ) :
    getOp (sendWorker s w j' o') j o = getOp s j o := by
  simp only [sendWorker, pushWorkerArrivalEvent]
  cases h1 : s.workers.get? w with
  | none => rfl
  | some wk =>
    cases h2 : wk.jobId with
    | none =>
      simp only [h2]
      rw [getOp_pushEvent, getOp_removeAvail, getOp_updateWorker]
    | some oldJ =>
      simp only [h2]
      cases h3 : lookupJob s oldJ with
      | none =>
        simp only [h3]
        rw [getOp_pushEvent, getOp_removeAvail, getOp_updateWorker, getOp_flagFail]
      | some oldJb =>
        simp only [h3]
        split
        · rw [getOp_pushEvent, getOp_removeAvail, getOp_updateWorker, getOp_updateWorker,
            getOp_updateJob_local]
        · rw [getOp_pushEvent, getOp_removeAvail, getOp_updateWorker, getOp_flagFail]

theorem pushArrival_get?_ne (t : EnvState) (w w' j' o' : ℕ) (hne : w' ≠ w) :
    (pushWorkerArrivalEvent (removeAvail
        (updateWorker t w fun wv => { wv with isMoving := true }) w) w j' o').workers.get? w' =
      t.workers.get? w' := by
  show (removeAvail (updateWorker t w _) w).workers.get? w' = _
  rw [removeAvail_workers]
  exact updateWorker_get?_ne t w _ w' hne

theorem sendWorker_get?_ne (s : EnvState) (w j' o' w' : ℕ) (h : w' ≠ w) :
    (sendWorker s w j' o').workers.get? w' = s.workers.get? w' := by
  simp only [sendWorker]
  cases h1 : s.workers.get? w with
  | none => rfl
  | some wk =>
    cases h2 : wk.jobId with
    | none =>
      simp only [h2]
      exact pushArrival_get?_ne s w w' j' o' h
    | some oldJ =>
      simp only [h2]
      cases h3 : lookupJob s oldJ with
      | none =>
        simp only [h3]
        exact pushArrival_get?_ne (flagFail s) w w' j' o' h
      | some oldJb =>
        simp only [h3]
        split
        · rw [pushArrival_get?_ne _ w w' j' o' h, updateWorker_get?_ne _ _ _ _ h]
          rfl
        · exact pushArrival_get?_ne (flagFail s) w w' j' o' h

theorem lookupJob_id (s : EnvState) (j : ℕ) (jb : Job) (h : lookupJob s j = some jb) :
    jb.id = j := by
  have := List.find?_some h
  simpa using this

theorem getOp_unpack (s : EnvState) (j o : ℕ) (op : Op) (h : getOp s j o = some op) :
    ∃ jb, lookupJob s j = some jb ∧ jb.ops.get? o = some op := by
  rw [getOp] at h
  cases hl : lookupJob s j with
  | none => rw [hl] at h; simp at h
  | some jb =>
    rw [hl] at h
    simp only [Option.some_bind] at h
    exact ⟨jb, rfl, h⟩

theorem getOp_updateOp (s : EnvState) (j o : ℕ) (f : Op → Op) (op : Op)
    (h : getOp s j o = some op) :
    getOp (updateOp s j o f) j o = some (f op) := by
  obtain ⟨jb, hjb, hop⟩ := getOp_unpack s j o op h
  have hlt : o < jb.ops.length := by
    rw [List.get?_eq_getElem?] at hop
    exact (List.getElem?_eq_some_iff.mp hop).1
  rw [getOp, updateOp, lookupJob_updateJob _ _ _ (fun jb' => by split <;> rfl), hjb]
  have hid : (jb.id == j) = true := by simp [lookupJob_id s j jb hjb]
  simp only [Option.map_some', hid, if_pos, Option.some_bind, hop]
  simp only [List.get?_eq_getElem?, List.getElem?_set_self hlt]

theorem getOp_updateOp_ne (s : EnvState) (j o : ℕ) (f : Op → Op) (j' o' : ℕ)
    (hne : j ≠ j' ∨ o ≠ o') :
    getOp (updateOp s j o f) j' o' = getOp s j' o' := by
  rw [getOp, updateOp, lookupJob_updateJob _ _ _ (fun jb' => by split <;> rfl), getOp]
  cases hl : lookupJob s j' with
  | none => rfl
  | some jb =>
    have hid : jb.id = j' := lookupJob_id s j' jb hl
    simp only [Option.map_some', Option.some_bind]
    rcases hne with hne | hne
    · have : (jb.id == j) = false := by simp [hid]; omega
      simp [this]
    · split
      · split
        · simp only [List.get?_eq_getElem?, List.getElem?_set_ne hne]
        · rfl
      · rfl

/-- Auxiliary: the reward fold of `_calculate_reward` stays non-positive when
every active job has arrived by the current wall time and has no completion
time, and the previous wall time does not exceed the current one. -/
theorem calcRewardFold_nonpos (s : EnvState) (prevTime : ℚ)
    (hprev : prevTime ≤ s.wallTime) :
    ∀ (l : List ℕ) (acc : ℚ),
      (∀ j ∈ l,
        match lookupJob s j with
        | some jb => jb.tArrival ≤ s.wallTime ∧ jb.tCompleted = none
        | none => True) →
      acc ≤ 0 →
      l.foldl
        (fun acc j =>
          match lookupJob s j with
          | some jb =>
            let startT := max jb.tArrival prevTime
            let endT := match jb.tCompleted with
              | some tc => min tc s.wallTime
              | none => s.wallTime
            acc - (endT - startT)
          | none => acc)
        acc ≤ 0 := by
  intro l
  induction l with
  | nil => intro acc _ hacc; simpa using hacc
  | cons j rest ih =>
    intro acc hl hacc
    have hj := hl j (by simp)
    have hrest : ∀ j' ∈ rest,
        match lookupJob s j' with
        | some jb => jb.tArrival ≤ s.wallTime ∧ jb.tCompleted = none
        | none => True := fun j' hj' => hl j' (by simp [hj'])
    simp only [List.foldl_cons]
    cases hlook : lookupJob s j with
    | none => simpa [hlook] using ih acc hrest hacc
    | some jb =>
      rw [hlook] at hj
      obtain ⟨harr, hcomp⟩ := hj
      have hstart : max jb.tArrival prevTime ≤ s.wallTime := max_le harr hprev
      have hstep : acc - (s.wallTime - max jb.tArrival prevTime) ≤ 0 := by
        have : 0 ≤ s.wallTime - max jb.tArrival prevTime := by linarith
        linarith
      simpa [hlook, hcomp] using ih _ hrest hstep

/-- C10: for every call to `step`, assuming every active job's arrival time is
at most the current wall time (and, active, has no completion time) and wall
time is non-decreasing, the reward `_calculate_reward` returns is
non-positive: each active job contributes a non-negative sojourn increment,
negated and scaled. -/
theorem c10_reward_nonpositive (s : EnvState) (prevTime : ℚ)
    (hprev : prevTime ≤ s.wallTime) (hjobs : activeJobsRewardOK s = true) :
    calculateReward s prevTime ≤ 0 := by
  have hfold := calcRewardFold_nonpos s prevTime hprev s.activeJobIds 0 ?_ le_rfl
  · unfold calculateReward
    refine mul_nonpos_iff.mpr (Or.inr ⟨hfold, by norm_num [REWARD_SCALE]⟩)
  · intro j hj
    have := (List.all_eq_true.mp hjobs) j hj
    cases hlook : lookupJob s j with
    | none => simp
    | some jb =>
      rw [hlook] at this
      simp only [Bool.and_eq_true, decide_eq_true_eq, Option.isNone_iff_eq_none] at this
      simpa using this

/-- Witness for C10 at the concrete state `sC5`. -/
theorem c10_witness :
    (0 : ℚ) ≤ sC5.wallTime ∧ activeJobsRewardOK sC5 = true ∧
      calculateReward sC5 0 ≤ 0 :=
  ⟨by decide, by decide, c10_reward_nonpositive sC5 0 (by decide) (by decide)⟩

/-- C5: processing a `TaskCompletion` whose operation is saturated but not
yet complete marks the task complete on its operation and unbinds the worker,
but does NOT put the worker into the available-worker set, contradicting the
spec's "free the worker (available)": at `sC5`, completing task 0 leaves
`avail_worker_ids` empty although worker 0 is idle and not moving.  (In
scenario A this exact state is reached through `reset`/`step` alone.) -/
theorem c5_worker_not_made_available :
    c5res.1.availWorkerIds = [] ∧
    c5res.1.workers.get? 0 =
      some { type_ := 0, task := none, jobId := some 0, isMoving := false } ∧
    ((getOp c5res.1 0 0).map fun op =>
        (op.completedTasks, op.saturated, op.isComplete)) = some ([0], true, false) ∧
    ((getOp c5res.1 0 0).map fun op => (op.tasks.get? 0).map Task.tCompleted) =
      some (some (some 2100)) ∧
    c5res.1.assertFail = false := by
  decide

attribute [local semireducible] Rat.add Rat.sub Rat.mul Rat.inv in
/-- C1 counterexample: in the reachable state `sC2` (reset, `step(None)`,
`step((0,0,1))`), operation `(0,0)` satisfies the claim's condition — all
predecessors completed (vacuously), itself not completed, its job arrived —
yet it is not in the frontier set (it is saturated and was moved to the
saturated set). -/
theorem c1_counterexample :
    frontierClaimCond sC2 0 0 = true ∧
    decide ((0, 0) ∈ sC2.frontierOps) = false ∧
    decide ((0, 0) ∈ sC2.saturatedOps) = true ∧
    sC2.assertFail = false := by
  decide

attribute [local semireducible] Rat.add Rat.sub Rat.mul Rat.inv in
/-- C3 at the failing input: in scenario A the second `step` call returns
`done = false` although after it the timeline is empty and every worker is
neither bound to a task nor in transit.  (Worker 0 was dropped from the
available set when it completed a task of the then-saturated operation, so
`len(avail_worker_ids) == len(workers)` fails.) -/
theorem c3_done_flag_failing_input :
    (stepA2.toOption.map fun x => x.2.2) = some false ∧
    (stepA2.toOption.map fun x => x.1.timeline.isEmpty) = some true ∧
    (stepA2.toOption.map fun x => x.1.workers.all fun wk => wk.task.isNone && !wk.isMoving) =
      some true ∧
    (stepA2.toOption.map fun x => x.1.assertFail) = some false := by
  decide

attribute [local semireducible] Rat.add Rat.sub Rat.mul Rat.inv in
/-- C4 at the failing input: in scenario A the job completes during the second
`step` (at wall time 2100, the step having started at wall time 0), so the
claimed formula gives the job a contribution of
`min(2100, 2100) - max(0, 0) = 2100` and a reward of `-REWARD_SCALE * 2100`;
but `_process_job_completion` removed the job from `active_job_ids` before
`_calculate_reward` ran, so the code returns reward `0`. -/
theorem c4_reward_failing_input :
    sA1.wallTime = 0 ∧
    (stepA2.toOption.map fun x => x.2.1) = some 0 ∧
    (stepA2.toOption.map fun x => x.1.completedJobIds) = some [0] ∧
    (stepA2.toOption.map fun x => x.1.wallTime) = some 2100 ∧
    (stepA2.toOption.map fun x => (lookupJob x.1 0).map Job.tCompleted) =
      some (some (some 2100)) ∧
    (stepA2.toOption.map fun x => (lookupJob x.1 0).map Job.tArrival) = some (some 0) ∧
    some (-(REWARD_SCALE * 2100)) ≠ (stepA2.toOption.map fun x => x.2.1) := by
  decide

attribute [local semireducible] Rat.add Rat.sub Rat.mul Rat.inv in
/-- C2 counterexample: at the reachable state `sC2`, job 0 and operation 0
exist but `(0,0)` is not in the frontier; `step` with that action fails with
Python's generic `AssertionError` (from `assert op in self.frontier_ops`),
not with a distinct `InvalidActionError`. -/
theorem c2_counterexample :
    (match stepEnv 5 sC2 (some (0, 0, 1)) with
      | .error e => some e
      | .ok _ => none) = some PyErr.assertionError ∧
    (lookupJob sC2 0).isSome = true ∧
    (getOp sC2 0 0).isSome = true ∧
    decide ((0, 0) ∈ sC2.frontierOps) = false ∧
    PyErr.assertionError ≠ PyErr.invalidActionError := by
  decide

/-- C2 amended: a `step` whose action references a non-existent job fails
with `KeyError`, a missing operation with `IndexError`, and a non-frontier
operation with a plain `AssertionError`; in each case `step` does not proceed.
The `sys_state.py` validator `is_action_valid` likewise reports a
non-frontier action by returning `False`, not by raising a distinct
`InvalidActionError`. -/
theorem c2_step_error_behaviour :
    (∀ (fuel : ℕ) (s : EnvState) (j o n : ℕ), lookupJob s j = none →
      stepEnv fuel s (some (j, o, n)) = Except.error PyErr.keyError) ∧
    (∀ (fuel : ℕ) (s : EnvState) (j o n : ℕ),
      (lookupJob s j).isSome = true → getOp s j o = none →
      stepEnv fuel s (some (j, o, n)) = Except.error PyErr.indexError) ∧
    (∀ (fuel : ℕ) (s : EnvState) (j o n : ℕ),
      (getOp s j o).isSome = true → (j, o) ∉ s.frontierOps →
      stepEnv fuel s (some (j, o, n)) = Except.error PyErr.assertionError) ∧
    (∀ (ss : SysState) (j st : ℕ),
      ((ss.jobs.get? j).bind fun jb => jb.stages.get? st).isSome = true →
      ss.frontierStagesMask.get? (j * ss.maxStages + st) = some false →
      ss.isActionValid ⟨(j : ℤ), (st : ℤ)⟩ = some false) := by
  refine ⟨?_, ?_, ?_, ?_⟩
  · intro fuel s j o n h
    simp [stepEnv, h]
  · intro fuel s j o n h1 h2
    obtain ⟨jb, hjb⟩ := Option.isSome_iff_exists.mp h1
    simp only [getOp, hjb, Option.some_bind, List.get?_eq_getElem?] at h2
    simp [stepEnv, hjb, h2]
  · intro fuel s j o n h1 h2
    obtain ⟨jb, hjb⟩ : ∃ jb, lookupJob s j = some jb := by
      cases hl : lookupJob s j with
      | none => rw [getOp, hl] at h1; simp at h1
      | some jb => exact ⟨jb, rfl⟩
    rw [getOp, hjb] at h1
    simp only [Option.some_bind, List.get?_eq_getElem?] at h1
    obtain ⟨op, hop⟩ := Option.isSome_iff_exists.mp h1
    simp [stepEnv, hjb, hop, h2, List.get?_eq_getElem?]
  · intro ss j st h1 h2
    obtain ⟨stg, hstg⟩ := Option.isSome_iff_exists.mp h1
    rw [SysState.isActionValid]
    split_ifs with hA hB
    · exfalso
      simp only [INVALID_ID, Bool.or_eq_true, beq_iff_eq] at hA
      omega
    · exfalso
      simp only [Bool.or_eq_true, decide_eq_true_eq] at hB
      omega
    · simp only [Int.toNat_natCast, hstg, h2]

attribute [local semireducible] Rat.add Rat.sub Rat.mul Rat.inv in
/-- Witness for C2 at concrete inputs: a state with no job 0 at all
(`dummyState`), and the reachable state `sC2` with its non-frontier
operation; plus a one-stage `sys_state` whose mask bit is off. -/
theorem c2_witness :
    lookupJob dummyState 0 = none ∧
    stepEnv 1 dummyState (some (0, 0, 1)) = Except.error PyErr.keyError ∧
    (getOp sC2 0 0).isSome = true ∧ (0, 0) ∉ sC2.frontierOps ∧
    stepEnv 5 sC2 (some (0, 0, 1)) = Except.error PyErr.assertionError ∧
    SysState.isActionValid
      { jobs := [{ stages := [{ jobId := 0, id := 0, compatTypes := [0] }] }],
        workers := [], maxStages := 1, frontierStagesMask := [false] }
      ⟨(0 : ℤ), (0 : ℤ)⟩ = some false :=
  ⟨by rfl, c2_step_error_behaviour.1 1 dummyState 0 0 1 (by rfl),
   by decide, by decide,
   c2_step_error_behaviour.2.2.1 5 sC2 0 0 1 (by decide) (by decide),
   c2_step_error_behaviour.2.2.2
     { jobs := [{ stages := [{ jobId := 0, id := 0, compatTypes := [0] }] }],
       workers := [], maxStages := 1, frontierStagesMask := [false] }
     0 0 (by decide) (by decide)⟩

theorem getOp_sendMoreWorkersAux (op : Op) (j o : ℕ) :
    ∀ (ids : List ℕ) (n : ℕ) (s : EnvState) (j' o' : ℕ),
      getOp (sendMoreWorkersAux op j o ids n s).1 j' o' = getOp s j' o' := by
  intro ids
  induction ids with
  | nil => intro n s j' o'; cases n <;> rfl
  | cons w rest ih =>
    intro n s j' o'
    cases n with
    | zero => rfl
    | succ n =>
      simp only [sendMoreWorkersAux]
      cases hw : s.workers.get? w with
      | none => rfl
      | some wk =>
        by_cases hca : wk.canAssign op = true
        · simp only [hca, if_true]
          cases heq : sendMoreWorkersAux op j o rest n (sendWorker s w j o) with
          | mk s2 cnt =>
            have := ih n (sendWorker s w j o) j' o'
            rw [heq] at this
            simpa [this] using getOp_sendWorker s w j o j' o'
        · simp only [hca, Bool.false_eq_true, if_false]
          exact ih (n + 1) s j' o'

/-- The loop of `_send_more_workers` sends exactly
`min(count, number of listed workers that can_assign the op)` workers. -/
theorem sendMoreWorkersAux_count (op : Op) (j o : ℕ) :
    ∀ (ids : List ℕ) (n : ℕ) (s : EnvState),
      ids.Nodup →
      (∀ w ∈ ids, (s.workers.get? w).isSome = true) →
      (sendMoreWorkersAux op j o ids n s).2 =
        min n ((ids.filter fun w =>
          match s.workers.get? w with
          | some wk => wk.canAssign op
          | none => false).length) := by
  intro ids
  induction ids with
  | nil => intro n s _ _; cases n <;> simp [sendMoreWorkersAux]
  | cons w rest ih =>
    intro n s hnd hval
    cases n with
    | zero => simp [sendMoreWorkersAux]
    | succ n =>
      obtain ⟨wk, hwk⟩ := Option.isSome_iff_exists.mp (hval w (by simp))
      simp only [sendMoreWorkersAux, hwk]
      have hne : ∀ w' ∈ rest, w' ≠ w := by
        intro w' hw' he
        exact (List.nodup_cons.mp hnd).1 (he ▸ hw')
      by_cases hca : wk.canAssign op = true
      · simp only [hca, if_true]
        cases heq : sendMoreWorkersAux op j o rest n (sendWorker s w j o) with
        | mk s2 cnt =>
          have hrest_val : ∀ w' ∈ rest,
              ((sendWorker s w j o).workers.get? w').isSome = true := by
            intro w' hw'
            rw [sendWorker_get?_ne s w j o w' (hne w' hw')]
            exact hval w' (by simp [hw'])
          have hcnt := ih n (sendWorker s w j o) (List.nodup_cons.mp hnd).2 hrest_val
          rw [heq] at hcnt
          have hfil : (rest.filter fun w' =>
              match (sendWorker s w j o).workers.get? w' with
              | some wk => wk.canAssign op
              | none => false) = rest.filter fun w' =>
              match s.workers.get? w' with
              | some wk => wk.canAssign op
              | none => false := by
            apply List.filter_congr
            intro w' hw'
            rw [sendWorker_get?_ne s w j o w' (hne w' hw')]
          rw [hfil] at hcnt
          have hfc : ((w :: rest).filter fun w' =>
              match s.workers.get? w' with
              | some wk => wk.canAssign op
              | none => false) = w :: rest.filter fun w' =>
              match s.workers.get? w' with
              | some wk => wk.canAssign op
              | none => false := by
            rw [List.filter_cons_of_pos]
            rw [hwk]
            exact hca
          rw [hfc, List.length_cons]
          simp only [hcnt]
          omega
      · have hca' : wk.canAssign op = false := by
          cases hcab : wk.canAssign op
          · rfl
          · exact absurd hcab hca
        simp only [hca', Bool.false_eq_true, if_false]
        have hfc : ((w :: rest).filter fun w' =>
            match s.workers.get? w' with
            | some wk => wk.canAssign op
            | none => false) = rest.filter fun w' =>
            match s.workers.get? w' with
            | some wk => wk.canAssign op
            | none => false := by
          rw [List.filter_cons_of_neg]
          rw [hwk]
          simp [hca']
        rw [hfc]
        exact ih (n + 1) s (List.nodup_cons.mp hnd).2 fun w' hw' => hval w' (by simp [hw'])

/-- Each pass of the `_schedule_workers` loop assigns at most the operation's
remaining tasks (assignment pops one remaining task and the loop breaks on
saturation). -/
theorem scheduleWorkersAux_length (j o : ℕ) :
    ∀ (ids : List ℕ) (s : EnvState) (acc : List ℕ) (op : Op),
      getOp s j o = some op →
      (scheduleWorkersAux j o ids s acc).2.length ≤ acc.length + op.numRemainingTasks := by
  intro ids
  induction ids with
  | nil => intro s acc op _; simp [scheduleWorkersAux]
  | cons w rest ih =>
    intro s acc op hop
    simp only [scheduleWorkersAux, hop]
    by_cases hsat : op.saturated = true
    · simp only [hsat, if_true]
      simp
    · have hsat' : op.saturated = false := by
        cases h : op.saturated
        · rfl
        · exact absurd h hsat
      simp only [hsat', Bool.false_eq_true, if_false]
      cases hw : s.workers.get? w with
      | none => simp
      | some wk =>
        by_cases hca : wk.canAssign op = true
        · simp only [hca, if_true]
          simp only [assignWorker, hop]
          by_cases hpre : op.numSaturatedTasks < op.numTasks
          · have hd : decide (op.numSaturatedTasks < op.numTasks) = true := by
              simpa using hpre
            simp only [hd, Bool.not_true, Bool.false_eq_true, if_false]
            cases hrem : op.remainingTasks with
            | nil =>
              exfalso
              rw [Op.saturated, hrem] at hsat'
              simp at hsat'
            | cons tid rest' =>
              have hop3 : getOp
                  (updateWorker
                    (if rest'.isEmpty then
                      updateJob (updateOp s j o (startTask w s.wallTime tid rest')) j
                        bumpSaturated
                    else updateOp s j o (startTask w s.wallTime tid rest'))
                    w fun wk' => { wk' with task := some (j, o, tid) }) j o =
                  some (startTask w s.wallTime tid rest' op) := by
                rw [getOp_updateWorker]
                split
                · rw [getOp_updateJob _ j bumpSaturated (fun _ => rfl) (fun _ => rfl)]
                  exact getOp_updateOp s j o _ op hop
                · exact getOp_updateOp s j o _ op hop
              have hrec := ih _ (acc ++ [tid]) _ hop3
              refine le_trans hrec ?_
              simp only [List.length_append, List.length_cons, List.length_nil]
              have h1 : op.numRemainingTasks = rest'.length + 1 := by
                rw [Op.numRemainingTasks, hrem, List.length_cons]
              have h2 : (startTask w s.wallTime tid rest' op).numRemainingTasks =
                  rest'.length := rfl
              omega
          · have hd : decide (op.numSaturatedTasks < op.numTasks) = false := by
              simpa using hpre
            simp only [hd, Bool.not_false, if_true]
            simp
        · have hca' : wk.canAssign op = false := by
            cases h : wk.canAssign op
            · rfl
            · exact absurd h hca
          simp only [hca', Bool.false_eq_true, if_false]
          exact ih s acc op hop

/-- C6 amended: applying an action sends exactly
`min(workerCount, number of available-set workers that can_assign the
operation)` workers into transit (never erroring, even when `workerCount`
exceeds the available count), and additionally assigns available local
workers to the operation's tasks — at most `op.numRemainingTasks` of them,
since assignment stops once the operation saturates. -/
theorem c6_send_workers_count (s : EnvState) (j o prlvl : ℕ)
    (hnd : s.availWorkerIds.Nodup)
    (hval : ∀ w ∈ s.availWorkerIds, (s.workers.get? w).isSome = true) :
    (takeAction s j o prlvl).2.1 = min prlvl (numAvailCompatible s j o) ∧
    ∀ op, getOp s j o = some op →
      (takeAction s j o prlvl).2.2.length ≤ op.numRemainingTasks := by
  have taSnd : (takeAction s j o prlvl).2.1 = (sendMoreWorkers s j o prlvl).2 ∧
      (takeAction s j o prlvl).2.2 =
        (scheduleWorkers (sendMoreWorkers s j o prlvl).1 j o).2 := by
    rw [takeAction]
    generalize sendMoreWorkers s j o prlvl = p
    obtain ⟨s1, n⟩ := p
    dsimp only
    generalize scheduleWorkers s1 j o = q
    obtain ⟨s2, tasks⟩ := q
    exact ⟨rfl, rfl⟩
  constructor
  · rw [taSnd.1, sendMoreWorkers, numAvailCompatible]
    cases hop : getOp s j o with
    | none => simp
    | some op =>
      simpa using sendMoreWorkersAux_count op j o s.availWorkerIds prlvl s hnd hval
  · intro op hop
    rw [taSnd.2]
    have hop1 : getOp (sendMoreWorkers s j o prlvl).1 j o = some op := by
      rw [sendMoreWorkers, hop]
      rw [getOp_sendMoreWorkersAux op j o s.availWorkerIds prlvl s j o]
      exact hop
    obtain ⟨jb1, hjb1, -⟩ := getOp_unpack _ j o op hop1
    simp only [scheduleWorkers, hjb1]
    simpa using
      scheduleWorkersAux_length j o jb1.localWorkers (sendMoreWorkers s j o prlvl).1 [] op hop1

attribute [local semireducible] Rat.add Rat.sub Rat.mul Rat.inv in
/-- C6 counterexample: in state `s6` (a frontier operation whose job has one
idle local worker), requesting `workerCount = 0` must per the claim assign or
send exactly `min(0, available) = 0` workers, but `_take_action` still
assigns the local worker to a task (1 worker touched). -/
theorem c6_counterexample :
    (takeAction s6 0 0 0).2.1 = 0 ∧
    (takeAction s6 0 0 0).2.2.length = 1 ∧
    min 0 (numAvailCompatible s6 0 0) = 0 ∧
    decide ((0, 0) ∈ s6.frontierOps) = true ∧
    (takeAction s6 0 0 0).1.assertFail = false := by
  decide

attribute [local semireducible] Rat.add Rat.sub Rat.mul Rat.inv in
/-- Witness for C6 at the concrete state `s6` with `workerCount = 3`. -/
theorem c6_witness :
    s6.availWorkerIds.Nodup ∧
    (∀ w ∈ s6.availWorkerIds, (s6.workers.get? w).isSome = true) ∧
    (takeAction s6 0 0 3).2.1 = min 3 (numAvailCompatible s6 0 0) ∧
    (takeAction s6 0 0 3).2.2.length ≤ opA.numRemainingTasks := by
  refine ⟨by decide, by decide, ?_, ?_⟩
  · exact (c6_send_workers_count s6 0 0 3 (by decide) (by decide)).1
  · exact (c6_send_workers_count s6 0 0 3 (by decide) (by decide)).2 opA (by rfl)

/-- C7 counterexample: in state `s7` a worker is available and a frontier
operation exists, but the worker (type 5) is not compatible with the
operation (compatible types `[1]`); the claim requires
`actionsAvailable = false`, yet the env's `are_actions_available` is true. -/
theorem c7_counterexample :
    areActionsAvailable s7 = true ∧ compatActionsAvailable s7 = false := by
  decide

/-- C7 amended: the env's `are_actions_available` is true iff at least one
worker id is in the available set and at least one operation is in the
frontier set — worker/operation compatibility is not checked.  The
`sys_state.py` variant `actions_available` does implement the claim: it is
true iff some frontier stage and some available worker are compatible. -/
theorem c7_actions_available (s : EnvState) (ss : SysState) :
    (areActionsAvailable s = true ↔ s.availWorkerIds ≠ [] ∧ s.frontierOps.Nonempty) ∧
    (ss.actionsAvailable = true ↔
      ∃ st ∈ ss.getFrontierStages, ∃ w ∈ ss.findAvailableWorkers,
        w.compatibleWith st = true) := by
  constructor
  · rw [areActionsAvailable]
    simp [List.length_pos, Finset.card_pos]
  · rw [SysState.actionsAvailable]
    by_cases hw : ss.findAvailableWorkers.length = 0
    · rw [List.length_eq_zero] at hw
      simp [hw]
    · by_cases hf : ss.getFrontierStages.length = 0
      · rw [List.length_eq_zero] at hf
        simp [hf]
      · have : (ss.findAvailableWorkers.length == 0 || ss.getFrontierStages.length == 0) =
            false := by
          simp [hw, hf]
        rw [this]
        simp only [Bool.false_eq_true, if_false, List.any_eq_true]

/-! ### Timeline monotonicity (C8) -/

@[simp] theorem wallTime_flagFail (s : EnvState) : (flagFail s).wallTime = s.wallTime := rfl

@[simp] theorem wallTime_updateJob (s : EnvState) (j : ℕ) (f : Job → Job) :
    (updateJob s j f).wallTime = s.wallTime := rfl

@[simp] theorem wallTime_updateWorker (s : EnvState) (w : ℕ) (f : Worker → Worker) :
    (updateWorker s w f).wallTime = s.wallTime := by
  unfold updateWorker
  cases s.workers.get? w <;> rfl

@[simp] theorem wallTime_addAvail (s : EnvState) (w : ℕ) :
    (addAvail s w).wallTime = s.wallTime := by
  unfold addAvail
  split <;> rfl

@[simp] theorem wallTime_removeAvail (s : EnvState) (w : ℕ) :
    (removeAvail s w).wallTime = s.wallTime := by
  unfold removeAvail
  split <;> rfl

@[simp] theorem wallTime_pushEvent (s : EnvState) (t : ℚ) (e : Event) :
    (pushEvent s t e).wallTime = s.wallTime := rfl

@[simp] theorem wallTime_updateOp (s : EnvState) (j o : ℕ) (f : Op → Op) :
    (updateOp s j o f).wallTime = s.wallTime := rfl

@[simp] theorem wallTime_moveToSaturatedIfSat (s : EnvState) (j o : ℕ) :
    (moveToSaturatedIfSat s j o).wallTime = s.wallTime := by
  unfold moveToSaturatedIfSat
  cases getOp s j o
  · rfl
  · dsimp only
    split <;> rfl

@[simp] theorem wallTime_pushTaskCompletionEvent (s : EnvState) (j o tid : ℕ) :
    (pushTaskCompletionEvent s j o tid).wallTime = s.wallTime := by
  unfold pushTaskCompletionEvent
  cases getOp s j o
  · rfl
  · dsimp only
    split
    · rfl
    · split
      · rfl
      · split <;> rfl

@[simp] theorem wallTime_assignWorker (s : EnvState) (w j o : ℕ) :
    (assignWorker s w j o).1.wallTime = s.wallTime := by
  unfold assignWorker
  cases getOp s j o
  · rfl
  · dsimp only
    split
    · rfl
    · split
      · rfl
      · simp only [wallTime_updateWorker]
        split <;> simp

@[simp] theorem wallTime_sendWorker (s : EnvState) (w j o : ℕ) :
    (sendWorker s w j o).wallTime = s.wallTime := by
  unfold sendWorker pushWorkerArrivalEvent
  cases s.workers.get? w with
  | none => rfl
  | some wk =>
    dsimp only
    rw [wallTime_pushEvent, wallTime_removeAvail, wallTime_updateWorker]
    cases wk.jobId with
    | none => rfl
    | some oldJ =>
      dsimp only
      cases lookupJob s oldJ with
      | none => rfl
      | some oldJb =>
        dsimp only
        split
        · simp
        · rfl

@[simp] theorem wallTime_scheduleWorkerOne (s : EnvState) (w j o : ℕ) :
    (scheduleWorkerOne s w j o).wallTime = s.wallTime := by
  rw [scheduleWorkerOne]
  generalize heq : assignWorker s w j o = p
  obtain ⟨s1, tid?⟩ := p
  have h1 : s1.wallTime = s.wallTime := by
    have := wallTime_assignWorker s w j o
    rw [heq] at this
    exact this
  cases tid? with
  | none => exact h1
  | some tid => simp [h1]

theorem wallTime_scheduleWorkersAux (j o : ℕ) :
    ∀ (ids : List ℕ) (s : EnvState) (acc : List ℕ),
      (scheduleWorkersAux j o ids s acc).1.wallTime = s.wallTime := by
  intro ids
  induction ids with
  | nil => intro s acc; rfl
  | cons w rest ih =>
    intro s acc
    simp only [scheduleWorkersAux]
    cases getOp s j o with
    | none => rfl
    | some op =>
      dsimp only
      split
      · rfl
      · cases s.workers.get? w with
        | none => rfl
        | some wk =>
          dsimp only
          split
          · generalize heq : assignWorker s w j o = p
            obtain ⟨s1, tid?⟩ := p
            have h1 : s1.wallTime = s.wallTime := by
              have := wallTime_assignWorker s w j o
              rw [heq] at this
              exact this
            cases tid? with
            | none => exact h1
            | some tid => rw [ih s1 (acc ++ [tid]), h1]
          · exact ih s acc

theorem wallTime_sendMoreWorkersAux (op : Op) (j o : ℕ) :
    ∀ (ids : List ℕ) (n : ℕ) (s : EnvState),
      (sendMoreWorkersAux op j o ids n s).1.wallTime = s.wallTime := by
  intro ids
  induction ids with
  | nil => intro n s; cases n <;> rfl
  | cons w rest ih =>
    intro n s
    cases n with
    | zero => rfl
    | succ n =>
      simp only [sendMoreWorkersAux]
      cases s.workers.get? w with
      | none => rfl
      | some wk =>
        dsimp only
        split
        · generalize heq : sendMoreWorkersAux op j o rest n (sendWorker s w j o) = p
          obtain ⟨s2, cnt⟩ := p
          have h2 : s2.wallTime = s.wallTime := by
            have := ih n (sendWorker s w j o)
            rw [heq] at this
            simpa [wallTime_sendWorker] using this
          exact h2
        · exact ih (n + 1) s

theorem popMin_cons_isSome (x : ℚ × Event) (xs : List (ℚ × Event)) :
    (popMin (x :: xs)).isSome = true := by
  rw [popMin]
  cases popMin xs with
  | none => rfl
  | some q =>
    dsimp only
    split <;> rfl

theorem popMin_spec :
    ∀ (l : List (ℚ × Event)) (x : ℚ × Event) (rest : List (ℚ × Event)),
      popMin l = some (x, rest) →
      x ∈ l ∧ (∀ p ∈ l, x.1 ≤ p.1) ∧ ∀ p ∈ rest, p ∈ l := by
  intro l
  induction l with
  | nil => intro x rest h; simp [popMin] at h
  | cons a as ih =>
    intro x rest h
    rw [popMin] at h
    cases hp : popMin as with
    | none =>
      rw [hp] at h
      have has : as = [] := by
        cases as with
        | nil => rfl
        | cons b bs =>
          have := popMin_cons_isSome b bs
          rw [hp] at this
          simp at this
      obtain ⟨hx, hrest⟩ : x = a ∧ rest = [] := by
        simp only [Option.some.injEq, Prod.mk.injEq] at h
        exact ⟨h.1.symm, h.2.symm⟩
      subst hx
      subst hrest
      subst has
      refine ⟨by simp, ?_, by simp⟩
      intro p hp'
      simp only [List.mem_singleton] at hp'
      subst hp'
      exact le_refl _
    | some q =>
      obtain ⟨y, rest'⟩ := q
      rw [hp] at h
      obtain ⟨hy, hmin, hsub⟩ := ih y rest' hp
      dsimp only at h
      split at h
      · rename_i hle
        obtain ⟨hx, hrest⟩ : x = a ∧ rest = as := by
          simp only [Option.some.injEq, Prod.mk.injEq] at h
          exact ⟨h.1.symm, h.2.symm⟩
        subst hx
        subst hrest
        refine ⟨by simp, ?_, fun p hp' => by simp [hp']⟩
        intro p hp'
        rcases List.mem_cons.mp hp' with hpa | hpas
        · subst hpa; exact le_refl _
        · exact le_trans hle (hmin p hpas)
      · rename_i hnle
        obtain ⟨hx, hrest⟩ : x = y ∧ rest = a :: rest' := by
          simp only [Option.some.injEq, Prod.mk.injEq] at h
          exact ⟨h.1.symm, h.2.symm⟩
        subst hx
        subst hrest
        refine ⟨by simp [hy], ?_, ?_⟩
        · intro p hp'
          rcases List.mem_cons.mp hp' with hpa | hpas
          · subst hpa
            exact le_of_lt (lt_of_not_le hnle)
          · exact hmin p hpas
        · intro p hp'
          rcases List.mem_cons.mp hp' with hpa | hpas
          · subst hpa; simp
          · simp [hsub p hpas]

theorem TD_congr (s s' : EnvState) (h1 : s'.timeline = s.timeline)
    (h2 : s'.wallTime = s.wallTime) (h3 : s'.jobs = s.jobs)
    (ht : TimelineOK s) (hd : DurOK s) : TimelineOK s' ∧ DurOK s' := by
  constructor
  · intro p hp
    rw [h1] at hp
    rw [h2]
    exact ht p hp
  · intro jb hjb
    rw [h3] at hjb
    exact hd jb hjb

theorem timeline_updateJob (s : EnvState) (j : ℕ) (f : Job → Job) :
    (updateJob s j f).timeline = s.timeline := rfl

theorem timeline_updateWorker (s : EnvState) (w : ℕ) (f : Worker → Worker) :
    (updateWorker s w f).timeline = s.timeline := by
  unfold updateWorker
  cases s.workers.get? w <;> rfl

theorem timeline_addAvail (s : EnvState) (w : ℕ) :
    (addAvail s w).timeline = s.timeline := by
  unfold addAvail
  split <;> rfl

theorem timeline_removeAvail (s : EnvState) (w : ℕ) :
    (removeAvail s w).timeline = s.timeline := by
  unfold removeAvail
  split <;> rfl

theorem timeline_moveToSaturatedIfSat (s : EnvState) (j o : ℕ) :
    (moveToSaturatedIfSat s j o).timeline = s.timeline := by
  unfold moveToSaturatedIfSat
  cases getOp s j o
  · rfl
  · dsimp only
    split <;> rfl

theorem jobs_moveToSaturatedIfSat (s : EnvState) (j o : ℕ) :
    (moveToSaturatedIfSat s j o).jobs = s.jobs := by
  unfold moveToSaturatedIfSat
  cases getOp s j o
  · rfl
  · dsimp only
    split <;> rfl

theorem mem_set_or {α : Type _} :
    ∀ (l : List α) (i : ℕ) (a x : α), x ∈ l.set i a → x = a ∨ x ∈ l := by
  intro l
  induction l with
  | nil => intro i a x h; simp at h
  | cons b bs ih =>
    intro i a x h
    cases i with
    | zero =>
      rw [List.set_cons_zero] at h
      rcases List.mem_cons.mp h with h | h
      · exact Or.inl h
      · exact Or.inr (List.mem_cons_of_mem b h)
    | succ i =>
      rw [List.set_cons_succ] at h
      rcases List.mem_cons.mp h with h | h
      · exact Or.inr (h ▸ List.mem_cons_self b bs)
      · rcases ih i a x h with h | h
        · exact Or.inl h
        · exact Or.inr (List.mem_cons_of_mem b h)

theorem DurOK_updateJob (s : EnvState) (j : ℕ) (f : Job → Job)
    (hops : ∀ jb, (f jb).ops = jb.ops) (hd : DurOK s) : DurOK (updateJob s j f) := by
  intro jb' hjb' op hop ty
  simp only [updateJob, List.mem_map] at hjb'
  obtain ⟨jb, hjb, hg⟩ := hjb'
  subst hg
  split at hop
  · rw [hops] at hop
    exact hd jb hjb op hop ty
  · exact hd jb hjb op hop ty

theorem DurOK_updateOp (s : EnvState) (j o : ℕ) (f : Op → Op)
    (hdur : ∀ op ty, (f op).taskDuration ty = op.taskDuration ty)
    (hd : DurOK s) : DurOK (updateOp s j o f) := by
  intro jb' hjb' op' hop' ty
  simp only [updateOp, updateJob, List.mem_map] at hjb'
  obtain ⟨jb, hjb, hg⟩ := hjb'
  subst hg
  split at hop'
  · split at hop'
    · rename_i op hgecase
      rcases mem_set_or _ _ _ _ hop' with h | h
      · subst h
        rw [hdur]
        exact hd jb hjb op (List.get?_mem hgecase) ty
      · exact hd jb hjb op' h ty
    · exact hd jb hjb op' hop' ty
  · exact hd jb hjb op' hop' ty

theorem TD_pushEvent (s : EnvState) (t : ℚ) (e : Event) (hle : s.wallTime ≤ t)
    (ht : TimelineOK s) (hd : DurOK s) :
    TimelineOK (pushEvent s t e) ∧ DurOK (pushEvent s t e) := by
  constructor
  · intro p hp
    rw [pushEvent] at hp
    dsimp only at hp ⊢
    rcases List.mem_append.mp hp with h | h
    · exact ht p h
    · simp only [List.mem_singleton] at h
      subst h
      exact hle
  · exact hd

theorem TD_pushTaskCompletionEvent (s : EnvState) (j o tid : ℕ)
    (ht : TimelineOK s) (hd : DurOK s)
    (hacc : ∀ op, getOp s j o = some op → ∀ task, op.tasks.get? tid = some task →
      ∀ tA, task.tAccepted = some tA → s.wallTime ≤ tA) :
    TimelineOK (pushTaskCompletionEvent s j o tid) ∧
      DurOK (pushTaskCompletionEvent s j o tid) := by
  rw [pushTaskCompletionEvent]
  cases hop : getOp s j o with
  | none => exact TD_congr s _ rfl rfl rfl ht hd
  | some op =>
    dsimp only
    cases htask : op.tasks.get? tid with
    | none => exact TD_congr s _ rfl rfl rfl ht hd
    | some task =>
      dsimp only
      cases hwid : task.workerId with
      | none => exact TD_congr s _ rfl rfl rfl ht hd
      | some wIdx =>
        dsimp only
        cases hwk : s.workers.get? wIdx with
        | none =>
          cases hta : task.tAccepted <;> exact TD_congr s _ rfl rfl rfl ht hd
        | some wk =>
          cases hta : task.tAccepted with
          | none => exact TD_congr s _ rfl rfl rfl ht hd
          | some tA =>
            dsimp only
            refine TD_pushEvent s _ _ ?_ ht hd
            have h1 : s.wallTime ≤ tA := hacc op hop task htask tA hta
            have h2 : 0 ≤ op.taskDuration wk.type_ := by
              obtain ⟨jb, hjb, hopg⟩ := getOp_unpack s j o op hop
              exact hd jb (List.mem_of_find?_eq_some hjb) op (List.get?_mem hopg) wk.type_
            linarith

theorem timeline_assignWorker (s : EnvState) (w j o : ℕ) :
    (assignWorker s w j o).1.timeline = s.timeline := by
  unfold assignWorker
  cases getOp s j o
  · rfl
  · dsimp only
    split
    · rfl
    · split
      · rfl
      · rw [timeline_updateWorker]
        split
        · rw [timeline_updateJob]
          rfl
        · rfl

theorem DurOK_updateWorker (s : EnvState) (w : ℕ) (f : Worker → Worker)
    (hd : DurOK s) : DurOK (updateWorker s w f) := by
  intro jb hjb
  rw [updateWorker_jobs] at hjb
  exact hd jb hjb

theorem TimelineOK_congr (s s' : EnvState) (h1 : s'.timeline = s.timeline)
    (h2 : s'.wallTime = s.wallTime) (ht : TimelineOK s) : TimelineOK s' := by
  intro p hp
  rw [h1] at hp
  rw [h2]
  exact ht p hp

theorem DurOK_assignWorker (s : EnvState) (w j o : ℕ) (hd : DurOK s) :
    DurOK (assignWorker s w j o).1 := by
  unfold assignWorker
  cases hop : getOp s j o with
  | none => exact hd
  | some op =>
    dsimp only
    split
    · exact hd
    · cases hrem : op.remainingTasks with
      | nil => exact hd
      | cons tid rest =>
        dsimp only
        have h1 : DurOK (updateOp s j o (startTask w s.wallTime tid rest)) :=
          DurOK_updateOp s j o _ (fun _ _ => rfl) hd
        refine DurOK_updateWorker _ w _ ?_
        split
        · exact DurOK_updateJob _ j bumpSaturated (fun _ => rfl) h1
        · exact h1

theorem TimelineOK_assignWorker (s : EnvState) (w j o : ℕ) (ht : TimelineOK s) :
    TimelineOK (assignWorker s w j o).1 :=
  TimelineOK_congr s _ (timeline_assignWorker s w j o) (wallTime_assignWorker s w j o) ht

/-- Complete case analysis of `assign_worker`: either it succeeds, popping the
head remaining task, or it flags and assigns nothing. -/
theorem assignWorker_cases (s : EnvState) (w j o : ℕ) :
    (∃ tid rest op, getOp s j o = some op ∧ op.remainingTasks = tid :: rest ∧
      (assignWorker s w j o).2 = some tid ∧
      getOp (assignWorker s w j o).1 j o = some (startTask w s.wallTime tid rest op)) ∨
    ((assignWorker s w j o).2 = none ∧ (assignWorker s w j o).1 = flagFail s) := by
  unfold assignWorker
  cases hop : getOp s j o with
  | none => exact Or.inr ⟨rfl, rfl⟩
  | some op =>
    dsimp only
    split
    · exact Or.inr ⟨rfl, rfl⟩
    · cases hrem : op.remainingTasks with
      | nil => exact Or.inr ⟨rfl, rfl⟩
      | cons tid rest =>
        dsimp only
        refine Or.inl ⟨tid, rest, op, rfl, hrem, rfl, ?_⟩
        rw [getOp_updateWorker]
        split
        · rw [getOp_updateJob _ j bumpSaturated (fun _ => rfl) (fun _ => rfl)]
          exact getOp_updateOp s j o _ op hop
        · exact getOp_updateOp s j o _ op hop

theorem startTask_get?_self (op : Op) (w : ℕ) (t : ℚ) (tid : ℕ) (rest : List ℕ)
    (task : Task) (h : (startTask w t tid rest op).tasks.get? tid = some task) :
    task.tAccepted = some t := by
  rw [startTask] at h
  dsimp only at h
  rw [List.get?_eq_getElem?, List.getElem?_set_self'] at h
  cases ho : op.tasks[tid]? with
  | none => rw [ho] at h; simp at h
  | some old =>
    rw [ho] at h
    simp only [Option.map_eq_map, Option.map_some', Option.some.injEq, Function.const] at h
    subst h
    rfl

theorem startTask_get?_ne (op : Op) (w : ℕ) (t : ℚ) (tid : ℕ) (rest : List ℕ)
    (tid' : ℕ) (hne : tid ≠ tid') :
    (startTask w t tid rest op).tasks.get? tid' = op.tasks.get? tid' := by
  rw [startTask]
  dsimp only
  rw [List.get?_eq_getElem?, List.getElem?_set_ne hne, List.get?_eq_getElem?]

theorem TD_scheduleWorkerOne (s : EnvState) (w j o : ℕ)
    (ht : TimelineOK s) (hd : DurOK s) :
    TimelineOK (scheduleWorkerOne s w j o) ∧ DurOK (scheduleWorkerOne s w j o) := by
  have key := assignWorker_cases s w j o
  have htA := TimelineOK_assignWorker s w j o ht
  have hdA := DurOK_assignWorker s w j o hd
  have hwT := wallTime_assignWorker s w j o
  rw [scheduleWorkerOne]
  revert key htA hdA hwT
  generalize heq : assignWorker s w j o = p
  obtain ⟨s1, tid?⟩ := p
  intro key htA hdA hwT
  dsimp only at key htA hdA hwT ⊢
  cases tid? with
  | none => exact ⟨htA, hdA⟩
  | some tid =>
    dsimp only
    rcases key with ⟨tid', rest, op, hop, hrem, h2, hg⟩ | ⟨h2, h1⟩
    · have htid : tid' = tid := by
        simpa using h2.symm
      subst htid
      have hacc : ∀ op', getOp s1 j o = some op' → ∀ task,
          op'.tasks.get? tid' = some task → ∀ tA, task.tAccepted = some tA →
          s1.wallTime ≤ tA := by
        intro op' hop' task htask tA htA'
        rw [hg] at hop'
        have : op' = startTask w s.wallTime tid' rest op := by
          simpa using hop'.symm
        subst this
        have := startTask_get?_self op w s.wallTime tid' rest task htask
        rw [this] at htA'
        have : tA = s.wallTime := by simpa using htA'.symm
        subst this
        rw [hwT]
      obtain ⟨htP, hdP⟩ := TD_pushTaskCompletionEvent s1 j o tid' htA hdA hacc
      exact TD_congr _ _ (timeline_moveToSaturatedIfSat _ j o)
        (wallTime_moveToSaturatedIfSat _ j o) (jobs_moveToSaturatedIfSat _ j o) htP hdP
    · simp at h2

theorem AccOK_congr (s s' : EnvState) (j o : ℕ) (acc : List ℕ)
    (h2 : s'.wallTime = s.wallTime) (h3 : s'.jobs = s.jobs)
    (h : AccOK s j o acc) : AccOK s' j o acc := by
  intro tid htid op hop task htask
  rw [getOp_congr_jobs s s' h3 j o] at hop
  rw [h2]
  exact h tid htid op hop task htask

theorem TD_scheduleWorkersAux (j o : ℕ) :
    ∀ (ids : List ℕ) (s : EnvState) (acc : List ℕ),
      TimelineOK s → DurOK s → AccOK s j o acc →
      TimelineOK (scheduleWorkersAux j o ids s acc).1 ∧
      DurOK (scheduleWorkersAux j o ids s acc).1 ∧
      (scheduleWorkersAux j o ids s acc).1.wallTime = s.wallTime ∧
      AccOK (scheduleWorkersAux j o ids s acc).1 j o (scheduleWorkersAux j o ids s acc).2 := by
  intro ids
  induction ids with
  | nil => intro s acc ht hd hacc; exact ⟨ht, hd, rfl, hacc⟩
  | cons w rest ih =>
    intro s acc ht hd hacc
    simp only [scheduleWorkersAux]
    cases hop : getOp s j o with
    | none =>
      refine ⟨ht, hd, rfl, ?_⟩
      intro tid htid op hop' task htask
      rw [getOp_flagFail] at hop'
      rw [hop'] at hop
      simp at hop
    | some op =>
      dsimp only
      split
      · exact ⟨ht, hd, rfl, hacc⟩
      · cases hw : s.workers.get? w with
        | none =>
          refine ⟨ht, hd, rfl, ?_⟩
          intro tid htid op' hop' task htask
          rw [getOp_flagFail] at hop'
          exact hacc tid htid op' hop' task htask
        | some wk =>
          dsimp only
          split
          · have key := assignWorker_cases s w j o
            have htA := TimelineOK_assignWorker s w j o ht
            have hdA := DurOK_assignWorker s w j o hd
            have hwT := wallTime_assignWorker s w j o
            revert key htA hdA hwT
            generalize heq : assignWorker s w j o = p
            obtain ⟨s1, tid?⟩ := p
            intro key htA hdA hwT
            dsimp only at key htA hdA hwT ⊢
            cases tid? with
            | none =>
              rcases key with ⟨tid', rest', op', hop', hrem, h2, hg⟩ | ⟨h2, h1⟩
              · simp at h2
              · refine ⟨htA, hdA, hwT,
                  AccOK_congr s s1 j o acc hwT ?_ hacc⟩
                rw [h1]
                rfl
            | some tid =>
              dsimp only
              rcases key with ⟨tid', rest', op', hop', hrem, h2, hg⟩ | ⟨h2, h1⟩
              · have htid : tid' = tid := by simpa using h2.symm
                subst htid
                have hopeq : op' = op := by
                  rw [hop] at hop'
                  simpa using hop'.symm
                rw [hopeq] at hg hrem
                have hacc1 : AccOK s1 j o (acc ++ [tid']) := by
                  intro tid2 htid2 op2 hop2 task htask
                  rw [hg] at hop2
                  have hop2' : op2 = startTask w s.wallTime tid' rest' op := by
                    simpa using hop2.symm
                  subst hop2'
                  rw [hwT]
                  by_cases he : tid' = tid2
                  · subst he
                    exact startTask_get?_self op w s.wallTime tid' rest' task htask
                  · rw [startTask_get?_ne op w s.wallTime tid' rest' tid2 he] at htask
                    rcases List.mem_append.mp htid2 with hmem | hmem
                    · exact hacc tid2 hmem op hop task htask
                    · simp only [List.mem_singleton] at hmem
                      exact absurd hmem.symm he
                obtain ⟨ht2, hd2, hw2, hacc2⟩ := ih s1 (acc ++ [tid']) htA hdA hacc1
                exact ⟨ht2, hd2, by rw [hw2, hwT], hacc2⟩
              · simp at h2
          · exact ih s acc ht hd hacc

theorem TD_scheduleWorkers (s : EnvState) (j o : ℕ)
    (ht : TimelineOK s) (hd : DurOK s) :
    TimelineOK (scheduleWorkers s j o).1 ∧ DurOK (scheduleWorkers s j o).1 ∧
      (scheduleWorkers s j o).1.wallTime = s.wallTime ∧
      AccOK (scheduleWorkers s j o).1 j o (scheduleWorkers s j o).2 := by
  simp only [scheduleWorkers]
  cases hl : lookupJob s j with
  | none =>
    refine ⟨ht, hd, rfl, ?_⟩
    intro tid htid op hop task htask
    rw [getOp_flagFail, getOp] at hop
    rw [hl] at hop
    simp at hop
  | some jb =>
    dsimp only
    have haccNil : AccOK s j o [] := by intro tid htid; simp at htid
    obtain ⟨ht1, hd1, hw1, hacc1⟩ :=
      TD_scheduleWorkersAux j o jb.localWorkers s [] ht hd haccNil
    refine ⟨TimelineOK_congr _ _ (timeline_moveToSaturatedIfSat _ j o)
        (wallTime_moveToSaturatedIfSat _ j o) ht1, ?_, ?_, ?_⟩
    · intro jb' hjb'
      rw [jobs_moveToSaturatedIfSat] at hjb'
      exact hd1 jb' hjb'
    · rw [wallTime_moveToSaturatedIfSat, hw1]
    · exact AccOK_congr _ _ j o _ (wallTime_moveToSaturatedIfSat _ j o)
        (jobs_moveToSaturatedIfSat _ j o) hacc1

theorem jobs_pushTaskCompletionEvent (s : EnvState) (j o tid : ℕ) :
    (pushTaskCompletionEvent s j o tid).jobs = s.jobs := by
  unfold pushTaskCompletionEvent
  cases getOp s j o
  · rfl
  · dsimp only
    split
    · rfl
    · split
      · rfl
      · split <;> rfl

theorem TD_pushTaskCompletionEvents (j o : ℕ) :
    ∀ (tids : List ℕ) (s : EnvState),
      TimelineOK s → DurOK s → AccOK s j o tids →
      TimelineOK (pushTaskCompletionEvents s j o tids) ∧
        DurOK (pushTaskCompletionEvents s j o tids) := by
  intro tids
  induction tids with
  | nil => intro s ht hd _; exact ⟨ht, hd⟩
  | cons tid rest ih =>
    intro s ht hd hacc
    have hstep := TD_pushTaskCompletionEvent s j o tid ht hd ?_
    · have haccR : AccOK (pushTaskCompletionEvent s j o tid) j o rest := by
        refine AccOK_congr s _ j o rest (wallTime_pushTaskCompletionEvent s j o tid)
          (jobs_pushTaskCompletionEvent s j o tid) ?_
        intro t2 ht2 op hop task htask
        exact hacc t2 (by simp [ht2]) op hop task htask
      have := ih (pushTaskCompletionEvent s j o tid) hstep.1 hstep.2 haccR
      simpa [pushTaskCompletionEvents] using this
    · intro op hop task htask tA htA'
      have := hacc tid (by simp) op hop task htask
      rw [this] at htA'
      have : tA = s.wallTime := by simpa using htA'.symm
      subst this
      exact le_refl _

theorem TD_pushWorkerArrivalEvent (s : EnvState) (w j o : ℕ)
    (ht : TimelineOK s) (hd : DurOK s) :
    TimelineOK (pushWorkerArrivalEvent s w j o) ∧
      DurOK (pushWorkerArrivalEvent s w j o) := by
  refine TD_pushEvent s _ _ ?_ ht hd
  rw [MOVING_COST]
  linarith

theorem TD_sendWorker (s : EnvState) (w j o : ℕ)
    (ht : TimelineOK s) (hd : DurOK s) :
    TimelineOK (sendWorker s w j o) ∧ DurOK (sendWorker s w j o) := by
  simp only [sendWorker]
  cases h1 : s.workers.get? w with
  | none => exact TD_congr s _ rfl rfl rfl ht hd
  | some wk =>
    have base : ∀ (t : EnvState), TimelineOK t → DurOK t →
        TimelineOK (pushWorkerArrivalEvent (removeAvail
          (updateWorker t w fun wv => { wv with isMoving := true }) w) w j o) ∧
        DurOK (pushWorkerArrivalEvent (removeAvail
          (updateWorker t w fun wv => { wv with isMoving := true }) w) w j o) := by
      intro t htT hdT
      obtain ⟨h1', h2'⟩ := TD_congr t (removeAvail
          (updateWorker t w fun wv => { wv with isMoving := true }) w)
        (by rw [timeline_removeAvail, timeline_updateWorker])
        (by rw [wallTime_removeAvail, wallTime_updateWorker])
        (by rw [removeAvail_jobs, updateWorker_jobs]) htT hdT
      exact TD_pushWorkerArrivalEvent _ w j o h1' h2'
    cases h2 : wk.jobId with
    | none =>
      simp only [h2]
      exact base s ht hd
    | some oldJ =>
      simp only [h2]
      cases h3 : lookupJob s oldJ with
      | none =>
        simp only [h3]
        refine base (flagFail s) ?_ ?_
        · exact TimelineOK_congr s _ rfl rfl ht
        · exact hd
      | some oldJb =>
        simp only [h3]
        split
        · refine base _ ?_ ?_
          · exact TimelineOK_congr s _
              (by rw [timeline_updateWorker, timeline_updateJob])
              (by rw [wallTime_updateWorker, wallTime_updateJob]) ht
          · refine DurOK_updateWorker _ w _ ?_
            exact DurOK_updateJob s oldJ _ (fun _ => rfl) hd
        · refine base (flagFail s) ?_ ?_
          · exact TimelineOK_congr s _ rfl rfl ht
          · exact hd

theorem TD_sendMoreWorkersAux (op : Op) (j o : ℕ) :
    ∀ (ids : List ℕ) (n : ℕ) (s : EnvState),
      TimelineOK s → DurOK s →
      TimelineOK (sendMoreWorkersAux op j o ids n s).1 ∧
        DurOK (sendMoreWorkersAux op j o ids n s).1 := by
  intro ids
  induction ids with
  | nil => intro n s ht hd; cases n <;> exact ⟨ht, hd⟩
  | cons w rest ih =>
    intro n s ht hd
    cases n with
    | zero => exact ⟨ht, hd⟩
    | succ n =>
      simp only [sendMoreWorkersAux]
      cases hw : s.workers.get? w with
      | none => exact TD_congr s _ rfl rfl rfl ht hd
      | some wk =>
        dsimp only
        split
        · generalize heq : sendMoreWorkersAux op j o rest n (sendWorker s w j o) = p
          obtain ⟨s2, cnt⟩ := p
          obtain ⟨htS, hdS⟩ := TD_sendWorker s w j o ht hd
          have := ih n (sendWorker s w j o) htS hdS
          rw [heq] at this
          exact this
        · exact ih (n + 1) s ht hd

theorem TD_takeAction (s : EnvState) (j o n : ℕ)
    (ht : TimelineOK s) (hd : DurOK s) :
    TimelineOK (takeAction s j o n).1 ∧ DurOK (takeAction s j o n).1 := by
  rw [takeAction]
  have hsend : TimelineOK (sendMoreWorkers s j o n).1 ∧
      DurOK (sendMoreWorkers s j o n).1 := by
    rw [sendMoreWorkers]
    cases hop : getOp s j o with
    | none => exact TD_congr s _ rfl rfl rfl ht hd
    | some op => exact TD_sendMoreWorkersAux op j o s.availWorkerIds n s ht hd
  generalize heq : sendMoreWorkers s j o n = p at hsend
  obtain ⟨s1, nSent⟩ := p
  dsimp only
  obtain ⟨ht1, hd1⟩ := hsend
  obtain ⟨ht2, hd2, hw2, hacc2⟩ := TD_scheduleWorkers s1 j o ht1 hd1
  generalize heq2 : scheduleWorkers s1 j o = q at ht2 hd2 hw2 hacc2
  obtain ⟨s2, tasks⟩ := q
  dsimp only at ht2 hd2 hw2 hacc2 ⊢
  split
  · exact ⟨ht2, hd2⟩
  · exact TD_pushTaskCompletionEvents j o tasks s2 ht2 hd2 hacc2

theorem timeline_updateOp (s : EnvState) (j o : ℕ) (f : Op → Op) :
    (updateOp s j o f).timeline = s.timeline := rfl

theorem TD_processJobArrival (s : EnvState) (job : Job)
    (ht : TimelineOK s) (hd : DurOK s)
    (hde : ∀ op ∈ job.ops, ∀ ty, 0 ≤ op.taskDuration ty) :
    TimelineOK (processJobArrival s job).1 ∧ DurOK (processJobArrival s job).1 := by
  rw [processJobArrival]
  dsimp only
  split
  · refine ⟨fun p hp => ht p hp, ?_⟩
    intro jb' hjb' op hop ty
    simp only [List.mem_map] at hjb'
    obtain ⟨jb, hjb, hg⟩ := hjb'
    subst hg
    split at hop
    · exact hde op hop ty
    · exact hd jb hjb op hop ty
  · refine ⟨fun p hp => ht p hp, ?_⟩
    intro jb' hjb' op hop ty
    rcases List.mem_append.mp hjb' with h | h
    · exact hd jb' h op hop ty
    · simp only [List.mem_singleton] at h
      subst h
      exact hde op hop ty

theorem TD_processWorkerArrival (s : EnvState) (w j o : ℕ)
    (ht : TimelineOK s) (hd : DurOK s) :
    TimelineOK (processWorkerArrival s w j o).1 ∧
      DurOK (processWorkerArrival s w j o).1 := by
  rw [processWorkerArrival]
  cases hl : lookupJob s j with
  | none => exact TD_congr s _ rfl rfl rfl ht hd
  | some jb =>
    dsimp only
    have hops : ∀ jb' : Job, (if w ∈ jb'.localWorkers then jb'
        else { jb' with localWorkers := jb'.localWorkers ++ [w] }).ops = jb'.ops := by
      intro jb'
      split <;> rfl
    have ht2 : TimelineOK (updateWorker (updateJob s j fun jb' =>
        if w ∈ jb'.localWorkers then jb'
        else { jb' with localWorkers := jb'.localWorkers ++ [w] }) w
        fun wk => { wk with isMoving := false, jobId := some j }) :=
      TimelineOK_congr s _ (by rw [timeline_updateWorker, timeline_updateJob])
        (by rw [wallTime_updateWorker, wallTime_updateJob]) ht
    have hd2 : DurOK (updateWorker (updateJob s j fun jb' =>
        if w ∈ jb'.localWorkers then jb'
        else { jb' with localWorkers := jb'.localWorkers ++ [w] }) w
        fun wk => { wk with isMoving := false, jobId := some j }) :=
      DurOK_updateWorker _ w _ (DurOK_updateJob s j _ hops hd)
    cases hop : getOp _ j o with
    | none => exact TD_congr _ _ rfl rfl rfl ht2 hd2
    | some op =>
      dsimp only
      split
      · exact TD_congr _ _ (timeline_addAvail _ w) (wallTime_addAvail _ w)
          (addAvail_jobs _ w) ht2 hd2
      · exact TD_scheduleWorkerOne _ w j o ht2 hd2

theorem TD_addTaskCompletion (s : EnvState) (j o tid : ℕ)
    (ht : TimelineOK s) (hd : DurOK s) :
    TimelineOK (addTaskCompletion s j o tid) ∧ DurOK (addTaskCompletion s j o tid) := by
  rw [addTaskCompletion]
  cases hop : getOp s j o with
  | none => exact TD_congr s _ rfl rfl rfl ht hd
  | some op =>
    dsimp only
    split
    · exact TD_congr s _ rfl rfl rfl ht hd
    · exact ⟨TimelineOK_congr s _ (timeline_updateOp s j o _) (wallTime_updateOp s j o _) ht,
        DurOK_updateOp s j o _ (fun _ _ => rfl) hd⟩

theorem TD_processOpCompletion (s : EnvState) (j o w : ℕ)
    (ht : TimelineOK s) (hd : DurOK s) :
    TimelineOK (processOpCompletion s j o w) ∧ DurOK (processOpCompletion s j o w) := by
  rw [processOpCompletion]
  dsimp only
  obtain ⟨ht1, hd1⟩ := TD_congr s (addAvail s w) (timeline_addAvail s w)
    (wallTime_addAvail s w) (addAvail_jobs s w) ht hd
  have ht2 : TimelineOK (updateJob (addAvail s w) j fun jb =>
      { jb with activeOps := jb.activeOps.erase o }) :=
    TimelineOK_congr _ _ (timeline_updateJob _ j _) (wallTime_updateJob _ j _) ht1
  have hd2 : DurOK (updateJob (addAvail s w) j fun jb =>
      { jb with activeOps := jb.activeOps.erase o }) :=
    DurOK_updateJob _ j _ (fun _ => rfl) hd1
  have key : ∀ (t : EnvState), TimelineOK t → DurOK t →
      TimelineOK (match lookupJob t j with
        | none => flagFail t
        | some jb => { t with frontierOps :=
            t.frontierOps ∪ ((jb.findNewFrontierOps o .completed).map
              fun su => (j, su)).toFinset }) ∧
      DurOK (match lookupJob t j with
        | none => flagFail t
        | some jb => { t with frontierOps :=
            t.frontierOps ∪ ((jb.findNewFrontierOps o .completed).map
              fun su => (j, su)).toFinset }) := by
    intro t htt hdt
    cases lookupJob t j with
    | none => exact TD_congr t _ rfl rfl rfl htt hdt
    | some jb => exact TD_congr t _ rfl rfl rfl htt hdt
  revert ht2 hd2
  generalize (updateJob (addAvail s w) j fun jb =>
    { jb with activeOps := jb.activeOps.erase o }) = s2
  intro ht2 hd2
  by_cases hmem : (j, o) ∈ s2.saturatedOps
  · rw [if_pos hmem]
    exact key _ (fun p hp => ht2 p hp) (fun jb hjb => hd2 jb hjb)
  · rw [if_neg hmem]
    exact key _ (fun p hp => ht2 p hp) (fun jb hjb => hd2 jb hjb)

theorem TD_processJobCompletion (s : EnvState) (j : ℕ)
    (ht : TimelineOK s) (hd : DurOK s) :
    TimelineOK (processJobCompletion s j) ∧ DurOK (processJobCompletion s j) := by
  rw [processJobCompletion]
  dsimp only
  split
  · exact ⟨TimelineOK_congr s _ rfl rfl ht,
      DurOK_updateJob _ j _ (fun _ => rfl) (fun jb hjb => hd jb hjb)⟩
  · exact ⟨TimelineOK_congr s _ rfl rfl ht,
      DurOK_updateJob _ j _ (fun _ => rfl) (fun jb hjb => hd jb hjb)⟩

theorem TD_processTaskCompletion (s : EnvState) (j o tid : ℕ)
    (ht : TimelineOK s) (hd : DurOK s) :
    TimelineOK (processTaskCompletion s j o tid).1 ∧
      DurOK (processTaskCompletion s j o tid).1 := by
  rw [processTaskCompletion]
  cases hl : lookupJob s j with
  | none => exact TD_congr s _ rfl rfl rfl ht hd
  | some jb =>
    dsimp only
    obtain ⟨ht1, hd1⟩ := TD_addTaskCompletion s j o tid ht hd
    revert ht1 hd1
    generalize hA : addTaskCompletion s j o tid = sA
    intro ht1 hd1
    cases hop : getOp sA j o with
    | none => exact TD_congr _ _ rfl rfl rfl ht1 hd1
    | some op =>
      dsimp only
      cases hwid : (op.tasks.get? tid).bind (fun t => t.workerId) with
      | none => exact TD_congr _ _ rfl rfl rfl ht1 hd1
      | some wIdx =>
        dsimp only
        obtain ⟨ht2, hd2⟩ := TD_congr _ (updateWorker sA wIdx
            fun wk => { wk with task := none })
          (timeline_updateWorker _ wIdx _) (wallTime_updateWorker _ wIdx _)
          (updateWorker_jobs _ wIdx _) ht1 hd1
        have key : ∀ (t : EnvState), TimelineOK t → DurOK t →
            TimelineOK (match lookupJob t j with
              | some jb' => if jb'.isComplete then processJobCompletion t j else t
              | none => flagFail t) ∧
            DurOK (match lookupJob t j with
              | some jb' => if jb'.isComplete then processJobCompletion t j else t
              | none => flagFail t) := by
          intro t htt hdt
          cases lookupJob t j with
          | none => exact TD_congr t _ rfl rfl rfl htt hdt
          | some jb' =>
            dsimp only
            split
            · exact TD_processJobCompletion t j htt hdt
            · exact ⟨htt, hdt⟩
        have hOp := TD_processOpCompletion (updateWorker sA wIdx
          fun wk => { wk with task := none }) j o wIdx ht2 hd2
        have hSch := TD_scheduleWorkerOne (updateWorker sA wIdx
          fun wk => { wk with task := none }) wIdx j o ht2 hd2
        revert hOp hSch ht2 hd2
        generalize hW : (updateWorker sA wIdx fun wk => { wk with task := none }) = sW
        intro ht2 hd2 hOp hSch
        by_cases hc : op.isComplete = true
        · rw [if_pos hc]
          exact key _ hOp.1 hOp.2
        · rw [if_neg hc]
          by_cases hs : (! op.saturated) = true
          · rw [if_pos hs]
            exact key _ hSch.1 hSch.2
          · rw [if_neg hs]
            exact key _ ht2 hd2

theorem TD_processSchedulingEvent (s : EnvState) (e : Event)
    (ht : TimelineOK s) (hd : DurOK s) (hde : DurOKEvent e) :
    TimelineOK (processSchedulingEvent s e).1 ∧ DurOK (processSchedulingEvent s e).1 := by
  cases e with
  | jobArrival job => exact TD_processJobArrival s job ht hd hde
  | workerArrival w j o => exact TD_processWorkerArrival s w j o ht hd
  | taskCompletion j o tid => exact TD_processTaskCompletion s j o tid ht hd

/-- C8: successive event times popped from the timeline are non-decreasing.
Whenever every pending event lies at or after the current wall time and all
durations are non-negative, popping the earliest event advances the clock
monotonically, and processing it (or applying an action) re-establishes the
invariant, because every pushed event is scheduled at or after the current
wall time (`wall_time + MOVING_COST` for worker arrivals,
`t_accepted + duration` with `t_accepted = wall_time` for task completions). -/
theorem c8_monotonic_time :
    (∀ (s : EnvState) (t : ℚ) (e : Event) (rest : List (ℚ × Event)),
      TimelineOK s → DurOK s → DurOKEvent e →
      popMin s.timeline = some ((t, e), rest) →
      s.wallTime ≤ t ∧
      TimelineOK (processSchedulingEvent { s with timeline := rest, wallTime := t } e).1 ∧
      DurOK (processSchedulingEvent { s with timeline := rest, wallTime := t } e).1) ∧
    (∀ (s : EnvState) (j o n : ℕ), TimelineOK s → DurOK s →
      TimelineOK (takeAction s j o n).1 ∧ DurOK (takeAction s j o n).1) := by
  constructor
  · intro s t e rest ht hd hde hpop
    obtain ⟨hmem, hmin, hsub⟩ := popMin_spec s.timeline (t, e) rest hpop
    refine ⟨ht (t, e) hmem, ?_⟩
    have ht' : TimelineOK { s with timeline := rest, wallTime := t } := by
      intro p hp
      exact hmin p (hsub p hp)
    have hd' : DurOK { s with timeline := rest, wallTime := t } := hd
    exact TD_processSchedulingEvent _ e ht' hd' hde
  · intro s j o n ht hd
    exact TD_takeAction s j o n ht hd

/-- Witness for C8 at the concrete state `sC5` whose timeline holds one
task-completion event at time 2100. -/
theorem c8_witness :
    TimelineOK sC5 ∧ DurOK sC5 ∧
      (sC5.wallTime ≤ 2100 ∧
        TimelineOK (processSchedulingEvent
          { sC5 with timeline := [], wallTime := 2100 } (.taskCompletion 0 0 1)).1 ∧
        DurOK (processSchedulingEvent
          { sC5 with timeline := [], wallTime := 2100 } (.taskCompletion 0 0 1)).1) := by
  have ht : TimelineOK sC5 := by
    intro p hp
    simp only [sC5] at hp
    simp only [List.mem_singleton] at hp
    subst hp
    exact le_refl _
  have hd : DurOK sC5 := by
    intro jb hjb op hop ty
    simp only [sC5, List.mem_singleton] at hjb
    subst hjb
    simp only [jobC5, List.mem_singleton] at hop
    subst hop
    norm_num [opC5]
  exact ⟨ht, hd,
    c8_monotonic_time.1 sC5 2100 (.taskCompletion 0 0 1) [] ht hd trivial rfl⟩

/-! ### The engine invariant: infrastructure -/

theorem map_congr_on {α β : Type _} (l : List α) (f g : α → β)
    (h : ∀ x ∈ l, f x = g x) : l.map f = l.map g := by
  induction l with
  | nil => rfl
  | cons a l ih =>
    simp only [List.map_cons]
    rw [h a (by simp), ih fun x hx => h x (by simp [hx])]

theorem all_congr_on {α : Type _} (l : List α) (f g : α → Bool)
    (h : ∀ x ∈ l, f x = g x) : l.all f = l.all g := by
  induction l with
  | nil => rfl
  | cons a l ih =>
    simp only [List.all_cons]
    rw [h a (by simp), ih fun x hx => h x (by simp [hx])]

theorem not_sat_length (op : Op) (hs : op.saturated = false) :
    0 < op.remainingTasks.length := by
  rw [Op.saturated] at hs
  cases h : op.remainingTasks with
  | nil => rw [h] at hs; simp at hs
  | cons a l => simp [h]

theorem OpWF_not_complete (op : Op) (h : OpWF op) (hs : op.saturated = false) :
    op.isComplete = false := by
  obtain ⟨hpos, hlen, _, _, _, _, _, _, _, _, _, hsum⟩ := h
  have hrem := not_sat_length op hs
  rw [Op.isComplete, beq_eq_false_iff_ne]
  omega

theorem OpWF_sat_of_complete (op : Op) (h : OpWF op) (hc : op.isComplete = true) :
    op.saturated = true := by
  obtain ⟨hpos, hlen, _, _, _, _, _, _, _, _, _, hsum⟩ := h
  rw [Op.isComplete, beq_iff_eq] at hc
  rw [Op.saturated, List.isEmpty_iff, ← List.length_eq_zero]
  omega

theorem OpWF_numSat_lt (op : Op) (h : OpWF op) (hs : op.saturated = false) :
    op.numSaturatedTasks < op.numTasks := by
  have hrem := not_sat_length op hs
  obtain ⟨hpos, hlen, _, _, _, _, _, _, _, _, _, hsum⟩ := h
  rw [Op.numSaturatedTasks]
  omega

theorem mem_id_unique (s : EnvState) (hids : InvIds s) (jb jb' : Job)
    (h1 : jb ∈ s.jobs) (h2 : jb' ∈ s.jobs) (hid : jb.id = jb'.id) : jb = jb' :=
  List.inj_on_of_nodup_map hids h1 h2 hid

theorem lookupJob_mem (s : EnvState) (j : ℕ) (jb : Job)
    (h : lookupJob s j = some jb) : jb ∈ s.jobs :=
  List.mem_of_find?_eq_some h

theorem lookupJob_of_mem (s : EnvState) (hids : InvIds s) (jb : Job)
    (h : jb ∈ s.jobs) : lookupJob s jb.id = some jb := by
  rw [lookupJob]
  cases hf : s.jobs.find? (fun x => x.id == jb.id) with
  | none =>
    rw [List.find?_eq_none] at hf
    exact absurd (by simp : (jb.id == jb.id) = true) (by simpa using hf jb h)
  | some x =>
    have hxm : x ∈ s.jobs := List.mem_of_find?_eq_some hf
    have hxid : x.id = jb.id := by simpa using List.find?_some hf
    rw [mem_id_unique s hids x jb hxm h hxid]

theorem jobsSurgery_updateJob (s : EnvState) (j : ℕ) (f : Job → Job) (jb : Job)
    (hids : InvIds s) (hjb : lookupJob s j = some jb)
    (hid : ∀ x, (f x).id = x.id) :
    JobsSurgery s (updateJob s j f) j jb (f jb) := by
  have hjid : jb.id = j := lookupJob_id s j jb hjb
  refine ⟨hjb, ?_, ?_, ?_, ?_⟩
  · rw [lookupJob_updateJob s j f hid j, hjb]
    simp [hjid]
  · intro j' hne
    rw [lookupJob_updateJob s j f hid j']
    cases hl : lookupJob s j' with
    | none => rfl
    | some jb' =>
      have hid' : jb'.id = j' := lookupJob_id s j' jb' hl
      simp [hid', hne]
  · intro x hx
    rw [updateJob] at hx
    simp only [List.mem_map] at hx
    obtain ⟨y, hy, hxy⟩ := hx
    by_cases hcase : y.id = j
    · have hyjb : y = jb := by
        have hly := lookupJob_of_mem s hids y hy
        rw [hcase, hjb] at hly
        exact Option.some_injective _ hly.symm
      left
      rw [← hxy, if_pos (by simp [hcase]), hyjb]
    · right
      rw [← hxy, if_neg (by simp [hcase])]
      exact ⟨hy, hcase⟩
  · rw [updateJob]
    simp only [List.map_map]
    apply map_congr_on
    intro x hx
    by_cases hcase : x.id = j <;> simp [hcase, hid]

theorem jobsSurgery_updateOp (s : EnvState) (j o : ℕ) (f : Op → Op)
    (jb : Job) (op : Op) (hids : InvIds s) (hjb : lookupJob s j = some jb)
    (hop : jb.ops.get? o = some op) :
    JobsSurgery s (updateOp s j o f) j jb
      { jb with ops := jb.ops.set o (f op) } := by
  have base := jobsSurgery_updateJob s j
    (fun jb' => match jb'.ops.get? o with
      | some op' => { jb' with ops := jb'.ops.set o (f op') }
      | none => jb') jb hids hjb (fun x => by dsimp only; split <;> rfl)
  have heq : (match jb.ops.get? o with
      | some op' => { jb with ops := jb.ops.set o (f op') }
      | none => jb) = { jb with ops := jb.ops.set o (f op) } := by rw [hop]
  rw [updateOp]
  dsimp only at base
  rw [heq] at base
  exact base

theorem jobsSurgery_congr (s s' s'' : EnvState) (j : ℕ) (jb jbP : Job)
    (h : s''.jobs = s'.jobs) (hs : JobsSurgery s s' j jb jbP) :
    JobsSurgery s s'' j jb jbP := by
  obtain ⟨h1, h2, h3, h4, h5⟩ := hs
  have hl : ∀ j', lookupJob s'' j' = lookupJob s' j' := by
    intro j'
    rw [lookupJob, lookupJob, h]
  refine ⟨h1, by rw [hl]; exact h2, fun j' hne => by rw [hl]; exact h3 j' hne,
    ?_, by rw [h]; exact h5⟩
  intro x hx
  rw [h] at hx
  exact h4 x hx

theorem jobsSurgery_trans (s s' s'' : EnvState) (j : ℕ) (jb jbP jbQ : Job)
    (h1 : JobsSurgery s s' j jb jbP) (h2 : JobsSurgery s' s'' j jbP jbQ) :
    JobsSurgery s s'' j jb jbQ := by
  obtain ⟨a1, a2, a3, a4, a5⟩ := h1
  obtain ⟨b1, b2, b3, b4, b5⟩ := h2
  refine ⟨a1, b2, fun j' hne => by rw [b3 j' hne, a3 j' hne], ?_, by rw [b5, a5]⟩
  intro x hx
  rcases b4 x hx with h | ⟨hx', hne⟩
  · left; exact h
  · rcases a4 x hx' with h | ⟨hx'', hne'⟩
    · have hPid : jbP.id = j := lookupJob_id s' j jbP a2
      rw [h] at hne
      exact absurd hPid hne
    · right; exact ⟨hx'', hne'⟩

theorem get?_lt {α : Type _} (l : List α) (i : ℕ) (a : α) (h : l.get? i = some a) :
    i < l.length := by
  rw [List.get?_eq_getElem?] at h
  exact (List.getElem?_eq_some_iff.mp h).1

theorem checkDependencies_ops_congr (jb jbP : Job)
    (hd : jbP.dagEdges = jb.dagEdges)
    (h : ∀ i, (jbP.ops.get? i).map Op.isComplete = (jb.ops.get? i).map Op.isComplete)
    (x : ℕ) :
    jbP.checkDependencies x .completed = jb.checkDependencies x .completed := by
  rw [Job.checkDependencies, Job.checkDependencies, hd]
  apply all_congr_on
  intro e he
  have hi := h e.1
  cases h1 : jbP.ops.get? e.1 with
  | none =>
    cases h2 : jb.ops.get? e.1 with
    | none => rfl
    | some p => rw [h1, h2] at hi; simp at hi
  | some p =>
    cases h2 : jb.ops.get? e.1 with
    | none => rw [h1, h2] at hi; simp at hi
    | some q =>
      rw [h1, h2] at hi
      simp only [Option.map_some', Option.some.injEq] at hi
      simp [Op.checkCriterion, hi]

theorem checkDependencies_set (jb jbP : Job) (o : ℕ) (op opP : Op)
    (hops : jbP.ops = jb.ops.set o opP) (hd : jbP.dagEdges = jb.dagEdges)
    (hop : jb.ops.get? o = some op) (hc : opP.isComplete = op.isComplete) (x : ℕ) :
    jbP.checkDependencies x .completed = jb.checkDependencies x .completed := by
  refine checkDependencies_ops_congr jb jbP hd ?_ x
  intro i
  rw [hops]
  by_cases hio : i = o
  · subst hio
    have hlt : i < jb.ops.length := get?_lt _ _ _ hop
    rw [List.get?_eq_getElem?, List.getElem?_set_self hlt, hop]
    simp [hc]
  · rw [List.get?_eq_getElem?, List.getElem?_set_ne (Ne.symm hio), ← List.get?_eq_getElem?]

theorem eligibleAt_set_ne (jb jbP : Job) (o : ℕ) (op opP : Op)
    (hops : jbP.ops = jb.ops.set o opP) (hd : jbP.dagEdges = jb.dagEdges)
    (hop : jb.ops.get? o = some op) (hc : opP.isComplete = op.isComplete)
    (o' : ℕ) (hne : o' ≠ o) :
    eligibleAt jbP o' = eligibleAt jb o' := by
  rw [eligibleAt, eligibleAt, hops, List.get?_eq_getElem?,
    List.getElem?_set_ne (Ne.symm hne), ← List.get?_eq_getElem?]
  cases jb.ops.get? o' with
  | none => rfl
  | some q =>
    dsimp only
    rw [checkDependencies_set jb jbP o op opP hops hd hop hc o']

theorem eligibleAt_set_self (jb jbP : Job) (o : ℕ) (op opP : Op)
    (hops : jbP.ops = jb.ops.set o opP) (hd : jbP.dagEdges = jb.dagEdges)
    (hop : jb.ops.get? o = some op) (hc : opP.isComplete = op.isComplete) :
    eligibleAt jbP o = (!opP.saturated && jb.checkDependencies o .completed) := by
  have hlt : o < jb.ops.length := get?_lt _ _ _ hop
  rw [eligibleAt, hops, List.get?_eq_getElem?, List.getElem?_set_self hlt]
  dsimp only
  rw [checkDependencies_set jb jbP o op opP hops hd hop hc o]

theorem satAt_set_ne (jb jbP : Job) (o : ℕ) (opP : Op)
    (hops : jbP.ops = jb.ops.set o opP) (o' : ℕ) (hne : o' ≠ o) :
    satAt jbP o' = satAt jb o' := by
  rw [satAt, satAt, hops, List.get?_eq_getElem?,
    List.getElem?_set_ne (Ne.symm hne), ← List.get?_eq_getElem?]

theorem satAt_set_self (jb jbP : Job) (o : ℕ) (opP : Op)
    (hops : jbP.ops = jb.ops.set o opP) (hlt : o < jb.ops.length) :
    satAt jbP o = (opP.saturated && !opP.isComplete) := by
  rw [satAt, hops, List.get?_eq_getElem?, List.getElem?_set_self hlt]

theorem activeAt_set_ne (jb jbP : Job) (o : ℕ) (opP : Op)
    (hops : jbP.ops = jb.ops.set o opP) (o' : ℕ) (hne : o' ≠ o) :
    activeAt jbP o' = activeAt jb o' := by
  rw [activeAt, activeAt, hops, List.get?_eq_getElem?,
    List.getElem?_set_ne (Ne.symm hne), ← List.get?_eq_getElem?]

theorem activeAt_set_self (jb jbP : Job) (o : ℕ) (opP : Op)
    (hops : jbP.ops = jb.ops.set o opP) (hlt : o < jb.ops.length) :
    activeAt jbP o = !opP.isComplete := by
  rw [activeAt, hops, List.get?_eq_getElem?, List.getElem?_set_self hlt]

theorem untouchedOK_set_ne (jb jbP : Job) (o : ℕ) (op opP : Op)
    (hops : jbP.ops = jb.ops.set o opP) (hd : jbP.dagEdges = jb.dagEdges)
    (hop : jb.ops.get? o = some op) (hc : opP.isComplete = op.isComplete)
    (o' : ℕ) (hne : o' ≠ o) :
    untouchedOK jbP o' = untouchedOK jb o' := by
  rw [untouchedOK, untouchedOK, hops, List.get?_eq_getElem?,
    List.getElem?_set_ne (Ne.symm hne), ← List.get?_eq_getElem?]
  cases jb.ops.get? o' with
  | none => rfl
  | some q =>
    dsimp only
    rw [checkDependencies_set jb jbP o op opP hops hd hop hc o']

theorem eligibleAt_congr (jb jbP : Job) (hops : jbP.ops = jb.ops)
    (hd : jbP.dagEdges = jb.dagEdges) (o : ℕ) :
    eligibleAt jbP o = eligibleAt jb o := by
  rw [eligibleAt, eligibleAt, hops]
  cases jb.ops.get? o with
  | none => rfl
  | some q =>
    dsimp only
    rw [Job.checkDependencies, Job.checkDependencies, hd, hops]

theorem satAt_congr (jb jbP : Job) (hops : jbP.ops = jb.ops) (o : ℕ) :
    satAt jbP o = satAt jb o := by
  rw [satAt, satAt, hops]

theorem activeAt_congr (jb jbP : Job) (hops : jbP.ops = jb.ops) (o : ℕ) :
    activeAt jbP o = activeAt jb o := by
  rw [activeAt, activeAt, hops]

theorem untouchedOK_congr (jb jbP : Job) (hops : jbP.ops = jb.ops)
    (hd : jbP.dagEdges = jb.dagEdges) (o : ℕ) :
    untouchedOK jbP o = untouchedOK jb o := by
  rw [untouchedOK, untouchedOK, hops]
  cases jb.ops.get? o with
  | none => rfl
  | some q =>
    dsimp only
    rw [Job.checkDependencies, Job.checkDependencies, hd, hops]

theorem frontierMemOK_congr (s s' : EnvState) (h : s'.jobs = s.jobs) (p : ℕ × ℕ) :
    frontierMemOK s' p = frontierMemOK s p := by
  simp only [frontierMemOK, lookupJob, h]

theorem satMemOK_congr (s s' : EnvState) (h : s'.jobs = s.jobs) (p : ℕ × ℕ) :
    satMemOK s' p = satMemOK s p := by
  simp only [satMemOK, lookupJob, h]

theorem activeJobOK_congr (s s' : EnvState) (h : s'.jobs = s.jobs) (jid : ℕ) :
    activeJobOK s' jid = activeJobOK s jid := by
  simp only [activeJobOK, lookupJob, h]

theorem workerOK_congr (s s' : EnvState) (hj : s'.jobs = s.jobs)
    (hw : s'.workers = s.workers) (w : ℕ) :
    workerOK s' w = workerOK s w := by
  simp only [workerOK, lookupJob, hj, hw]

theorem midOpOK_congr (s s' : EnvState) (h : s'.jobs = s.jobs) (j o : ℕ) :
    midOpOK s' j o = midOpOK s j o := by
  simp only [midOpOK, lookupJob, h]

theorem Inv_congr (s s' : EnvState)
    (hj : s'.jobs = s.jobs) (hw : s'.workers = s.workers)
    (hf : s'.frontierOps = s.frontierOps) (hsat : s'.saturatedOps = s.saturatedOps)
    (ha : s'.activeJobIds = s.activeJobIds) (hav : s'.availWorkerIds = s.availWorkerIds)
    (hfl : s'.assertFail = s.assertFail) (h : Inv s) : Inv s' := by
  obtain ⟨h1, h2, h3, h4, h5, h6, h7, h8, h9, h10, h11, h12⟩ := h
  refine ⟨?_, ?_, ?_, ?_, ?_, ?_, ?_, ?_, ?_, ?_, ?_, ?_⟩
  · rw [InvFlag, hfl]; exact h1
  · rw [InvIds, hj]; exact h2
  · intro jb hjb
    rw [hj] at hjb
    rw [hw]
    exact h3 jb hjb
  · intro p hp
    rw [hf] at hp
    rw [frontierMemOK_congr s s' hj]
    exact h4 p hp
  · intro jb hjb o ho he
    rw [hj] at hjb
    rw [hf]
    exact h5 jb hjb o ho he
  · intro p hp
    rw [hsat] at hp
    rw [satMemOK_congr s s' hj]
    exact h6 p hp
  · intro jb hjb o ho he
    rw [hj] at hjb
    rw [hsat]
    exact h7 jb hjb o ho he
  · intro jb hjb o ho
    rw [hj] at hjb
    exact h8 jb hjb o ho
  · intro jb hjb o ho
    rw [hj] at hjb
    exact h9 jb hjb o ho
  · obtain ⟨g1, g2, g3⟩ := h10
    refine ⟨?_, ?_, ?_⟩
    · intro jid hjid
      rw [ha] at hjid
      rw [activeJobOK_congr s s' hj]
      exact g1 jid hjid
    · intro jb hjb hc
      rw [hj] at hjb
      rw [ha]
      exact g2 jb hjb hc
    · rw [ha]; exact g3
  · intro w hw'
    rw [hw] at hw'
    rw [workerOK_congr s s' hj hw]
    exact h11 w hw'
  · rw [InvAvail, hav, hw]
    exact h12

theorem InvMid_congr (s s' : EnvState) (j o : ℕ)
    (hj : s'.jobs = s.jobs) (hw : s'.workers = s.workers)
    (hf : s'.frontierOps = s.frontierOps) (hsat : s'.saturatedOps = s.saturatedOps)
    (ha : s'.activeJobIds = s.activeJobIds) (hav : s'.availWorkerIds = s.availWorkerIds)
    (hfl : s'.assertFail = s.assertFail) (h : InvMid s j o) : InvMid s' j o := by
  obtain ⟨h1, h2, h3, h4, h5, h6, h7, h8, h9, h10, h11, h12, h13, h14⟩ := h
  refine ⟨?_, ?_, ?_, ?_, ?_, ?_, ?_, ?_, ?_, ?_, ?_, ?_, ?_, ?_⟩
  · rw [InvFlag, hfl]; exact h1
  · rw [InvIds, hj]; exact h2
  · intro jb hjb
    rw [hj] at hjb
    rw [hw]
    exact h3 jb hjb
  · intro p hp
    rw [hf] at hp
    rw [frontierMemOK_congr s s' hj]
    exact h4 p hp
  · intro jb hjb o' ho he
    rw [hj] at hjb
    rw [hf]
    exact h5 jb hjb o' ho he
  · intro p hp
    rw [hsat] at hp
    rw [satMemOK_congr s s' hj]
    exact h6 p hp
  · intro jb hjb o' ho he
    rw [hj] at hjb
    rw [hsat]
    exact h7 jb hjb o' ho he
  · intro jb hjb o' ho
    rw [hj] at hjb
    exact h8 jb hjb o' ho
  · intro jb hjb o' ho
    rw [hj] at hjb
    exact h9 jb hjb o' ho
  · obtain ⟨g1, g2, g3⟩ := h10
    refine ⟨?_, ?_, ?_⟩
    · intro jid hjid
      rw [ha] at hjid
      rw [activeJobOK_congr s s' hj]
      exact g1 jid hjid
    · intro jb hjb hc
      rw [hj] at hjb
      rw [ha]
      exact g2 jb hjb hc
    · rw [ha]; exact g3
  · intro w hw'
    rw [hw] at hw'
    rw [workerOK_congr s s' hj hw]
    exact h11 w hw'
  · rw [InvAvail, hav, hw]
    exact h12
  · rw [hf]; exact h13
  · rw [midOpOK_congr s s' hj]; exact h14

theorem frontierMemOK_unpack (s : EnvState) (p : ℕ × ℕ)
    (h : frontierMemOK s p = true) :
    ∃ jb op, lookupJob s p.1 = some jb ∧ jb.ops.get? p.2 = some op ∧
      op.saturated = false ∧ jb.checkDependencies p.2 .completed = true := by
  rw [frontierMemOK] at h
  cases hl : lookupJob s p.1 with
  | none => rw [hl] at h; simp at h
  | some jb =>
    rw [hl] at h
    dsimp only at h
    rw [eligibleAt] at h
    cases ho : jb.ops.get? p.2 with
    | none => rw [ho] at h; simp at h
    | some op =>
      rw [ho] at h
      dsimp only at h
      simp only [Bool.and_eq_true, Bool.not_eq_true'] at h
      exact ⟨jb, op, rfl, ho, h.1, h.2⟩

theorem satMemOK_unpack (s : EnvState) (p : ℕ × ℕ)
    (h : satMemOK s p = true) :
    ∃ jb op, lookupJob s p.1 = some jb ∧ jb.ops.get? p.2 = some op ∧
      op.saturated = true ∧ op.isComplete = false := by
  rw [satMemOK] at h
  cases hl : lookupJob s p.1 with
  | none => rw [hl] at h; simp at h
  | some jb =>
    rw [hl] at h
    dsimp only at h
    rw [satAt] at h
    cases ho : jb.ops.get? p.2 with
    | none => rw [ho] at h; simp at h
    | some op =>
      rw [ho] at h
      dsimp only at h
      simp only [Bool.and_eq_true, Bool.not_eq_true'] at h
      exact ⟨jb, op, rfl, ho, h.1, h.2⟩

theorem midOpOK_unpack (s : EnvState) (j o : ℕ) (h : midOpOK s j o = true) :
    ∃ jb op, lookupJob s j = some jb ∧ jb.ops.get? o = some op ∧
      jb.checkDependencies o .completed = true ∧ op.isComplete = false := by
  rw [midOpOK] at h
  cases hl : lookupJob s j with
  | none => rw [hl] at h; simp at h
  | some jb =>
    rw [hl] at h
    dsimp only at h
    cases ho : jb.ops.get? o with
    | none => rw [ho] at h; simp at h
    | some op =>
      rw [ho] at h
      dsimp only at h
      simp only [Bool.and_eq_true, Bool.not_eq_true'] at h
      exact ⟨jb, op, rfl, ho, h.1, h.2⟩

theorem mem_eq_of_lookup (s : EnvState) (hids : InvIds s) (jb x : Job) (j : ℕ)
    (hjb : lookupJob s j = some jb) (hx : x ∈ s.jobs) (hid : x.id = j) : x = jb := by
  have hx' := lookupJob_of_mem s hids x hx
  rw [hid, hjb] at hx'
  exact Option.some_injective _ hx'.symm

theorem OpWF_of_lookup (s : EnvState) (hwf : InvWF s) (jb : Job) (op : Op) (j o : ℕ)
    (hjb : lookupJob s j = some jb) (hop : jb.ops.get? o = some op) : OpWF op := by
  have hjm : jb ∈ s.jobs := lookupJob_mem s j jb hjb
  exact (hwf jb hjm).2.1 op (List.get?_mem hop)

theorem invMid_of_inv (s : EnvState) (j o : ℕ) (h : Inv s)
    (hm : (j, o) ∈ s.frontierOps) : InvMid s j o := by
  obtain ⟨h1, h2, h3, h4, h5, h6, h7, h8, h9, h10, h11, h12⟩ := h
  have hfm := h4 (j, o) hm
  obtain ⟨jb, op, hjb, hop, hsat, hdeps⟩ := frontierMemOK_unpack s (j, o) hfm
  have hwf : OpWF op := OpWF_of_lookup s h3 jb op j o hjb hop
  refine ⟨h1, h2, h3, fun p hp => Or.inr (h4 p hp), h5, h6,
    fun jb' hjb' o' ho' he => Or.inl (h7 jb' hjb' o' ho' he), h8, h9, h10, h11, h12,
    hm, ?_⟩
  simp only [midOpOK, hjb, hop]
  simp [hdeps, OpWF_not_complete op hwf hsat]

/-- When the loop target saturates, moving it from the frontier set to the
saturated set restores the full invariant. -/
theorem inv_move_core (s : EnvState) (j o : ℕ) (sN : EnvState)
    (hNj : sN.jobs = s.jobs) (hNw : sN.workers = s.workers)
    (hNf : sN.frontierOps = s.frontierOps.erase (j, o))
    (hNs : sN.saturatedOps = insert (j, o) s.saturatedOps)
    (hNa : sN.activeJobIds = s.activeJobIds)
    (hNav : sN.availWorkerIds = s.availWorkerIds)
    (hNfl : sN.assertFail = s.assertFail)
    (h : InvMid s j o) (jb : Job) (op : Op) (hjb : lookupJob s j = some jb)
    (hop : jb.ops.get? o = some op) (hsat : op.saturated = true) : Inv sN := by
  obtain ⟨h1, h2, h3, h4, h5, h6, h7, h8, h9, h10, h11, h12, h13, h14⟩ := h
  obtain ⟨jb', op', hjb', hop', hdeps, hncomp⟩ := midOpOK_unpack s j o h14
  have hjbe : jb' = jb := by
    rw [hjb] at hjb'
    exact Option.some_injective _ hjb'.symm
  rw [hjbe] at hop' hdeps
  have hope : op' = op := by
    rw [hop] at hop'
    exact Option.some_injective _ hop'.symm
  rw [hope] at hncomp
  refine ⟨?_, ?_, ?_, ?_, ?_, ?_, ?_, ?_, ?_, ?_, ?_, ?_⟩
  · rw [InvFlag, hNfl]; exact h1
  · rw [InvIds, hNj]; exact h2
  · intro x hx
    rw [hNj] at hx
    rw [hNw]
    exact h3 x hx
  · intro p hp
    rw [hNf] at hp
    obtain ⟨hpne, hpmem⟩ := Finset.mem_erase.mp hp
    rcases h4 p hpmem with heq | hok
    · exact absurd heq hpne
    · rw [frontierMemOK_congr s sN hNj]
      exact hok
  · intro x hx o' ho' he
    rw [hNj] at hx
    rw [hNf, Finset.mem_erase]
    refine ⟨?_, h5 x hx o' ho' he⟩
    intro hcontra
    have hxid : x.id = j := congrArg Prod.fst hcontra
    have ho'o : o' = o := congrArg Prod.snd hcontra
    have hxjb : x = jb := mem_eq_of_lookup s h2 jb x j hjb hx hxid
    rw [hxjb, ho'o, eligibleAt, hop] at he
    simp only [Bool.and_eq_true, Bool.not_eq_true'] at he
    rw [he.1] at hsat
    exact Bool.false_ne_true hsat
  · intro p hp
    rw [hNs] at hp
    rw [satMemOK_congr s sN hNj]
    rcases Finset.mem_insert.mp hp with heq | hmem
    · subst heq
      simp only [satMemOK, hjb, satAt, hop]
      simp [hsat, hncomp]
    · exact h6 p hmem
  · intro x hx o' ho' he
    rw [hNj] at hx
    rw [hNs]
    rcases h7 x hx o' ho' he with hmem | ⟨hid, ho'o⟩
    · exact Finset.mem_insert_of_mem hmem
    · rw [hid, ho'o]
      exact Finset.mem_insert_self _ _
  · intro x hx o' ho'
    rw [hNj] at hx
    exact h8 x hx o' ho'
  · intro x hx o' ho'
    rw [hNj] at hx
    exact h9 x hx o' ho'
  · obtain ⟨g1, g2, g3⟩ := h10
    refine ⟨?_, ?_, ?_⟩
    · intro jid hjid
      rw [hNa] at hjid
      rw [activeJobOK_congr s sN hNj]
      exact g1 jid hjid
    · intro x hx hc
      rw [hNj] at hx
      rw [hNa]
      exact g2 x hx hc
    · rw [hNa]; exact g3
  · intro w hw
    rw [hNw] at hw
    rw [workerOK_congr s sN hNj hNw]
    exact h11 w hw
  · rw [InvAvail, hNav, hNw]
    exact h12

/-- If the loop target did not saturate, the mid-action invariant already
implies the full invariant. -/
theorem inv_of_invMid_notsat (s : EnvState) (j o : ℕ) (h : InvMid s j o)
    (jb : Job) (op : Op) (hjb : lookupJob s j = some jb)
    (hop : jb.ops.get? o = some op) (hsat : op.saturated = false) : Inv s := by
  obtain ⟨h1, h2, h3, h4, h5, h6, h7, h8, h9, h10, h11, h12, h13, h14⟩ := h
  obtain ⟨jb', op', hjb', hop', hdeps, hncomp⟩ := midOpOK_unpack s j o h14
  have hjbe : jb' = jb := by
    rw [hjb] at hjb'
    exact Option.some_injective _ hjb'.symm
  rw [hjbe] at hop' hdeps
  have hope : op' = op := by
    rw [hop] at hop'
    exact Option.some_injective _ hop'.symm
  rw [hope] at hncomp
  refine ⟨h1, h2, h3, ?_, h5, h6, ?_, h8, h9, h10, h11, h12⟩
  · intro p hp
    rcases h4 p hp with heq | hok
    · subst heq
      simp only [frontierMemOK, eligibleAt, hjb, hop]
      simp [hsat, hdeps]
    · exact hok
  · intro x hx o' ho' he
    rcases h7 x hx o' ho' he with hmem | ⟨hid, ho'o⟩
    · exact hmem
    · exfalso
      have hxjb : x = jb := mem_eq_of_lookup s h2 jb x j hjb hx hid
      rw [hxjb, ho'o, satAt, hop] at he
      simp only [Bool.and_eq_true] at he
      rw [hsat] at he
      exact Bool.false_ne_true he.1

theorem inv_moveToSaturatedIfSat (s : EnvState) (j o : ℕ) (h : InvMid s j o) :
    Inv (moveToSaturatedIfSat s j o) := by
  have hcopy := h
  obtain ⟨-, -, -, -, -, -, -, -, -, -, -, -, h13, h14⟩ := hcopy
  obtain ⟨jb, op, hjb, hop, hdeps, hncomp⟩ := midOpOK_unpack s j o h14
  have hgop : getOp s j o = some op := by
    rw [getOp, hjb, Option.some_bind]
    exact hop
  rw [moveToSaturatedIfSat, hgop]
  dsimp only
  split
  · next hcond =>
    have hsat : op.saturated = true := by
      cases hcs : op.saturated with
      | true => rfl
      | false => rw [hcs] at hcond; simp at hcond
    exact inv_move_core s j o _ rfl rfl rfl rfl rfl rfl rfl h jb op hjb hop hsat
  · next hcond =>
    have hsat : op.saturated = false := by
      cases hcs : op.saturated with
      | false => rfl
      | true =>
        rw [hcs] at hcond
        exact absurd (by simp [h13]) hcond
    exact inv_of_invMid_notsat s j o h jb op hjb hop hsat

theorem updateJob_frontier (s : EnvState) (j : ℕ) (f : Job → Job) :
    (updateJob s j f).frontierOps = s.frontierOps := rfl

theorem updateJob_saturated (s : EnvState) (j : ℕ) (f : Job → Job) :
    (updateJob s j f).saturatedOps = s.saturatedOps := rfl

theorem updateJob_activeJobIds (s : EnvState) (j : ℕ) (f : Job → Job) :
    (updateJob s j f).activeJobIds = s.activeJobIds := rfl

theorem updateJob_flag (s : EnvState) (j : ℕ) (f : Job → Job) :
    (updateJob s j f).assertFail = s.assertFail := rfl

theorem updateWorker_frontier (s : EnvState) (w : ℕ) (f : Worker → Worker) :
    (updateWorker s w f).frontierOps = s.frontierOps := by
  unfold updateWorker
  cases s.workers.get? w <;> rfl

theorem updateWorker_saturated (s : EnvState) (w : ℕ) (f : Worker → Worker) :
    (updateWorker s w f).saturatedOps = s.saturatedOps := by
  unfold updateWorker
  cases s.workers.get? w <;> rfl

theorem updateWorker_activeJobIds (s : EnvState) (w : ℕ) (f : Worker → Worker) :
    (updateWorker s w f).activeJobIds = s.activeJobIds := by
  unfold updateWorker
  cases s.workers.get? w <;> rfl

theorem updateWorker_avail (s : EnvState) (w : ℕ) (f : Worker → Worker) :
    (updateWorker s w f).availWorkerIds = s.availWorkerIds := by
  unfold updateWorker
  cases s.workers.get? w <;> rfl

theorem updateWorker_flag (s : EnvState) (w : ℕ) (f : Worker → Worker) :
    (updateWorker s w f).assertFail = s.assertFail := by
  unfold updateWorker
  cases s.workers.get? w <;> rfl

theorem addAvail_frontier (s : EnvState) (w : ℕ) :
    (addAvail s w).frontierOps = s.frontierOps := by
  unfold addAvail
  split <;> rfl

theorem addAvail_saturated (s : EnvState) (w : ℕ) :
    (addAvail s w).saturatedOps = s.saturatedOps := by
  unfold addAvail
  split <;> rfl

theorem addAvail_activeJobIds (s : EnvState) (w : ℕ) :
    (addAvail s w).activeJobIds = s.activeJobIds := by
  unfold addAvail
  split <;> rfl

theorem addAvail_flag (s : EnvState) (w : ℕ) :
    (addAvail s w).assertFail = s.assertFail := by
  unfold addAvail
  split <;> rfl

theorem removeAvail_frontier (s : EnvState) (w : ℕ) :
    (removeAvail s w).frontierOps = s.frontierOps := by
  unfold removeAvail
  split <;> rfl

theorem removeAvail_saturated (s : EnvState) (w : ℕ) :
    (removeAvail s w).saturatedOps = s.saturatedOps := by
  unfold removeAvail
  split <;> rfl

theorem removeAvail_activeJobIds (s : EnvState) (w : ℕ) :
    (removeAvail s w).activeJobIds = s.activeJobIds := by
  unfold removeAvail
  split <;> rfl

theorem pushEvent_workers (s : EnvState) (t : ℚ) (e : Event) :
    (pushEvent s t e).workers = s.workers := rfl

theorem pushEvent_frontier (s : EnvState) (t : ℚ) (e : Event) :
    (pushEvent s t e).frontierOps = s.frontierOps := rfl

theorem pushEvent_saturated (s : EnvState) (t : ℚ) (e : Event) :
    (pushEvent s t e).saturatedOps = s.saturatedOps := rfl

theorem pushEvent_activeJobIds (s : EnvState) (t : ℚ) (e : Event) :
    (pushEvent s t e).activeJobIds = s.activeJobIds := rfl

theorem pushEvent_avail (s : EnvState) (t : ℚ) (e : Event) :
    (pushEvent s t e).availWorkerIds = s.availWorkerIds := rfl

theorem pushEvent_flag (s : EnvState) (t : ℚ) (e : Event) :
    (pushEvent s t e).assertFail = s.assertFail := rfl

/-- The invariant is unaffected by pushing a timeline event. -/
theorem Inv_pushEvent (s : EnvState) (t : ℚ) (e : Event) (h : Inv s) :
    Inv (pushEvent s t e) :=
  Inv_congr s _ rfl rfl rfl rfl rfl rfl rfl h

theorem InvMid_pushEvent (s : EnvState) (j o : ℕ) (t : ℚ) (e : Event)
    (h : InvMid s j o) : InvMid (pushEvent s t e) j o :=
  InvMid_congr s _ j o rfl rfl rfl rfl rfl rfl rfl h

theorem OpWF_startTask (op : Op) (w : ℕ) (t : ℚ) (tid : ℕ) (rest : List ℕ)
    (hwf : OpWF op) (hrem : op.remainingTasks = tid :: rest) :
    OpWF (startTask w t tid rest op) := by
  obtain ⟨hpos, hlen, ndR, ndP, ndC, bR, bP, bC, dRP, dRC, dPC, hsum⟩ := hwf
  rw [hrem] at ndR bR dRP dRC hsum
  have htid_mem : tid ∈ tid :: rest := by simp
  have htid_nP : tid ∉ op.processingTasks := dRP tid htid_mem
  have htid_nC : tid ∉ op.completedTasks := dRC tid htid_mem
  have htid_b : tid < op.numTasks := bR tid htid_mem
  have ndR' := List.nodup_cons.mp ndR
  refine ⟨hpos, ?_, ndR'.2, ?_, ndC, ?_, ?_, bC, ?_, ?_, ?_, ?_⟩
  · simpa [startTask] using hlen
  · rw [startTask]
    dsimp only
    rw [List.nodup_append]
    exact ⟨ndP, List.nodup_singleton _,
      fun a ha hb => htid_nP (List.mem_singleton.mp hb ▸ ha)⟩
  · intro x hx
    rw [startTask] at hx
    dsimp only at hx
    exact bR x (by simp [hx])
  · intro x hx
    rw [startTask] at hx
    dsimp only at hx
    rcases List.mem_append.mp hx with hx | hx
    · exact bP x hx
    · simp only [List.mem_singleton] at hx
      subst hx
      exact htid_b
  · intro x hx hx'
    rw [startTask] at hx hx'
    dsimp only at hx hx'
    rcases List.mem_append.mp hx' with hx' | hx'
    · exact dRP x (by simp [hx]) hx'
    · simp only [List.mem_singleton] at hx'
      subst hx'
      exact ndR'.1 hx
  · intro x hx
    rw [startTask] at hx
    dsimp only at hx
    exact dRC x (by simp [hx])
  · intro x hx
    rw [startTask] at hx
    dsimp only at hx
    rcases List.mem_append.mp hx with hx | hx
    · exact dPC x hx
    · simp only [List.mem_singleton] at hx
      subst hx
      exact htid_nC
  · rw [startTask]
    dsimp only
    simp only [List.length_append, List.length_cons, List.length_singleton,
      List.length_nil] at hsum ⊢
    omega

theorem frontierMemOK_surgery (s s' : EnvState) (j : ℕ) (jb jbP : Job)
    (o : ℕ) (op opP : Op) (sur : JobsSurgery s s' j jb jbP)
    (hopsP : jbP.ops = jb.ops.set o opP) (hdP : jbP.dagEdges = jb.dagEdges)
    (hop : jb.ops.get? o = some op) (hc : opP.isComplete = op.isComplete)
    (p : ℕ × ℕ) (hne : p ≠ (j, o)) :
    frontierMemOK s' p = frontierMemOK s p := by
  obtain ⟨sjb, sjbP, sne, smem, sids⟩ := sur
  by_cases hp1 : p.1 = j
  · have hp2 : p.2 ≠ o := fun h => hne (Prod.ext hp1 h)
    rw [frontierMemOK, frontierMemOK, hp1, sjb, sjbP]
    exact eligibleAt_set_ne jb jbP o op opP hopsP hdP hop hc p.2 hp2
  · rw [frontierMemOK, frontierMemOK, sne p.1 hp1]

theorem satMemOK_surgery (s s' : EnvState) (j : ℕ) (jb jbP : Job)
    (o : ℕ) (opP : Op) (sur : JobsSurgery s s' j jb jbP)
    (hopsP : jbP.ops = jb.ops.set o opP)
    (p : ℕ × ℕ) (hne : p ≠ (j, o)) :
    satMemOK s' p = satMemOK s p := by
  obtain ⟨sjb, sjbP, sne, smem, sids⟩ := sur
  by_cases hp1 : p.1 = j
  · have hp2 : p.2 ≠ o := fun h => hne (Prod.ext hp1 h)
    rw [satMemOK, satMemOK, hp1, sjb, sjbP]
    exact satAt_set_ne jb jbP o opP hopsP p.2 hp2
  · rw [satMemOK, satMemOK, sne p.1 hp1]

theorem activeJobOK_surgery (s s' : EnvState) (j : ℕ) (jb jbP : Job)
    (sur : JobsSurgery s s' j jb jbP) (hcomp : jbP.isComplete = jb.isComplete)
    (jid : ℕ) : activeJobOK s' jid = activeJobOK s jid := by
  obtain ⟨sjb, sjbP, sne, smem, sids⟩ := sur
  by_cases hj : jid = j
  · rw [activeJobOK, activeJobOK, hj, sjb, sjbP]
    simp [hcomp]
  · rw [activeJobOK, activeJobOK, sne jid hj]

theorem workerOK_surgery (s s' : EnvState) (j : ℕ) (jb jbP : Job)
    (sur : JobsSurgery s s' j jb jbP) (hloc : jbP.localWorkers = jb.localWorkers)
    (hwk : ∀ w', (s'.workers.get? w').map (fun x => (x.isMoving, x.jobId)) =
      (s.workers.get? w').map (fun x => (x.isMoving, x.jobId)))
    (w : ℕ) : workerOK s' w = workerOK s w := by
  obtain ⟨sjb, sjbP, sne, smem, sids⟩ := sur
  have hw := hwk w
  rw [workerOK, workerOK]
  cases h1 : s'.workers.get? w with
  | none =>
    cases h2 : s.workers.get? w with
    | none => rfl
    | some wk => rw [h1, h2] at hw; simp at hw
  | some wk' =>
    cases h2 : s.workers.get? w with
    | none => rw [h1, h2] at hw; simp at hw
    | some wk =>
      rw [h1, h2] at hw
      simp only [Option.map_some', Option.some.injEq, Prod.mk.injEq] at hw
      dsimp only
      rw [hw.1, hw.2]
      cases hjid : wk.jobId with
      | none => rfl
      | some jid =>
        dsimp only
        by_cases hj : jid = j
        · rw [hj, sjb, sjbP]
          simp [hloc]
        · rw [sne jid hj]

/-- Replacing the loop target's operation record by its `start_on_next_task`
successor (and binding one worker) preserves the mid-action invariant. -/
theorem invMid_surgery_startTask (s s' : EnvState) (j o wIdx tid : ℕ)
    (rest : List ℕ) (h : InvMid s j o) (jb jbP : Job) (op : Op)
    (hjb : lookupJob s j = some jb) (hop : jb.ops.get? o = some op)
    (hrem : op.remainingTasks = tid :: rest)
    (sur : JobsSurgery s s' j jb jbP)
    (hopsP : jbP.ops = jb.ops.set o (startTask wIdx s.wallTime tid rest op))
    (hdP : jbP.dagEdges = jb.dagEdges) (hacP : jbP.activeOps = jb.activeOps)
    (hlocP : jbP.localWorkers = jb.localWorkers)
    (hNw : ∀ w', (s'.workers.get? w').map (fun x => (x.isMoving, x.jobId)) =
      (s.workers.get? w').map (fun x => (x.isMoving, x.jobId)))
    (hNwl : s'.workers.length = s.workers.length)
    (hNf : s'.frontierOps = s.frontierOps)
    (hNs : s'.saturatedOps = s.saturatedOps)
    (hNa : s'.activeJobIds = s.activeJobIds)
    (hNav : s'.availWorkerIds = s.availWorkerIds)
    (hNfl : s'.assertFail = s.assertFail) :
    InvMid s' j o := by
  have sur' := sur
  obtain ⟨sjb, sjbP, sne, smem, sids⟩ := sur
  obtain ⟨h1, h2, h3, h4, h5, h6, h7, h8, h9, h10, h11, h12, h13, h14⟩ := h
  obtain ⟨jb0, op0, hjb0, hop0, hdeps0, hncomp0⟩ := midOpOK_unpack s j o h14
  have e1 : jb0 = jb := by
    rw [hjb] at hjb0
    exact Option.some_injective _ hjb0.symm
  rw [e1] at hop0 hdeps0
  have e2 : op0 = op := by
    rw [hop] at hop0
    exact Option.some_injective _ hop0.symm
  rw [e2] at hncomp0
  generalize hopPd : startTask wIdx s.wallTime tid rest op = opP at hopsP
  have hsat : op.saturated = false := by rw [Op.saturated, hrem]; rfl
  have hcP : opP.isComplete = op.isComplete := by rw [← hopPd]; rfl
  have hwfP : OpWF opP := by
    rw [← hopPd]
    exact OpWF_startTask op wIdx s.wallTime tid rest
      (OpWF_of_lookup s h3 jb op j o hjb hop) hrem
  have hltP : o < jb.ops.length := get?_lt _ _ _ hop
  have hjbP_id : jbP.id = j := lookupJob_id s' j jbP sjbP
  have hjb_id : jb.id = j := lookupJob_id s j jb hjb
  have hjbmem : jb ∈ s.jobs := lookupJob_mem s j jb hjb
  have hgetP : jbP.ops.get? o = some opP := by
    rw [hopsP, List.get?_eq_getElem?, List.getElem?_set_self hltP]
  have hlenP : jbP.ops.length = jb.ops.length := by
    rw [hopsP, List.length_set]
  have hcompP : jbP.isComplete = jb.isComplete := by
    rw [Job.isComplete, Job.isComplete, hacP]
  have hrng : ∀ o'', o'' ∈ List.range jbP.ops.length →
      o'' ∈ List.range jb.ops.length := by
    intro o'' h''
    rw [List.mem_range] at h'' ⊢
    rw [hlenP] at h''
    exact h''
  refine ⟨?_, ?_, ?_, ?_, ?_, ?_, ?_, ?_, ?_, ?_, ?_, ?_, ?_, ?_⟩
  · rw [InvFlag, hNfl]; exact h1
  · rw [InvIds, sids]; exact h2
  · intro x hx
    rcases smem x hx with hxP | ⟨hxold, hxne⟩
    · rw [hxP]
      obtain ⟨wpos, wops, wedges, wand, wab, wln, wlb⟩ := h3 jb hjbmem
      refine ⟨by rw [hlenP]; exact wpos, ?_, ?_, by rw [hacP]; exact wand,
        ?_, by rw [hlocP]; exact wln, ?_⟩
      · intro q hq
        rw [hopsP] at hq
        rcases mem_set_or _ _ _ _ hq with hq | hq
        · rw [hq]; exact hwfP
        · exact wops q hq
      · intro e he'
        rw [hdP] at he'
        rw [hlenP]
        exact wedges e he'
      · intro o'' ho''
        rw [hacP] at ho''
        rw [hlenP]
        exact wab o'' ho''
      · intro w' hw'
        rw [hlocP] at hw'
        rw [hNwl]
        exact wlb w' hw'
    · obtain ⟨wpos, wops, wedges, wand, wab, wln, wlb⟩ := h3 x hxold
      exact ⟨wpos, wops, wedges, wand, wab, wln,
        fun w' hw' => by rw [hNwl]; exact wlb w' hw'⟩
  · intro p hp
    rw [hNf] at hp
    rcases h4 p hp with heq | hok
    · exact Or.inl heq
    · by_cases hpe : p = (j, o)
      · exact Or.inl hpe
      · right
        rw [frontierMemOK_surgery s s' j jb jbP o op opP sur' hopsP hdP hop hcP p hpe]
        exact hok
  · intro x hx o' ho' he
    rw [hNf]
    rcases smem x hx with hxP | ⟨hxold, hxne⟩
    · rw [hxP] at he ho' ⊢
      rw [hjbP_id]
      by_cases ho'o : o' = o
      · rw [ho'o]; exact h13
      · have he' : eligibleAt jb o' = true := by
          rw [← eligibleAt_set_ne jb jbP o op opP hopsP hdP hop hcP o' ho'o]
          exact he
        have := h5 jb hjbmem o' (hrng o' ho') he'
        rw [hjb_id] at this
        exact this
    · exact h5 x hxold o' ho' he
  · intro p hp
    rw [hNs] at hp
    have hold := h6 p hp
    by_cases hpe : p = (j, o)
    · exfalso
      subst hpe
      obtain ⟨jb2, op2, hjb2, hop2, hs2, hc2⟩ := satMemOK_unpack s (j, o) hold
      dsimp only at hjb2 hop2
      have e3 : jb2 = jb := by
        rw [hjb] at hjb2
        exact Option.some_injective _ hjb2.symm
      rw [e3] at hop2
      have e4 : op2 = op := by
        rw [hop] at hop2
        exact Option.some_injective _ hop2.symm
      rw [e4] at hs2
      rw [hsat] at hs2
      exact Bool.false_ne_true hs2
    · rw [satMemOK_surgery s s' j jb jbP o opP sur' hopsP p hpe]
      exact hold
  · intro x hx o' ho' he
    rcases smem x hx with hxP | ⟨hxold, hxne⟩
    · rw [hxP] at he ho' ⊢
      by_cases ho'o : o' = o
      · exact Or.inr ⟨hjbP_id, ho'o⟩
      · have he' : satAt jb o' = true := by
          rw [← satAt_set_ne jb jbP o opP hopsP o' ho'o]
          exact he
        rw [hNs, hjbP_id]
        rcases h7 jb hjbmem o' (hrng o' ho') he' with hmem | ⟨_, h_o⟩
        · rw [hjb_id] at hmem
          exact Or.inl hmem
        · exact Or.inr ⟨rfl, h_o⟩
    · rw [hNs]
      exact h7 x hxold o' ho' he
  · intro x hx o' ho'
    rcases smem x hx with hxP | ⟨hxold, hxne⟩
    · rw [hxP] at ho' ⊢
      by_cases ho'o : o' = o
      · rw [ho'o, untouchedOK, hgetP]
        dsimp only
        have hd' : jbP.checkDependencies o .completed = true := by
          rw [checkDependencies_set jb jbP o op opP hopsP hdP hop hcP o]
          exact hdeps0
        simp [hd']
      · rw [untouchedOK_set_ne jb jbP o op opP hopsP hdP hop hcP o' ho'o]
        exact h8 jb hjbmem o' (hrng o' ho')
    · exact h8 x hxold o' ho'
  · intro x hx o' ho'
    rcases smem x hx with hxP | ⟨hxold, hxne⟩
    · rw [hxP] at ho' ⊢
      rw [hacP]
      by_cases ho'o : o' = o
      · rw [ho'o, activeAt_set_self jb jbP o opP hopsP hltP]
        have h9' := h9 jb hjbmem o (by rw [List.mem_range]; exact hltP)
        rw [activeAt, hop] at h9'
        dsimp only at h9'
        rw [hcP]
        exact h9'
      · rw [activeAt_set_ne jb jbP o opP hopsP o' ho'o]
        exact h9 jb hjbmem o' (hrng o' ho')
    · exact h9 x hxold o' ho'
  · obtain ⟨g1, g2, g3⟩ := h10
    refine ⟨?_, ?_, ?_⟩
    · intro jid hjid
      rw [hNa] at hjid
      rw [activeJobOK_surgery s s' j jb jbP sur' hcompP jid]
      exact g1 jid hjid
    · intro x hx hc
      rw [hNa]
      rcases smem x hx with hxP | ⟨hxold, hxne⟩
      · rw [hxP] at hc ⊢
        rw [hjbP_id]
        rw [hcompP] at hc
        have := g2 jb hjbmem hc
        rw [hjb_id] at this
        exact this
      · exact g2 x hxold hc
    · rw [hNa]; exact g3
  · intro w hwr
    rw [hNwl] at hwr
    rw [workerOK_surgery s s' j jb jbP sur' hlocP hNw w]
    exact h11 w hwr
  · obtain ⟨a1, a2⟩ := h12
    rw [InvAvail, hNav]
    exact ⟨a1, fun w hw' => by rw [hNwl]; exact a2 w hw'⟩
  · rw [hNf]; exact h13
  · simp only [midOpOK, sjbP, hgetP]
    have hd' : jbP.checkDependencies o .completed = true := by
      rw [checkDependencies_set jb jbP o op opP hopsP hdP hop hcP o]
      exact hdeps0
    simp [hd', hcP, hncomp0]

theorem updateWorker_movjob (s : EnvState) (w : ℕ) (f : Worker → Worker)
    (hf : ∀ x, (f x).isMoving = x.isMoving ∧ (f x).jobId = x.jobId) (w' : ℕ) :
    ((updateWorker s w f).workers.get? w').map (fun x => (x.isMoving, x.jobId)) =
      (s.workers.get? w').map (fun x => (x.isMoving, x.jobId)) := by
  unfold updateWorker
  cases hg : s.workers.get? w with
  | none => rfl
  | some wk =>
    dsimp only
    by_cases hw' : w' = w
    · subst hw'
      have hlt : w' < s.workers.length := get?_lt _ _ _ hg
      rw [List.get?_eq_getElem?, List.getElem?_set_self hlt, hg]
      simp [(hf wk).1, (hf wk).2]
    · rw [List.get?_eq_getElem?, List.getElem?_set_ne (Ne.symm hw'),
        ← List.get?_eq_getElem?]

/-- Finishing step of `assign_worker`: binding the worker's current task
preserves the mid-action invariant and the bookkeeping facts needed by the
scheduling loops. -/
theorem invMid_assign_finish (s sMid : EnvState) (wIdx j o tid : ℕ)
    (rest : List ℕ) (h : InvMid s j o) (jb jbP : Job) (op : Op)
    (hjb : lookupJob s j = some jb) (hop : jb.ops.get? o = some op)
    (hrem : op.remainingTasks = tid :: rest)
    (surM : JobsSurgery s sMid j jb jbP)
    (hopsP : jbP.ops = jb.ops.set o (startTask wIdx s.wallTime tid rest op))
    (hdP : jbP.dagEdges = jb.dagEdges) (hacP : jbP.activeOps = jb.activeOps)
    (hlocP : jbP.localWorkers = jb.localWorkers)
    (hMw : sMid.workers = s.workers)
    (hMf : sMid.frontierOps = s.frontierOps)
    (hMs : sMid.saturatedOps = s.saturatedOps)
    (hMa : sMid.activeJobIds = s.activeJobIds)
    (hMav : sMid.availWorkerIds = s.availWorkerIds)
    (hMfl : sMid.assertFail = s.assertFail) (hMt : sMid.wallTime = s.wallTime)
    (hw : wIdx < s.workers.length) :
    InvMid (updateWorker sMid wIdx fun wk => { wk with task := some (j, o, tid) }) j o ∧
    (updateWorker sMid wIdx fun wk =>
      { wk with task := some (j, o, tid) }).workers.length = s.workers.length ∧
    (updateWorker sMid wIdx fun wk =>
      { wk with task := some (j, o, tid) }).wallTime = s.wallTime ∧
    (updateWorker sMid wIdx fun wk =>
      { wk with task := some (j, o, tid) }).availWorkerIds = s.availWorkerIds ∧
    (updateWorker sMid wIdx fun wk =>
      { wk with task := some (j, o, tid) }).frontierOps = s.frontierOps ∧
    getOp (updateWorker sMid wIdx fun wk => { wk with task := some (j, o, tid) })
      j o = some (startTask wIdx s.wallTime tid rest op) ∧
    (∀ acc, PushTidOK s j o acc →
      PushTidOK (updateWorker sMid wIdx fun wk =>
        { wk with task := some (j, o, tid) }) j o acc) ∧
    PushTidOK (updateWorker sMid wIdx fun wk =>
      { wk with task := some (j, o, tid) }) j o [tid] := by
  have hwf : OpWF op := OpWF_of_lookup s h.2.2.1 jb op j o hjb hop
  have hlt : o < jb.ops.length := get?_lt _ _ _ hop
  have surF := jobsSurgery_congr s sMid
    (updateWorker sMid wIdx fun wk => { wk with task := some (j, o, tid) }) j jb jbP
    (updateWorker_jobs sMid wIdx fun wk => { wk with task := some (j, o, tid) }) surM
  have hNw : ∀ w', ((updateWorker sMid wIdx fun wk =>
      { wk with task := some (j, o, tid) }).workers.get? w').map
      (fun x => (x.isMoving, x.jobId)) =
      (s.workers.get? w').map (fun x => (x.isMoving, x.jobId)) := by
    intro w'
    rw [updateWorker_movjob sMid wIdx
      (fun wk => { wk with task := some (j, o, tid) })
      (fun x => ⟨rfl, rfl⟩) w', hMw]
  have hNwl : (updateWorker sMid wIdx fun wk =>
      { wk with task := some (j, o, tid) }).workers.length = s.workers.length := by
    rw [updateWorker_workers_length, hMw]
  have hNf : (updateWorker sMid wIdx fun wk =>
      { wk with task := some (j, o, tid) }).frontierOps = s.frontierOps := by
    rw [updateWorker_frontier, hMf]
  have hNs : (updateWorker sMid wIdx fun wk =>
      { wk with task := some (j, o, tid) }).saturatedOps = s.saturatedOps := by
    rw [updateWorker_saturated, hMs]
  have hNa : (updateWorker sMid wIdx fun wk =>
      { wk with task := some (j, o, tid) }).activeJobIds = s.activeJobIds := by
    rw [updateWorker_activeJobIds, hMa]
  have hNav : (updateWorker sMid wIdx fun wk =>
      { wk with task := some (j, o, tid) }).availWorkerIds = s.availWorkerIds := by
    rw [updateWorker_avail, hMav]
  have hNfl : (updateWorker sMid wIdx fun wk =>
      { wk with task := some (j, o, tid) }).assertFail = s.assertFail := by
    rw [updateWorker_flag, hMfl]
  have hNt : (updateWorker sMid wIdx fun wk =>
      { wk with task := some (j, o, tid) }).wallTime = s.wallTime := by
    rw [wallTime_updateWorker, hMt]
  have hgetP : jbP.ops.get? o = some (startTask wIdx s.wallTime tid rest op) := by
    rw [hopsP, List.get?_eq_getElem?, List.getElem?_set_self hlt]
  have hgopF : getOp (updateWorker sMid wIdx fun wk =>
      { wk with task := some (j, o, tid) }) j o =
      some (startTask wIdx s.wallTime tid rest op) := by
    rw [getOp, surF.2.1, Option.some_bind]
    exact hgetP
  have htid_b : tid < op.numTasks := by
    obtain ⟨_, _, _, _, _, bR, _, _, _, _, _, _⟩ := hwf
    exact bR tid (by rw [hrem]; simp)
  have htid_tb : tid < op.tasks.length := by
    obtain ⟨_, hlen, _⟩ := hwf
    rw [hlen]
    exact htid_b
  refine ⟨invMid_surgery_startTask s _ j o wIdx tid rest h jb jbP op hjb hop hrem
    surF hopsP hdP hacP hlocP hNw hNwl hNf hNs hNa hNav hNfl,
    hNwl, hNt, hNav, hNf, hgopF, ?_, ?_⟩
  · intro acc hacc tid' htid'
    obtain ⟨op', task, w, hgop', htask, hwid, hwlt, hacc', hproc⟩ := hacc tid' htid'
    have hgop : getOp s j o = some op := by
      rw [getOp, hjb, Option.some_bind]
      exact hop
    have heop : op' = op := by
      rw [hgop] at hgop'
      exact Option.some_injective _ hgop'.symm
    rw [heop] at htask hproc
    have hne : tid ≠ tid' := by
      intro he
      obtain ⟨_, _, _, _, _, _, _, _, dRP, _, _, _⟩ := hwf
      exact dRP tid (by rw [hrem]; simp) (he ▸ hproc)
    refine ⟨startTask wIdx s.wallTime tid rest op, task, w, hgopF, ?_, hwid,
      by rw [hNwl]; exact hwlt, hacc', ?_⟩
    · rw [startTask_get?_ne op wIdx s.wallTime tid rest tid' hne]
      exact htask
    · rw [startTask]
      dsimp only
      exact List.mem_append_left _ hproc
  · intro tid' htid'
    simp only [List.mem_singleton] at htid'
    subst htid'
    refine ⟨startTask wIdx s.wallTime tid' rest op,
      { workerId := some wIdx, tAccepted := some s.wallTime, tCompleted := none },
      wIdx, hgopF, ?_, rfl, by rw [hNwl]; exact hw, rfl, ?_⟩
    · rw [startTask]
      dsimp only
      rw [List.get?_eq_getElem?, List.getElem?_set_self htid_tb]
    · rw [startTask]
      dsimp only
      exact List.mem_append_right _ (by simp)

/-- `assign_worker` called on a non-saturated frontier operation succeeds,
pops the head remaining task and preserves the mid-action invariant. -/
theorem invMid_assignWorker (s : EnvState) (wIdx j o : ℕ) (h : InvMid s j o)
    (jb : Job) (op : Op) (hjb : lookupJob s j = some jb)
    (hop : jb.ops.get? o = some op) (hsat : op.saturated = false)
    (hw : wIdx < s.workers.length) :
    ∃ tid rest, op.remainingTasks = tid :: rest ∧
      (assignWorker s wIdx j o).2 = some tid ∧
      InvMid (assignWorker s wIdx j o).1 j o ∧
      (assignWorker s wIdx j o).1.workers.length = s.workers.length ∧
      (assignWorker s wIdx j o).1.wallTime = s.wallTime ∧
      (assignWorker s wIdx j o).1.availWorkerIds = s.availWorkerIds ∧
      (assignWorker s wIdx j o).1.frontierOps = s.frontierOps ∧
      getOp (assignWorker s wIdx j o).1 j o =
        some (startTask wIdx s.wallTime tid rest op) ∧
      (∀ acc, PushTidOK s j o acc → PushTidOK (assignWorker s wIdx j o).1 j o acc) ∧
      PushTidOK (assignWorker s wIdx j o).1 j o [tid] := by
  have hids : InvIds s := h.2.1
  have hwfall : InvWF s := h.2.2.1
  have hwf : OpWF op := OpWF_of_lookup s hwfall jb op j o hjb hop
  have hgop : getOp s j o = some op := by
    rw [getOp, hjb, Option.some_bind]
    exact hop
  have hlts := OpWF_numSat_lt op hwf hsat
  cases hrem : op.remainingTasks with
  | nil =>
    exfalso
    rw [Op.saturated, hrem] at hsat
    simp at hsat
  | cons tid rest =>
    have sur1 := jobsSurgery_updateOp s j o (startTask wIdx s.wallTime tid rest)
      jb op hids hjb hop
    cases hre : rest.isEmpty with
    | true =>
      have hunf : assignWorker s wIdx j o =
          (updateWorker (updateJob (updateOp s j o
              (startTask wIdx s.wallTime tid rest)) j bumpSaturated) wIdx
            fun wk => { wk with task := some (j, o, tid) },
           some tid) := by
        unfold assignWorker
        rw [hgop]
        dsimp only
        rw [if_neg (by simp [hlts]), hrem]
        dsimp only
        rw [if_pos hre]
      have hids1 : InvIds (updateOp s j o (startTask wIdx s.wallTime tid rest)) := by
        rw [InvIds, sur1.2.2.2.2]
        exact hids
      have sur2 := jobsSurgery_updateJob
        (updateOp s j o (startTask wIdx s.wallTime tid rest)) j bumpSaturated _
        hids1 sur1.2.1 (fun _ => rfl)
      have surM := jobsSurgery_trans s _ _ j jb _ _ sur1 sur2
      have fin := invMid_assign_finish s
        (updateJob (updateOp s j o (startTask wIdx s.wallTime tid rest)) j
          bumpSaturated) wIdx j o tid rest h jb _ op hjb hop hrem surM
        rfl rfl rfl rfl rfl rfl rfl rfl rfl rfl rfl hw
      refine ⟨tid, rest, rfl, ?_⟩
      rw [hunf]
      exact ⟨rfl, fin.1, fin.2.1, fin.2.2.1, fin.2.2.2.1, fin.2.2.2.2.1,
        fin.2.2.2.2.2.1, fin.2.2.2.2.2.2.1, fin.2.2.2.2.2.2.2⟩
    | false =>
      have hunf : assignWorker s wIdx j o =
          (updateWorker (updateOp s j o (startTask wIdx s.wallTime tid rest)) wIdx
            fun wk => { wk with task := some (j, o, tid) },
           some tid) := by
        unfold assignWorker
        rw [hgop]
        dsimp only
        rw [if_neg (by simp [hlts]), hrem]
        dsimp only
        rw [if_neg (by simp [hre])]
      have fin := invMid_assign_finish s
        (updateOp s j o (startTask wIdx s.wallTime tid rest)) wIdx j o tid rest
        h jb _ op hjb hop hrem sur1
        rfl rfl rfl rfl rfl rfl rfl rfl rfl rfl rfl hw
      refine ⟨tid, rest, rfl, ?_⟩
      rw [hunf]
      exact ⟨rfl, fin.1, fin.2.1, fin.2.2.1, fin.2.2.2.1, fin.2.2.2.2.1,
        fin.2.2.2.2.2.1, fin.2.2.2.2.2.2.1, fin.2.2.2.2.2.2.2⟩

theorem get?_some_of_lt {α : Type _} (l : List α) (i : ℕ) (h : i < l.length) :
    ∃ a, l.get? i = some a :=
  ⟨l.get ⟨i, h⟩, List.get?_eq_get h⟩

theorem PushTidOK_congr (s s' : EnvState) (j o : ℕ) (hj : s'.jobs = s.jobs)
    (hwk : s'.workers = s.workers) (acc : List ℕ) (h : PushTidOK s j o acc) :
    PushTidOK s' j o acc := by
  intro tid htid
  obtain ⟨op, task, w, hgop, htask, hwid, hwlt, hacc, hproc⟩ := h tid htid
  exact ⟨op, task, w, by rw [getOp_congr_jobs s s' hj]; exact hgop, htask, hwid,
    by rw [hwk]; exact hwlt, hacc, hproc⟩

theorem PushTidOK_append (s : EnvState) (j o : ℕ) (a b : List ℕ)
    (h1 : PushTidOK s j o a) (h2 : PushTidOK s j o b) : PushTidOK s j o (a ++ b) := by
  intro tid htid
  rcases List.mem_append.mp htid with htid | htid
  · exact h1 tid htid
  · exact h2 tid htid

theorem PushTidOK_nil (s : EnvState) (j o : ℕ) : PushTidOK s j o [] := by
  intro tid htid
  simp at htid

/-- Under the assigned-task bookkeeping, `_push_task_completion_event` is a
plain timeline push (no failure path is taken). -/
theorem pushTaskCompletionEvent_eq (s : EnvState) (j o tid : ℕ)
    (hp : PushTidOK s j o [tid]) :
    ∃ t, pushTaskCompletionEvent s j o tid = pushEvent s t (.taskCompletion j o tid) := by
  obtain ⟨op, task, w, hgop, htask, hwid, hwlt, hacc, hproc⟩ := hp tid (by simp)
  obtain ⟨wk, hwk⟩ := get?_some_of_lt s.workers w hwlt
  obtain ⟨tAcc, htA⟩ := Option.isSome_iff_exists.mp hacc
  refine ⟨tAcc + op.taskDuration wk.type_, ?_⟩
  rw [pushTaskCompletionEvent, hgop]
  dsimp only
  rw [htask]
  dsimp only
  rw [hwid]
  dsimp only
  rw [hwk, htA]

theorem pushTCE_fields (s : EnvState) (j o tid : ℕ) (hp : PushTidOK s j o [tid]) :
    (pushTaskCompletionEvent s j o tid).jobs = s.jobs ∧
    (pushTaskCompletionEvent s j o tid).workers = s.workers ∧
    (pushTaskCompletionEvent s j o tid).frontierOps = s.frontierOps ∧
    (pushTaskCompletionEvent s j o tid).saturatedOps = s.saturatedOps ∧
    (pushTaskCompletionEvent s j o tid).activeJobIds = s.activeJobIds ∧
    (pushTaskCompletionEvent s j o tid).availWorkerIds = s.availWorkerIds ∧
    (pushTaskCompletionEvent s j o tid).assertFail = s.assertFail ∧
    (pushTaskCompletionEvent s j o tid).wallTime = s.wallTime := by
  obtain ⟨t, ht⟩ := pushTaskCompletionEvent_eq s j o tid hp
  rw [ht]
  exact ⟨rfl, rfl, rfl, rfl, rfl, rfl, rfl, rfl⟩

theorem workers_moveToSaturatedIfSat (s : EnvState) (j o : ℕ) :
    (moveToSaturatedIfSat s j o).workers = s.workers := by
  unfold moveToSaturatedIfSat
  cases getOp s j o
  · rfl
  · dsimp only
    split <;> rfl

/-- `_schedule_worker` on a non-saturated frontier operation restores the full
invariant (the saturation check at its end). -/
theorem inv_scheduleWorkerOne (s : EnvState) (wIdx j o : ℕ) (h : InvMid s j o)
    (jb : Job) (op : Op) (hjb : lookupJob s j = some jb)
    (hop : jb.ops.get? o = some op) (hsat : op.saturated = false)
    (hw : wIdx < s.workers.length) :
    Inv (scheduleWorkerOne s wIdx j o) ∧
    (scheduleWorkerOne s wIdx j o).workers.length = s.workers.length ∧
    (scheduleWorkerOne s wIdx j o).wallTime = s.wallTime ∧
    (scheduleWorkerOne s wIdx j o).availWorkerIds = s.availWorkerIds ∧
    ∃ op', getOp (scheduleWorkerOne s wIdx j o) j o = some op' ∧
      op'.isComplete = op.isComplete := by
  obtain ⟨tid, rest, hrem, htid, hmid1, hwl1, ht1, hav1, hf1, hg1, hpres1, hnew1⟩ :=
    invMid_assignWorker s wIdx j o h jb op hjb hop hsat hw
  rw [scheduleWorkerOne]
  revert htid hmid1 hwl1 ht1 hav1 hf1 hg1 hnew1
  generalize heq : assignWorker s wIdx j o = p
  obtain ⟨s1, tid?⟩ := p
  intro htid hmid1 hwl1 ht1 hav1 hf1 hg1 hnew1
  dsimp only at htid hmid1 hwl1 ht1 hav1 hf1 hg1 hnew1 ⊢
  subst htid
  dsimp only
  obtain ⟨fj, fw, ff, fsat, fa, fav, ffl, ft⟩ := pushTCE_fields s1 j o tid hnew1
  have hmid2 : InvMid (pushTaskCompletionEvent s1 j o tid) j o :=
    InvMid_congr s1 _ j o fj fw ff fsat fa fav ffl hmid1
  refine ⟨inv_moveToSaturatedIfSat _ j o hmid2, ?_, ?_, ?_, ?_⟩
  · rw [workers_moveToSaturatedIfSat, fw, hwl1]
  · rw [wallTime_moveToSaturatedIfSat, ft, ht1]
  · have : ∀ s', (moveToSaturatedIfSat s' j o).availWorkerIds = s'.availWorkerIds := by
      intro s'
      unfold moveToSaturatedIfSat
      cases getOp s' j o
      · rfl
      · dsimp only
        split <;> rfl
    rw [this, fav, hav1]
  · refine ⟨startTask wIdx s.wallTime tid rest op, ?_, rfl⟩
    rw [getOp_congr_jobs (pushTaskCompletionEvent s1 j o tid)
      (moveToSaturatedIfSat (pushTaskCompletionEvent s1 j o tid) j o)
      (jobs_moveToSaturatedIfSat (pushTaskCompletionEvent s1 j o tid) j o) j o,
      getOp_congr_jobs s1 (pushTaskCompletionEvent s1 j o tid) fj j o]
    exact hg1

theorem moveToSaturatedIfSat_avail (s : EnvState) (j o : ℕ) :
    (moveToSaturatedIfSat s j o).availWorkerIds = s.availWorkerIds := by
  unfold moveToSaturatedIfSat
  cases getOp s j o
  · rfl
  · dsimp only
    split <;> rfl

/-- The `_schedule_workers` loop over the job's local workers preserves the
mid-action invariant, the assigned-task bookkeeping, and the worker count. -/
theorem invMid_scheduleWorkersAux (j o : ℕ) :
    ∀ (ids : List ℕ) (s : EnvState) (acc : List ℕ),
      InvMid s j o → PushTidOK s j o acc →
      (∀ w ∈ ids, w < s.workers.length) →
      InvMid (scheduleWorkersAux j o ids s acc).1 j o ∧
      PushTidOK (scheduleWorkersAux j o ids s acc).1 j o
        (scheduleWorkersAux j o ids s acc).2 ∧
      (scheduleWorkersAux j o ids s acc).1.workers.length = s.workers.length := by
  intro ids
  induction ids with
  | nil =>
    intro s acc hmid hacc hb
    exact ⟨hmid, hacc, rfl⟩
  | cons wIdx ws ih =>
    intro s acc hmid hacc hb
    obtain ⟨jb, op, hjb, hop, hdeps, hncomp⟩ := midOpOK_unpack s j o hmid.2.2.2.2.2.2.2.2.2.2.2.2.2
    have hgop : getOp s j o = some op := by
      rw [getOp, hjb, Option.some_bind]
      exact hop
    rw [scheduleWorkersAux, hgop]
    dsimp only
    split
    · exact ⟨hmid, hacc, rfl⟩
    · next hnsat =>
      have hsat : op.saturated = false := by
        cases hcs : op.saturated with
        | false => rfl
        | true => exact absurd hcs hnsat
      obtain ⟨wk, hwk⟩ := get?_some_of_lt s.workers wIdx (hb wIdx (by simp))
      rw [hwk]
      dsimp only
      split
      · obtain ⟨tid, rest, hrem, htid, hmid1, hwl1, ht1, hav1, hf1, hg1, hpres1, hnew1⟩ :=
          invMid_assignWorker s wIdx j o hmid jb op hjb hop hsat
            (hb wIdx (by simp))
        revert htid hmid1 hwl1 hpres1 hnew1
        generalize heq : assignWorker s wIdx j o = p
        obtain ⟨s1, tid?⟩ := p
        intro htid hmid1 hwl1 hpres1 hnew1
        dsimp only at htid hmid1 hwl1 hpres1 hnew1 ⊢
        subst htid
        dsimp only
        have hrec := ih s1 (acc ++ [tid]) hmid1
          (PushTidOK_append s1 j o acc [tid] (hpres1 acc hacc) hnew1)
          (fun w hw' => by rw [hwl1]; exact hb w (by simp [hw']))
        refine ⟨hrec.1, hrec.2.1, ?_⟩
        rw [hrec.2.2, hwl1]
      · exact ih s acc hmid hacc (fun w hw' => hb w (by simp [hw']))

/-- `_schedule_workers` restores the full invariant and returns
well-bookkept task ids. -/
theorem inv_scheduleWorkers (s : EnvState) (j o : ℕ) (h : Inv s)
    (hm : (j, o) ∈ s.frontierOps) :
    Inv (scheduleWorkers s j o).1 ∧
    PushTidOK (scheduleWorkers s j o).1 j o (scheduleWorkers s j o).2 ∧
    (scheduleWorkers s j o).1.workers.length = s.workers.length := by
  have hmid := invMid_of_inv s j o h hm
  obtain ⟨jb, op, hjb, hop, hdeps, hncomp⟩ :=
    midOpOK_unpack s j o hmid.2.2.2.2.2.2.2.2.2.2.2.2.2
  have hbound : ∀ w ∈ jb.localWorkers, w < s.workers.length := by
    have hwf := h.2.2.1 jb (lookupJob_mem s j jb hjb)
    exact hwf.2.2.2.2.2.2
  have aux := invMid_scheduleWorkersAux j o jb.localWorkers s [] hmid
    (PushTidOK_nil s j o) hbound
  rw [scheduleWorkers, hjb]
  dsimp only
  revert aux
  generalize heq : scheduleWorkersAux j o jb.localWorkers s [] = p
  obtain ⟨s1, tasks⟩ := p
  intro aux
  dsimp only at aux ⊢
  obtain ⟨amid, aok, awl⟩ := aux
  refine ⟨inv_moveToSaturatedIfSat s1 j o amid, ?_, ?_⟩
  · exact PushTidOK_congr s1 _ j o (jobs_moveToSaturatedIfSat s1 j o)
      (workers_moveToSaturatedIfSat s1 j o) tasks aok
  · rw [workers_moveToSaturatedIfSat, awl]

/-- Invariant transport when the job table is unchanged and the worker-side
conditions are supplied by the caller. -/
theorem inv_fields (s s' : EnvState) (h : Inv s) (hj : s'.jobs = s.jobs)
    (hNwl : s'.workers.length = s.workers.length)
    (hwOK : ∀ w ∈ List.range s.workers.length, workerOK s' w = true)
    (hNf : s'.frontierOps = s.frontierOps)
    (hNs : s'.saturatedOps = s.saturatedOps)
    (hNa : s'.activeJobIds = s.activeJobIds)
    (hNavnd : s'.availWorkerIds.Nodup)
    (hNavb : ∀ w ∈ s'.availWorkerIds, w < s.workers.length)
    (hNfl : s'.assertFail = false) : Inv s' := by
  obtain ⟨h1, h2, h3, h4, h5, h6, h7, h8, h9, h10, h11, h12⟩ := h
  refine ⟨hNfl, ?_, ?_, ?_, ?_, ?_, ?_, ?_, ?_, ?_, ?_, ?_⟩
  · rw [InvIds, hj]; exact h2
  · intro x hx
    rw [hj] at hx
    obtain ⟨wpos, wops, wedges, wand, wab, wln, wlb⟩ := h3 x hx
    exact ⟨wpos, wops, wedges, wand, wab, wln,
      fun w hw => by rw [hNwl]; exact wlb w hw⟩
  · intro p hp
    rw [hNf] at hp
    rw [frontierMemOK_congr s s' hj]
    exact h4 p hp
  · intro x hx o' ho' he
    rw [hj] at hx
    rw [hNf]
    exact h5 x hx o' ho' he
  · intro p hp
    rw [hNs] at hp
    rw [satMemOK_congr s s' hj]
    exact h6 p hp
  · intro x hx o' ho' he
    rw [hj] at hx
    rw [hNs]
    exact h7 x hx o' ho' he
  · intro x hx o' ho'
    rw [hj] at hx
    exact h8 x hx o' ho'
  · intro x hx o' ho'
    rw [hj] at hx
    exact h9 x hx o' ho'
  · obtain ⟨g1, g2, g3⟩ := h10
    refine ⟨?_, ?_, ?_⟩
    · intro jid hjid
      rw [hNa] at hjid
      rw [activeJobOK_congr s s' hj]
      exact g1 jid hjid
    · intro x hx hc
      rw [hj] at hx
      rw [hNa]
      exact g2 x hx hc
    · rw [hNa]; exact g3
  · intro w hw
    rw [hNwl] at hw
    exact hwOK w hw
  · exact ⟨hNavnd, fun w hw => by rw [hNwl]; exact hNavb w hw⟩

theorem frontierMemOK_surgery_fields (s s' : EnvState) (j : ℕ) (jb jbP : Job)
    (sur : JobsSurgery s s' j jb jbP) (hops : jbP.ops = jb.ops)
    (hd : jbP.dagEdges = jb.dagEdges) (p : ℕ × ℕ) :
    frontierMemOK s' p = frontierMemOK s p := by
  obtain ⟨sjb, sjbP, sne, smem, sids⟩ := sur
  by_cases hp1 : p.1 = j
  · rw [frontierMemOK, frontierMemOK, hp1, sjb, sjbP]
    exact eligibleAt_congr jb jbP hops hd p.2
  · rw [frontierMemOK, frontierMemOK, sne p.1 hp1]

theorem satMemOK_surgery_fields (s s' : EnvState) (j : ℕ) (jb jbP : Job)
    (sur : JobsSurgery s s' j jb jbP) (hops : jbP.ops = jb.ops) (p : ℕ × ℕ) :
    satMemOK s' p = satMemOK s p := by
  obtain ⟨sjb, sjbP, sne, smem, sids⟩ := sur
  by_cases hp1 : p.1 = j
  · rw [satMemOK, satMemOK, hp1, sjb, sjbP]
    exact satAt_congr jb jbP hops p.2
  · rw [satMemOK, satMemOK, sne p.1 hp1]

/-- Invariant transport for a surgery on one job that leaves its operations,
DAG and active set unchanged (only its local-worker list or scalar fields
moved); worker-side conditions are supplied by the caller. -/
theorem inv_surgery_fields (s s' : EnvState) (j : ℕ) (jb jbP : Job)
    (h : Inv s) (sur : JobsSurgery s s' j jb jbP)
    (hops : jbP.ops = jb.ops) (hd : jbP.dagEdges = jb.dagEdges)
    (hac : jbP.activeOps = jb.activeOps)
    (hlocnd : jbP.localWorkers.Nodup)
    (hlocb : ∀ w ∈ jbP.localWorkers, w < s.workers.length)
    (hNwl : s'.workers.length = s.workers.length)
    (hwOK : ∀ w ∈ List.range s.workers.length, workerOK s' w = true)
    (hNf : s'.frontierOps = s.frontierOps)
    (hNs : s'.saturatedOps = s.saturatedOps)
    (hNa : s'.activeJobIds = s.activeJobIds)
    (hNavnd : s'.availWorkerIds.Nodup)
    (hNavb : ∀ w ∈ s'.availWorkerIds, w < s.workers.length)
    (hNfl : s'.assertFail = false) : Inv s' := by
  have sur' := sur
  obtain ⟨sjb, sjbP, sne, smem, sids⟩ := sur
  obtain ⟨h1, h2, h3, h4, h5, h6, h7, h8, h9, h10, h11, h12⟩ := h
  have hjb_id : jb.id = j := lookupJob_id s j jb sjb
  have hjbP_id : jbP.id = j := lookupJob_id s' j jbP sjbP
  have hjbmem : jb ∈ s.jobs := lookupJob_mem s j jb sjb
  have hcomp : jbP.isComplete = jb.isComplete := by
    rw [Job.isComplete, Job.isComplete, hac]
  have hrng : ∀ o'', o'' ∈ List.range jbP.ops.length →
      o'' ∈ List.range jb.ops.length := by
    intro o'' h''
    rw [hops] at h''
    exact h''
  refine ⟨hNfl, ?_, ?_, ?_, ?_, ?_, ?_, ?_, ?_, ?_, ?_, ?_⟩
  · rw [InvIds, sids]; exact h2
  · intro x hx
    rcases smem x hx with hxP | ⟨hxold, hxne⟩
    · rw [hxP]
      obtain ⟨wpos, wops, wedges, wand, wab, wln, wlb⟩ := h3 jb hjbmem
      refine ⟨by rw [hops]; exact wpos, by rw [hops]; exact wops,
        by rw [hd, hops]; exact wedges, by rw [hac]; exact wand,
        by rw [hac, hops]; exact wab, hlocnd,
        fun w hw => by rw [hNwl]; exact hlocb w hw⟩
    · obtain ⟨wpos, wops, wedges, wand, wab, wln, wlb⟩ := h3 x hxold
      exact ⟨wpos, wops, wedges, wand, wab, wln,
        fun w hw => by rw [hNwl]; exact wlb w hw⟩
  · intro p hp
    rw [hNf] at hp
    rw [frontierMemOK_surgery_fields s s' j jb jbP sur' hops hd p]
    exact h4 p hp
  · intro x hx o' ho' he
    rw [hNf]
    rcases smem x hx with hxP | ⟨hxold, hxne⟩
    · rw [hxP] at he ho' ⊢
      rw [hjbP_id]
      rw [eligibleAt_congr jb jbP hops hd o'] at he
      have := h5 jb hjbmem o' (hrng o' ho') he
      rw [hjb_id] at this
      exact this
    · exact h5 x hxold o' ho' he
  · intro p hp
    rw [hNs] at hp
    rw [satMemOK_surgery_fields s s' j jb jbP sur' hops p]
    exact h6 p hp
  · intro x hx o' ho' he
    rw [hNs]
    rcases smem x hx with hxP | ⟨hxold, hxne⟩
    · rw [hxP] at he ho' ⊢
      rw [hjbP_id]
      rw [satAt_congr jb jbP hops o'] at he
      have := h7 jb hjbmem o' (hrng o' ho') he
      rw [hjb_id] at this
      exact this
    · exact h7 x hxold o' ho' he
  · intro x hx o' ho'
    rcases smem x hx with hxP | ⟨hxold, hxne⟩
    · rw [hxP] at ho' ⊢
      rw [untouchedOK_congr jb jbP hops hd o']
      exact h8 jb hjbmem o' (hrng o' ho')
    · exact h8 x hxold o' ho'
  · intro x hx o' ho'
    rcases smem x hx with hxP | ⟨hxold, hxne⟩
    · rw [hxP] at ho' ⊢
      rw [hac, activeAt_congr jb jbP hops o']
      exact h9 jb hjbmem o' (hrng o' ho')
    · exact h9 x hxold o' ho'
  · obtain ⟨g1, g2, g3⟩ := h10
    refine ⟨?_, ?_, ?_⟩
    · intro jid hjid
      rw [hNa] at hjid
      rw [activeJobOK_surgery s s' j jb jbP sur' hcomp jid]
      exact g1 jid hjid
    · intro x hx hc
      rw [hNa]
      rcases smem x hx with hxP | ⟨hxold, hxne⟩
      · rw [hxP] at hc ⊢
        rw [hjbP_id]
        rw [hcomp] at hc
        have := g2 jb hjbmem hc
        rw [hjb_id] at this
        exact this
      · exact g2 x hxold hc
    · rw [hNa]; exact g3
  · intro w hw
    rw [hNwl] at hw
    exact hwOK w hw
  · exact ⟨hNavnd, fun w hw => by rw [hNwl]; exact hNavb w hw⟩

theorem removeAvail_avail_of_mem (s : EnvState) (w : ℕ)
    (h : w ∈ s.availWorkerIds) :
    (removeAvail s w).availWorkerIds = s.availWorkerIds.erase w := by
  rw [removeAvail, if_pos h]

theorem removeAvail_flag_of_mem (s : EnvState) (w : ℕ)
    (h : w ∈ s.availWorkerIds) :
    (removeAvail s w).assertFail = s.assertFail := by
  rw [removeAvail, if_pos h]

theorem updateWorker_get?_self (s : EnvState) (w : ℕ) (f : Worker → Worker)
    (wk : Worker) (h : s.workers.get? w = some wk) :
    (updateWorker s w f).workers.get? w = some (f wk) := by
  rw [updateWorker, h]
  dsimp only
  rw [List.get?_eq_getElem?, List.getElem?_set_self (get?_lt _ _ _ h)]

theorem workerOK_jobs_congr (s s' : EnvState) (hj : s'.jobs = s.jobs) (w : ℕ)
    (hsame : s'.workers.get? w = s.workers.get? w) :
    workerOK s' w = workerOK s w := by
  rw [workerOK, workerOK, hsame]
  cases hgw : s.workers.get? w with
  | none => rfl
  | some wk2 =>
    dsimp only
    cases wk2.jobId with
    | none => rfl
    | some jid =>
      dsimp only
      rw [show lookupJob s' jid = lookupJob s jid from by rw [lookupJob, lookupJob, hj]]

theorem workerOK_moving (s' : EnvState) (w : ℕ) (wk' : Worker)
    (hg : s'.workers.get? w = some wk') (hmv : wk'.isMoving = true) :
    workerOK s' w = true := by
  rw [workerOK, hg]
  dsimp only
  rw [hmv]
  simp

theorem workerOK_local_erase (s s4 : EnvState) (oldJ wIdx : ℕ) (oldJb jbE : Job)
    (sur : JobsSurgery s s4 oldJ oldJb jbE)
    (hlocE : jbE.localWorkers = oldJb.localWorkers.erase wIdx)
    (w : ℕ) (hne : w ≠ wIdx)
    (hsame : s4.workers.get? w = s.workers.get? w)
    (hold : workerOK s w = true) : workerOK s4 w = true := by
  obtain ⟨sjb, sjbP, sne, smem, sids⟩ := sur
  rw [workerOK, hsame]
  rw [workerOK] at hold
  cases hgw : s.workers.get? w with
  | none => rfl
  | some wk2 =>
    rw [hgw] at hold
    dsimp only at hold ⊢
    cases hmv2 : wk2.isMoving with
    | true => simp
    | false =>
      rw [hmv2] at hold
      simp only [Bool.false_or] at hold ⊢
      cases hj2 : wk2.jobId with
      | none => rfl
      | some j2 =>
        rw [hj2] at hold
        dsimp only at hold ⊢
        by_cases hj2e : j2 = oldJ
        · rw [hj2e] at hold ⊢
          rw [sjb] at hold
          rw [sjbP]
          dsimp only at hold ⊢
          rw [hlocE]
          simp only [decide_eq_true_eq] at hold ⊢
          exact (List.mem_erase_of_ne hne).mpr hold
        · rw [sne j2 hj2e]
          exact hold

/-- `_send_worker` on an available worker from the available set preserves the
invariant, shrinking the available set by that worker. -/
theorem inv_sendWorker (s : EnvState) (wIdx j o : ℕ) (h : Inv s)
    (wk : Worker) (hwk : s.workers.get? wIdx = some wk)
    (hmov : wk.isMoving = false) (hwa : wIdx ∈ s.availWorkerIds) :
    Inv (sendWorker s wIdx j o) ∧
    (sendWorker s wIdx j o).workers.length = s.workers.length ∧
    (sendWorker s wIdx j o).availWorkerIds = s.availWorkerIds.erase wIdx ∧
    (sendWorker s wIdx j o).frontierOps = s.frontierOps := by
  have hwlt : wIdx < s.workers.length := get?_lt _ _ _ hwk
  have hflag : s.assertFail = false := h.1
  have havnd : s.availWorkerIds.Nodup := h.2.2.2.2.2.2.2.2.2.2.2.1
  have havb : ∀ w ∈ s.availWorkerIds, w < s.workers.length :=
    h.2.2.2.2.2.2.2.2.2.2.2.2
  cases hjid : wk.jobId with
  | none =>
    have heq : sendWorker s wIdx j o =
        pushWorkerArrivalEvent (removeAvail
          (updateWorker s wIdx fun w' => { w' with isMoving := true }) wIdx)
          wIdx j o := by
      unfold sendWorker
      rw [hwk]
      dsimp only
      rw [hjid]
    have havM : wIdx ∈ (updateWorker s wIdx fun w' =>
        { w' with isMoving := true }).availWorkerIds := by
      rw [updateWorker_avail]
      exact hwa
    have hjobs : (sendWorker s wIdx j o).jobs = s.jobs := by
      rw [heq]
      show (removeAvail _ _).jobs = s.jobs
      rw [removeAvail_jobs, updateWorker_jobs]
    have hwksame : ∀ w', w' ≠ wIdx → (sendWorker s wIdx j o).workers.get? w' =
        s.workers.get? w' := by
      intro w' hne
      rw [heq]
      show (removeAvail _ _).workers.get? w' = _
      rw [removeAvail_workers]
      exact updateWorker_get?_ne s wIdx _ w' hne
    have hwkself : (sendWorker s wIdx j o).workers.get? wIdx =
        some { wk with isMoving := true } := by
      rw [heq]
      show (removeAvail _ _).workers.get? wIdx = _
      rw [removeAvail_workers]
      exact updateWorker_get?_self s wIdx _ wk hwk
    have hlen : (sendWorker s wIdx j o).workers.length = s.workers.length := by
      rw [heq]
      show (removeAvail _ _).workers.length = _
      rw [removeAvail_workers, updateWorker_workers_length]
    have hav : (sendWorker s wIdx j o).availWorkerIds =
        s.availWorkerIds.erase wIdx := by
      rw [heq]
      show (removeAvail _ _).availWorkerIds = _
      rw [removeAvail_avail_of_mem _ _ havM, updateWorker_avail]
    have hfr : (sendWorker s wIdx j o).frontierOps = s.frontierOps := by
      rw [heq]
      show (removeAvail _ _).frontierOps = _
      rw [removeAvail_frontier, updateWorker_frontier]
    refine ⟨inv_fields s _ h hjobs hlen ?_ hfr ?_ ?_ ?_ ?_ ?_, hlen, hav, hfr⟩
    · intro w hw
      by_cases hne : w = wIdx
      · subst hne
        exact workerOK_moving _ w _ hwkself rfl
      · rw [workerOK_jobs_congr s _ hjobs w (hwksame w hne)]
        exact h.2.2.2.2.2.2.2.2.2.2.1 w hw
    · rw [heq]
      show (removeAvail _ _).saturatedOps = _
      rw [removeAvail_saturated, updateWorker_saturated]
    · rw [heq]
      show (removeAvail _ _).activeJobIds = _
      rw [removeAvail_activeJobIds, updateWorker_activeJobIds]
    · rw [hav]
      exact havnd.erase wIdx
    · intro w hw
      rw [hav] at hw
      exact havb w (List.mem_of_mem_erase hw)
    · rw [heq]
      show (removeAvail _ _).assertFail = _
      rw [removeAvail_flag_of_mem _ _ havM, updateWorker_flag]
      exact hflag
  | some oldJ =>
    have hOK := h.2.2.2.2.2.2.2.2.2.2.1 wIdx (List.mem_range.mpr hwlt)
    rw [workerOK, hwk] at hOK
    dsimp only at hOK
    rw [hmov, hjid] at hOK
    simp only [Bool.false_or] at hOK
    cases hlo : lookupJob s oldJ with
    | none => rw [hlo] at hOK; simp at hOK
    | some oldJb =>
      rw [hlo] at hOK
      dsimp only at hOK
      have hmem : wIdx ∈ oldJb.localWorkers := of_decide_eq_true hOK
      have sur := jobsSurgery_updateJob s oldJ
        (fun jb => { jb with localWorkers := jb.localWorkers.erase wIdx }) oldJb
        h.2.1 hlo (fun _ => rfl)
      have heq : sendWorker s wIdx j o =
          pushWorkerArrivalEvent (removeAvail
            (updateWorker (updateWorker (updateJob s oldJ fun jb =>
              { jb with localWorkers := jb.localWorkers.erase wIdx }) wIdx
                fun w' => { w' with jobId := none }) wIdx
              fun w' => { w' with isMoving := true }) wIdx) wIdx j o := by
        unfold sendWorker
        rw [hwk]
        dsimp only
        rw [hjid]
        dsimp only
        rw [hlo]
        dsimp only
        rw [if_pos hmem]
      have hjobs : (sendWorker s wIdx j o).jobs =
          (updateJob s oldJ fun jb =>
            { jb with localWorkers := jb.localWorkers.erase wIdx }).jobs := by
        rw [heq]
        show (removeAvail _ _).jobs = _
        rw [removeAvail_jobs, updateWorker_jobs, updateWorker_jobs]
      have sur4 := jobsSurgery_congr s _ (sendWorker s wIdx j o) oldJ oldJb _
        hjobs sur
      have hwk1 : (updateWorker (updateJob s oldJ fun jb =>
          { jb with localWorkers := jb.localWorkers.erase wIdx }) wIdx
            fun w' => { w' with jobId := none }).workers.get? wIdx =
          some { wk with jobId := none } := by
        refine updateWorker_get?_self _ wIdx _ wk ?_
        rw [updateJob_workers]
        exact hwk
      have havM : wIdx ∈ (updateWorker (updateWorker (updateJob s oldJ fun jb =>
          { jb with localWorkers := jb.localWorkers.erase wIdx }) wIdx
            fun w' => { w' with jobId := none }) wIdx
          fun w' => { w' with isMoving := true }).availWorkerIds := by
        rw [updateWorker_avail, updateWorker_avail, updateJob_avail]
        exact hwa
      have hwksame : ∀ w', w' ≠ wIdx → (sendWorker s wIdx j o).workers.get? w' =
          s.workers.get? w' := by
        intro w' hne
        rw [heq]
        show (removeAvail _ _).workers.get? w' = _
        rw [removeAvail_workers]
        rw [updateWorker_get?_ne _ wIdx _ w' hne, updateWorker_get?_ne _ wIdx _ w' hne,
          updateJob_workers]
      have hwkself : (sendWorker s wIdx j o).workers.get? wIdx =
          some { { wk with jobId := none } with isMoving := true } := by
        rw [heq]
        show (removeAvail _ _).workers.get? wIdx = _
        rw [removeAvail_workers]
        exact updateWorker_get?_self _ wIdx _ _ hwk1
      have hlen : (sendWorker s wIdx j o).workers.length = s.workers.length := by
        rw [heq]
        show (removeAvail _ _).workers.length = _
        rw [removeAvail_workers, updateWorker_workers_length,
          updateWorker_workers_length, updateJob_workers]
      have hav : (sendWorker s wIdx j o).availWorkerIds =
          s.availWorkerIds.erase wIdx := by
        rw [heq]
        show (removeAvail _ _).availWorkerIds = _
        rw [removeAvail_avail_of_mem _ _ havM, updateWorker_avail,
          updateWorker_avail, updateJob_avail]
      have hfr : (sendWorker s wIdx j o).frontierOps = s.frontierOps := by
        rw [heq]
        show (removeAvail _ _).frontierOps = _
        rw [removeAvail_frontier, updateWorker_frontier, updateWorker_frontier,
          updateJob_frontier]
      have hwfold := h.2.2.1 oldJb (lookupJob_mem s oldJ oldJb hlo)
      refine ⟨inv_surgery_fields s _ oldJ oldJb _ h sur4 rfl rfl rfl
        (hwfold.2.2.2.2.2.1.erase wIdx)
        (fun w hw => hwfold.2.2.2.2.2.2 w (List.mem_of_mem_erase hw))
        hlen ?_ hfr ?_ ?_ ?_ ?_ ?_, hlen, hav, hfr⟩
      · intro w hw
        by_cases hne : w = wIdx
        · subst hne
          exact workerOK_moving _ w _ hwkself rfl
        · exact workerOK_local_erase s _ oldJ wIdx oldJb _ sur4 rfl w hne
            (hwksame w hne) (h.2.2.2.2.2.2.2.2.2.2.1 w hw)
      · rw [heq]
        show (removeAvail _ _).saturatedOps = _
        rw [removeAvail_saturated, updateWorker_saturated, updateWorker_saturated,
          updateJob_saturated]
      · rw [heq]
        show (removeAvail _ _).activeJobIds = _
        rw [removeAvail_activeJobIds, updateWorker_activeJobIds,
          updateWorker_activeJobIds, updateJob_activeJobIds]
      · rw [hav]
        exact havnd.erase wIdx
      · intro w hw
        rw [hav] at hw
        exact havb w (List.mem_of_mem_erase hw)
      · rw [heq]
        show (removeAvail _ _).assertFail = _
        rw [removeAvail_flag_of_mem _ _ havM, updateWorker_flag, updateWorker_flag,
          updateJob_flag]
        exact hflag

theorem inv_pushTaskCompletionEvents (j o : ℕ) :
    ∀ (tids : List ℕ) (s : EnvState), Inv s → PushTidOK s j o tids →
      Inv (pushTaskCompletionEvents s j o tids) := by
  intro tids
  induction tids with
  | nil =>
    intro s h _
    exact h
  | cons t ts ih =>
    intro s h hok
    have hsingle : PushTidOK s j o [t] := by
      intro tid htid
      simp only [List.mem_singleton] at htid
      exact hok tid (by simp [htid])
    obtain ⟨fj, fw, ff, fsat, fa, fav, ffl, ft⟩ := pushTCE_fields s j o t hsingle
    have h' : Inv (pushTaskCompletionEvent s j o t) :=
      Inv_congr s _ fj fw ff fsat fa fav ffl h
    have hok' : PushTidOK (pushTaskCompletionEvent s j o t) j o ts :=
      PushTidOK_congr s _ j o fj fw ts (fun tid htid => hok tid (by simp [htid]))
    exact ih (pushTaskCompletionEvent s j o t) h' hok'

/-- The `_send_more_workers` loop over a duplicate-free snapshot of the
available set preserves the invariant and the frontier set. -/
theorem inv_sendMoreWorkersAux (op : Op) (j o : ℕ) :
    ∀ (ids : List ℕ) (n : ℕ) (s : EnvState),
      Inv s → ids.Nodup → (∀ w ∈ ids, w ∈ s.availWorkerIds) →
      Inv (sendMoreWorkersAux op j o ids n s).1 ∧
      (sendMoreWorkersAux op j o ids n s).1.frontierOps = s.frontierOps ∧
      (sendMoreWorkersAux op j o ids n s).1.workers.length = s.workers.length := by
  intro ids
  induction ids with
  | nil =>
    intro n s h hnd hsub
    cases n <;> exact ⟨h, rfl, rfl⟩
  | cons wIdx ws ih =>
    intro n s h hnd hsub
    cases n with
    | zero => exact ⟨h, rfl, rfl⟩
    | succ n =>
      simp only [sendMoreWorkersAux]
      have hwlt : wIdx < s.workers.length :=
        h.2.2.2.2.2.2.2.2.2.2.2.2 wIdx (hsub wIdx (by simp))
      obtain ⟨wk, hwk⟩ := get?_some_of_lt s.workers wIdx hwlt
      rw [hwk]
      dsimp only
      split
      · next hcan =>
        have hmov : wk.isMoving = false := by
          rw [Worker.canAssign, Worker.available] at hcan
          simp only [Bool.and_eq_true, Bool.not_eq_true'] at hcan
          exact hcan.1.2
        obtain ⟨hin1, hlen1, hav1, hfr1⟩ :=
          inv_sendWorker s wIdx j o h wk hwk hmov (hsub wIdx (by simp))
        have hnd' := (List.nodup_cons.mp hnd).2
        have hhead := (List.nodup_cons.mp hnd).1
        have hsub' : ∀ w ∈ ws, w ∈ (sendWorker s wIdx j o).availWorkerIds := by
          intro w hw
          rw [hav1]
          have hwne : w ≠ wIdx := by
            intro he
            rw [he] at hw
            exact hhead hw
          exact (List.mem_erase_of_ne hwne).mpr (hsub w (by simp [hw]))
        have hrec := ih n (sendWorker s wIdx j o) hin1 hnd' hsub'
        revert hrec
        generalize heq : sendMoreWorkersAux op j o ws n (sendWorker s wIdx j o) = p
        obtain ⟨s2, cnt⟩ := p
        intro hrec
        dsimp only at hrec ⊢
        exact ⟨hrec.1, by rw [hrec.2.1, hfr1], by rw [hrec.2.2, hlen1]⟩
      · exact ih (n + 1) s h ((List.nodup_cons.mp hnd).2)
          (fun w hw => hsub w (by simp [hw]))

theorem inv_sendMoreWorkers (s : EnvState) (j o prlvl : ℕ) (h : Inv s)
    (hm : (j, o) ∈ s.frontierOps) :
    Inv (sendMoreWorkers s j o prlvl).1 ∧
    (sendMoreWorkers s j o prlvl).1.frontierOps = s.frontierOps ∧
    (sendMoreWorkers s j o prlvl).1.workers.length = s.workers.length := by
  have hfm := h.2.2.2.1 (j, o) hm
  obtain ⟨jb, op, hjb, hop, _, _⟩ := frontierMemOK_unpack s (j, o) hfm
  dsimp only at hjb hop
  have hgop : getOp s j o = some op := by
    rw [getOp, hjb, Option.some_bind]
    exact hop
  rw [sendMoreWorkers, hgop]
  dsimp only
  exact inv_sendMoreWorkersAux op j o s.availWorkerIds prlvl s h
    h.2.2.2.2.2.2.2.2.2.2.2.1 (fun w hw => hw)

/-- `_take_action` on a frontier operation preserves the engine invariant. -/
theorem inv_takeAction (s : EnvState) (j o prlvl : ℕ) (h : Inv s)
    (hm : (j, o) ∈ s.frontierOps) : Inv (takeAction s j o prlvl).1 := by
  obtain ⟨h1, hfr1, hwl1⟩ := inv_sendMoreWorkers s j o prlvl h hm
  rw [takeAction]
  revert h1 hfr1
  generalize heq : sendMoreWorkers s j o prlvl = p
  obtain ⟨s1, nSent⟩ := p
  intro h1 hfr1
  dsimp only at h1 hfr1 ⊢
  have hm1 : (j, o) ∈ s1.frontierOps := by rw [hfr1]; exact hm
  obtain ⟨h2, hok2, hwl2⟩ := inv_scheduleWorkers s1 j o h1 hm1
  revert h2 hok2
  generalize heq2 : scheduleWorkers s1 j o = q
  obtain ⟨s2, tasks⟩ := q
  intro h2 hok2
  dsimp only at h2 hok2 ⊢
  split
  · exact h2
  · exact inv_pushTaskCompletionEvents j o tasks s2 h2 hok2

theorem find?_append_cases {α : Type _} (l₁ l₂ : List α) (p : α → Bool) :
    (l₁ ++ l₂).find? p =
      match l₁.find? p with
      | some x => some x
      | none => l₂.find? p := by
  induction l₁ with
  | nil => rfl
  | cons a l ih =>
    cases hpa : p a with
    | true => simp [List.find?_cons, hpa]
    | false => simp [List.find?_cons, hpa, ih]

/-- `_process_job_arrival` of a fresh job preserves the invariant. -/
theorem inv_processJobArrival (s : EnvState) (job : Job) (h : Inv s)
    (hok : EventOK s (.jobArrival job)) : Inv (processJobArrival s job).1 := by
  obtain ⟨hnone0, hwfJ, hfresh⟩ := hok
  have hnone : lookupJob s job.id = none := Option.isNone_iff_eq_none.mp hnone0
  obtain ⟨h1, h2, h3, h4, h5, h6, h7, h8, h9, h10, h11, h12⟩ := h
  obtain ⟨jpos, jops, jedges, jand, jab, jln, jlb⟩ := hwfJ
  obtain ⟨hf1, hf2, hf3⟩ := hfresh
  have hidne : ∀ x ∈ s.jobs, x.id ≠ job.id := by
    intro x hx
    rw [lookupJob, List.find?_eq_none] at hnone
    simpa using hnone x hx
  have hany : (s.jobs.any fun jb => jb.id == job.id) = false := by
    rw [List.any_eq_false]
    intro x hx
    simpa using hidne x hx
  have heq : processJobArrival s job =
      ({ { { s with jobs := s.jobs ++ [job] } with
            activeJobIds := s.activeJobIds ++ [job.id] } with
          frontierOps := s.frontierOps ∪
            ((job.findSrcOps.map fun o => (job.id, o)).toFinset) }, true) := by
    rw [processJobArrival, if_neg (by rw [hany]; exact Bool.false_ne_true)]
  rw [heq]
  dsimp only
  -- basic lookup facts in the new state
  have hLnew : lookupJob { { { s with jobs := s.jobs ++ [job] } with
        activeJobIds := s.activeJobIds ++ [job.id] } with
      frontierOps := s.frontierOps ∪
        ((job.findSrcOps.map fun o => (job.id, o)).toFinset) } job.id = some job := by
    show (s.jobs ++ [job]).find? (fun jb => jb.id == job.id) = some job
    rw [find?_append_cases]
    rw [lookupJob] at hnone
    rw [hnone]
    simp [List.find?_cons]
  have hLold : ∀ j', j' ≠ job.id →
      lookupJob { { { s with jobs := s.jobs ++ [job] } with
          activeJobIds := s.activeJobIds ++ [job.id] } with
        frontierOps := s.frontierOps ∪
          ((job.findSrcOps.map fun o => (job.id, o)).toFinset) } j' =
        lookupJob s j' := by
    intro j' hne
    show (s.jobs ++ [job]).find? (fun jb => jb.id == j') = _
    rw [find?_append_cases, lookupJob]
    cases hf : s.jobs.find? fun jb => jb.id == j' with
    | some x => rfl
    | none =>
      dsimp only
      rw [List.find?_cons]
      have : (job.id == j') = false := by
        simp only [beq_eq_false_iff_ne]
        exact fun he => hne he.symm
      rw [this]
      rfl
  -- freshness-derived operation facts
  have hfcomp : ∀ op ∈ job.ops, op.isComplete = false := by
    intro op hop
    obtain ⟨hpe, hce⟩ := hf1 op hop
    obtain ⟨hpos, _, _, _, _, _, _, _, _, _, _, _⟩ := jops op hop
    rw [Op.isComplete, hce]
    simp only [List.length_nil, beq_eq_false_iff_ne]
    omega
  have hfsat : ∀ op ∈ job.ops, op.saturated = false := by
    intro op hop
    obtain ⟨hpe, hce⟩ := hf1 op hop
    obtain ⟨hpos, _, _, _, _, _, _, _, _, _, _, hsum⟩ := jops op hop
    rw [hpe, hce] at hsum
    simp only [List.length_nil] at hsum
    rw [Op.saturated]
    cases hrm : op.remainingTasks with
    | nil => rw [hrm] at hsum; simp at hsum; omega
    | cons a l => simp
  have hjobncomp : job.isComplete = false := by
    have h0 : 0 ∈ job.activeOps := hf2 0 (by rw [List.mem_range]; exact jpos)
    rw [Job.isComplete]
    cases hao : job.activeOps with
    | nil => rw [hao] at h0; simp at h0
    | cons a l => simp
  have hsrc_mem : ∀ o', o' ∈ job.findSrcOps ↔
      (o' < job.ops.length ∧ ∀ e ∈ job.dagEdges, e.2 ≠ o') := by
    intro o'
    rw [Job.findSrcOps]
    simp [List.mem_filter, List.mem_range, List.all_eq_true]
  have hsrcs : ∀ p : ℕ × ℕ,
      p ∈ ((job.findSrcOps.map fun o => (job.id, o)).toFinset) ↔
      (p.1 = job.id ∧ p.2 ∈ job.findSrcOps) := by
    intro p
    rw [List.mem_toFinset, List.mem_map]
    constructor
    · rintro ⟨oS, hoS, hpe⟩
      rw [← hpe]
      exact ⟨rfl, hoS⟩
    · rintro ⟨hp1, hp2⟩
      exact ⟨p.2, hp2, by rw [← hp1]⟩
  refine ⟨h1, ?_, ?_, ?_, ?_, ?_, ?_, ?_, ?_, ?_, ?_, ?_⟩
  · -- ids
    show ((s.jobs ++ [job]).map Job.id).Nodup
    rw [List.map_append, List.nodup_append]
    refine ⟨h2, by simp, ?_⟩
    intro a ha hb
    simp only [List.mem_map] at ha
    obtain ⟨x, hx, hxa⟩ := ha
    simp only [List.map_cons, List.map_nil, List.mem_singleton] at hb
    exact hidne x hx (by rw [hxa, hb])
  · -- WF
    intro x hx
    rcases List.mem_append.mp hx with hx | hx
    · exact h3 x hx
    · simp only [List.mem_singleton] at hx
      rw [hx]
      exact ⟨jpos, jops, jedges, jand, jab, jln, jlb⟩
  · -- frontier soundness
    intro p hp
    rcases Finset.mem_union.mp hp with hp | hp
    · have hold := h4 p hp
      obtain ⟨jb, op, hjb, hop, hsat, hdeps⟩ := frontierMemOK_unpack s p hold
      have hne : p.1 ≠ job.id := by
        intro he
        rw [he, hnone] at hjb
        exact Option.noConfusion hjb
      rw [frontierMemOK, hLold p.1 hne]
      rw [frontierMemOK] at hold
      exact hold
    · rw [hsrcs p] at hp
      obtain ⟨hp1, hp2⟩ := hp
      rw [hsrc_mem p.2] at hp2
      obtain ⟨hplt, hpnoin⟩ := hp2
      rw [frontierMemOK, hp1, hLnew]
      dsimp only
      obtain ⟨opS, hopS⟩ := get?_some_of_lt job.ops p.2 hplt
      rw [eligibleAt, hopS]
      dsimp only
      rw [hfsat opS (List.get?_mem hopS)]
      rw [Job.checkDependencies]
      simp only [Bool.not_false, Bool.true_and, List.all_eq_true]
      intro e he
      rw [List.mem_filter] at he
      exact absurd (by simpa using he.2) (hpnoin e he.1)
  · -- frontier completeness
    intro x hx o' ho' he
    rcases List.mem_append.mp hx with hx | hx
    · have hxne : x.id ≠ job.id := hidne x hx
      rw [eligibleAt] at he
      -- eligibility over the same record is unchanged; apply the old invariant
      exact Finset.mem_union_left _ (h5 x hx o' ho' (by rw [eligibleAt]; exact he))
    · simp only [List.mem_singleton] at hx
      rw [hx] at he ho' ⊢
      apply Finset.mem_union_right
      rw [hsrcs (job.id, o')]
      refine ⟨rfl, ?_⟩
      rw [hsrc_mem o']
      rw [List.mem_range] at ho'
      refine ⟨ho', ?_⟩
      intro e hee
      intro hcon
      rw [eligibleAt] at he
      obtain ⟨opE, hopE⟩ := get?_some_of_lt job.ops o' ho'
      rw [hopE] at he
      dsimp only at he
      simp only [Bool.and_eq_true] at he
      have hdeps := he.2
      rw [Job.checkDependencies, List.all_eq_true] at hdeps
      have hein : e ∈ job.dagEdges.filter fun e' => e'.2 == o' := by
        rw [List.mem_filter]
        exact ⟨hee, by simpa using hcon⟩
      have := hdeps e hein
      have helt : e.1 < job.ops.length := (jedges e hee).1
      obtain ⟨opP, hopP⟩ := get?_some_of_lt job.ops e.1 helt
      rw [hopP] at this
      dsimp only at this
      rw [Op.checkCriterion] at this
      rw [hfcomp opP (List.get?_mem hopP)] at this
      exact Bool.false_ne_true this
  · -- saturated soundness
    intro p hp
    have hold := h6 p hp
    obtain ⟨jb, op, hjb, hop, hsat, hcomp⟩ := satMemOK_unpack s p hold
    have hne : p.1 ≠ job.id := by
      intro he
      rw [he, hnone] at hjb
      exact Option.noConfusion hjb
    rw [satMemOK, hLold p.1 hne]
    rw [satMemOK] at hold
    exact hold
  · -- saturated completeness
    intro x hx o' ho' he
    rcases List.mem_append.mp hx with hx | hx
    · exact h7 x hx o' ho' he
    · simp only [List.mem_singleton] at hx
      rw [hx] at he ho'
      exfalso
      rw [satAt] at he
      rw [List.mem_range] at ho'
      obtain ⟨opE, hopE⟩ := get?_some_of_lt job.ops o' ho'
      rw [hopE] at he
      dsimp only at he
      simp only [Bool.and_eq_true] at he
      rw [hfsat opE (List.get?_mem hopE)] at he
      exact Bool.false_ne_true he.1
  · -- untouched
    intro x hx o' ho'
    rcases List.mem_append.mp hx with hx | hx
    · exact h8 x hx o' ho'
    · simp only [List.mem_singleton] at hx
      rw [hx] at ho' ⊢
      rw [List.mem_range] at ho'
      obtain ⟨opE, hopE⟩ := get?_some_of_lt job.ops o' ho'
      rw [untouchedOK, hopE]
      dsimp only
      obtain ⟨hpe, hce⟩ := hf1 opE (List.get?_mem hopE)
      obtain ⟨_, _, _, _, _, _, _, _, _, _, _, hsum⟩ := jops opE (List.get?_mem hopE)
      rw [hpe, hce] at hsum
      simp only [List.length_nil] at hsum
      have : (opE.remainingTasks.length == opE.numTasks) = true := by
        simp only [beq_iff_eq]
        omega
      rw [this]
      simp
  · -- active
    intro x hx o' ho'
    rcases List.mem_append.mp hx with hx | hx
    · exact h9 x hx o' ho'
    · simp only [List.mem_singleton] at hx
      rw [hx] at ho' ⊢
      obtain ⟨opE, hopE⟩ := get?_some_of_lt job.ops o' (List.mem_range.mp ho')
      rw [activeAt, hopE]
      dsimp only
      rw [hfcomp opE (List.get?_mem hopE)]
      simp only [Bool.not_false]
      constructor
      · intro _
        trivial
      · intro _
        exact hf2 o' ho'
  · -- active job ids
    obtain ⟨g1, g2, g3⟩ := h10
    refine ⟨?_, ?_, ?_⟩
    · intro jid hjid
      rcases List.mem_append.mp hjid with hjid | hjid
      · have hold := g1 jid hjid
        rw [activeJobOK] at hold
        cases hlj : lookupJob s jid with
        | none => rw [hlj] at hold; simp at hold
        | some jb =>
          rw [hlj] at hold
          have hne : jid ≠ job.id := by
            intro he
            rw [he, hnone] at hlj
            exact Option.noConfusion hlj
          rw [activeJobOK, hLold jid hne, hlj]
          exact hold
      · simp only [List.mem_singleton] at hjid
        rw [hjid, activeJobOK, hLnew]
        simp [hjobncomp]
    · intro x hx hc
      rcases List.mem_append.mp hx with hx | hx
      · exact List.mem_append_left _ (g2 x hx hc)
      · simp only [List.mem_singleton] at hx
        rw [hx]
        exact List.mem_append_right _ (by simp)
    · rw [List.nodup_append]
      refine ⟨g3, by simp, ?_⟩
      intro a ha hb
      simp only [List.mem_singleton] at hb
      have hold := g1 a ha
      rw [activeJobOK, hb, hnone] at hold
      simp at hold
  · -- workers
    intro w hw
    have hold := h11 w hw
    rw [workerOK] at hold ⊢
    show (match s.workers.get? w with
      | some wk => wk.isMoving || _
      | none => true) = true
    cases hgw : s.workers.get? w with
    | none => rfl
    | some wk =>
      rw [hgw] at hold
      dsimp only at hold ⊢
      cases hmv : wk.isMoving with
      | true => simp
      | false =>
        rw [hmv] at hold
        simp only [Bool.false_or] at hold ⊢
        cases hjid : wk.jobId with
        | none => rfl
        | some jid =>
          rw [hjid] at hold
          dsimp only at hold ⊢
          cases hlj : lookupJob s jid with
          | none => rw [hlj] at hold; simp at hold
          | some jb =>
            rw [hlj] at hold
            have hne : jid ≠ job.id := by
              intro he
              rw [he, hnone] at hlj
              exact Option.noConfusion hlj
            rw [hLold jid hne, hlj]
            exact hold
  · -- avail
    exact h12

theorem workerOK_local_mono (s s4 : EnvState) (j0 : ℕ) (jb jbP : Job)
    (sur : JobsSurgery s s4 j0 jb jbP)
    (hsup : ∀ w', w' ∈ jb.localWorkers → w' ∈ jbP.localWorkers)
    (w : ℕ) (hsame : s4.workers.get? w = s.workers.get? w)
    (hold : workerOK s w = true) : workerOK s4 w = true := by
  obtain ⟨sjb, sjbP, sne, smem, sids⟩ := sur
  rw [workerOK, hsame]
  rw [workerOK] at hold
  cases hgw : s.workers.get? w with
  | none => rfl
  | some wk2 =>
    rw [hgw] at hold
    dsimp only at hold ⊢
    cases hmv2 : wk2.isMoving with
    | true => simp
    | false =>
      rw [hmv2] at hold
      simp only [Bool.false_or] at hold ⊢
      cases hj2 : wk2.jobId with
      | none => rfl
      | some j2 =>
        rw [hj2] at hold
        dsimp only at hold ⊢
        by_cases hj2e : j2 = j0
        · rw [hj2e] at hold ⊢
          rw [sjb] at hold
          rw [sjbP]
          dsimp only at hold ⊢
          simp only [decide_eq_true_eq] at hold ⊢
          exact hsup w hold
        · rw [sne j2 hj2e]
          exact hold

theorem inv_addAvail (s : EnvState) (w : ℕ) (h : Inv s)
    (hwlt : w < s.workers.length) : Inv (addAvail s w) := by
  refine inv_fields s _ h (addAvail_jobs s w)
    (by rw [addAvail_workers]) ?_ (addAvail_frontier s w) (addAvail_saturated s w)
    (addAvail_activeJobIds s w) ?_ ?_ ?_
  · intro w' hw'
    rw [workerOK_congr s _ (addAvail_jobs s w) (addAvail_workers s w)]
    exact h.2.2.2.2.2.2.2.2.2.2.1 w' hw'
  · rw [addAvail]
    split
    · exact h.2.2.2.2.2.2.2.2.2.2.2.1
    · next hnin =>
      show (s.availWorkerIds ++ [w]).Nodup
      rw [List.nodup_append]
      refine ⟨h.2.2.2.2.2.2.2.2.2.2.2.1, by simp, ?_⟩
      intro a ha hb
      simp only [List.mem_singleton] at hb
      rw [hb] at ha
      exact hnin ha
  · intro w' hw'
    rw [addAvail] at hw'
    split at hw'
    · exact h.2.2.2.2.2.2.2.2.2.2.2.2 w' hw'
    · rcases List.mem_append.mp hw' with hw' | hw'
      · exact h.2.2.2.2.2.2.2.2.2.2.2.2 w' hw'
      · simp only [List.mem_singleton] at hw'
        rw [hw']
        exact hwlt
  · rw [addAvail_flag]
    exact h.1

/-- `_process_worker_arrival` preserves the invariant. -/
theorem inv_processWorkerArrival (s : EnvState) (wIdx j o : ℕ) (h : Inv s)
    (hok : EventOK s (.workerArrival wIdx j o)) :
    Inv (processWorkerArrival s wIdx j o).1 := by
  obtain ⟨hwlt, hwaOK⟩ := hok
  rw [workerArrivalOK] at hwaOK
  cases hgop : getOp s j o with
  | none => rw [hgop] at hwaOK; simp at hwaOK
  | some op =>
    rw [hgop] at hwaOK
    dsimp only at hwaOK
    obtain ⟨jb, hjb, hop⟩ := getOp_unpack s j o op hgop
    have hwfjb := h.2.2.1 jb (lookupJob_mem s j jb hjb)
    have key : ∃ jbA,
        JobsSurgery s (updateJob s j fun jb' =>
          if wIdx ∈ jb'.localWorkers then jb'
          else { jb' with localWorkers := jb'.localWorkers ++ [wIdx] }) j jb jbA ∧
        jbA.ops = jb.ops ∧ jbA.dagEdges = jb.dagEdges ∧
        jbA.activeOps = jb.activeOps ∧ jbA.localWorkers.Nodup ∧
        (∀ w ∈ jbA.localWorkers, w < s.workers.length) ∧
        wIdx ∈ jbA.localWorkers ∧
        (∀ w', w' ∈ jb.localWorkers → w' ∈ jbA.localWorkers) := by
      have sur := jobsSurgery_updateJob s j
        (fun jb' => if wIdx ∈ jb'.localWorkers then jb'
          else { jb' with localWorkers := jb'.localWorkers ++ [wIdx] }) jb
        h.2.1 hjb (fun x => by dsimp only; split <;> rfl)
      by_cases hin : wIdx ∈ jb.localWorkers
      · refine ⟨jb, ?_, rfl, rfl, rfl, hwfjb.2.2.2.2.2.1, hwfjb.2.2.2.2.2.2,
          hin, fun w' hw' => hw'⟩
        have hfjb : (if wIdx ∈ jb.localWorkers then jb
            else { jb with localWorkers := jb.localWorkers ++ [wIdx] }) = jb := by
          rw [if_pos hin]
        simp only [hfjb] at sur
        exact sur
      · refine ⟨{ jb with localWorkers := jb.localWorkers ++ [wIdx] }, ?_, rfl, rfl,
          rfl, ?_, ?_, by simp, fun w' hw' => by simp [hw']⟩
        · have hfjb : (if wIdx ∈ jb.localWorkers then jb
              else { jb with localWorkers := jb.localWorkers ++ [wIdx] }) =
              { jb with localWorkers := jb.localWorkers ++ [wIdx] } := by
            rw [if_neg hin]
          simp only [hfjb] at sur
          exact sur
        · show (jb.localWorkers ++ [wIdx]).Nodup
          rw [List.nodup_append]
          refine ⟨hwfjb.2.2.2.2.2.1, by simp, ?_⟩
          intro a ha hb
          simp only [List.mem_singleton] at hb
          rw [hb] at ha
          exact hin ha
        · intro w hw
          rcases List.mem_append.mp hw with hw | hw
          · exact hwfjb.2.2.2.2.2.2 w hw
          · simp only [List.mem_singleton] at hw
            rw [hw]
            exact hwlt
    obtain ⟨jbA, sur1, hAops, hAdag, hAact, hAnd, hAb, hAin, hAsup⟩ := key
    -- the state after the local-worker and worker-record updates
    have hs2jobs : (updateWorker (updateJob s j fun jb' =>
        if wIdx ∈ jb'.localWorkers then jb'
        else { jb' with localWorkers := jb'.localWorkers ++ [wIdx] }) wIdx
        fun wk => { wk with isMoving := false, jobId := some j }).jobs =
        (updateJob s j fun jb' =>
          if wIdx ∈ jb'.localWorkers then jb'
          else { jb' with localWorkers := jb'.localWorkers ++ [wIdx] }).jobs :=
      updateWorker_jobs _ _ _
    have sur2 := jobsSurgery_congr s _ _ j jb jbA hs2jobs sur1
    obtain ⟨wk0, hwk0⟩ := get?_some_of_lt
      (updateJob s j fun jb' =>
        if wIdx ∈ jb'.localWorkers then jb'
        else { jb' with localWorkers := jb'.localWorkers ++ [wIdx] }).workers wIdx
      (by rw [updateJob_workers]; exact hwlt)
    have hgself := updateWorker_get?_self _ wIdx
      (fun wk => { wk with isMoving := false, jobId := some j }) wk0 hwk0
    have hgne : ∀ w', w' ≠ wIdx →
        (updateWorker (updateJob s j fun jb' =>
          if wIdx ∈ jb'.localWorkers then jb'
          else { jb' with localWorkers := jb'.localWorkers ++ [wIdx] }) wIdx
          fun wk => { wk with isMoving := false, jobId := some j }).workers.get? w' =
        s.workers.get? w' := by
      intro w' hne
      rw [updateWorker_get?_ne _ wIdx _ w' hne, updateJob_workers]
    have hlen2 : (updateWorker (updateJob s j fun jb' =>
        if wIdx ∈ jb'.localWorkers then jb'
        else { jb' with localWorkers := jb'.localWorkers ++ [wIdx] }) wIdx
        fun wk => { wk with isMoving := false, jobId := some j }).workers.length =
        s.workers.length := by
      rw [updateWorker_workers_length, updateJob_workers]
    have hInv2 : Inv (updateWorker (updateJob s j fun jb' =>
        if wIdx ∈ jb'.localWorkers then jb'
        else { jb' with localWorkers := jb'.localWorkers ++ [wIdx] }) wIdx
        fun wk => { wk with isMoving := false, jobId := some j }) := by
      refine inv_surgery_fields s _ j jb jbA h sur2 hAops hAdag hAact hAnd hAb
        hlen2 ?_
        (by rw [updateWorker_frontier, updateJob_frontier])
        (by rw [updateWorker_saturated, updateJob_saturated])
        (by rw [updateWorker_activeJobIds, updateJob_activeJobIds])
        (by rw [updateWorker_avail, updateJob_avail]
            exact h.2.2.2.2.2.2.2.2.2.2.2.1)
        (by rw [updateWorker_avail, updateJob_avail]
            exact h.2.2.2.2.2.2.2.2.2.2.2.2)
        (by rw [updateWorker_flag, updateJob_flag]; exact h.1)
      intro w hw
      by_cases hne : w = wIdx
      · subst hne
        rw [workerOK, hgself]
        simp [sur2.2.1, hAin]
      · exact workerOK_local_mono s _ j jb jbA sur2 hAsup w (hgne w hne)
          (h.2.2.2.2.2.2.2.2.2.2.1 w hw)
    have hgop2 : getOp (updateWorker (updateJob s j fun jb' =>
        if wIdx ∈ jb'.localWorkers then jb'
        else { jb' with localWorkers := jb'.localWorkers ++ [wIdx] }) wIdx
        fun wk => { wk with isMoving := false, jobId := some j }) j o = some op := by
      rw [getOp_updateWorker, getOp_updateJob s j _
        (fun x => by split <;> rfl)
        (fun x => by split <;> rfl)]
      exact hgop
    rw [processWorkerArrival, hjb]
    dsimp only
    rw [hgop2]
    dsimp only
    split
    · next hcond =>
      exact inv_addAvail _ wIdx hInv2 (by rw [hlen2]; exact hwlt)
    · next hcond =>
      have hncomp : op.isComplete = false := by
        cases hc : op.isComplete with
        | false => rfl
        | true => exact absurd (by rw [hc]; simp) hcond
      have hnsat : op.saturated = false := by
        cases hc : op.saturated with
        | false => rfl
        | true => exact absurd (by rw [hc]; simp) hcond
      have hm : (j, o) ∈ s.frontierOps := by
        simp only [Bool.or_eq_true, decide_eq_true_eq] at hwaOK
        rcases hwaOK with (hm | hm) | hm
        · exact hm
        · exfalso
          obtain ⟨jb2, op2, hjb2, hop2, hs2, hc2⟩ := satMemOK_unpack s (j, o)
            (h.2.2.2.2.2.1 (j, o) hm)
          dsimp only at hjb2 hop2
          rw [hjb] at hjb2
          have e1 : jb2 = jb := Option.some_injective _ hjb2.symm
          rw [e1, hop] at hop2
          have e2 : op2 = op := Option.some_injective _ hop2.symm
          rw [e2, hnsat] at hs2
          exact Bool.false_ne_true hs2
        · exact absurd hm (by rw [hncomp]; exact Bool.false_ne_true)
      have hm2 : (j, o) ∈ (updateWorker (updateJob s j fun jb' =>
          if wIdx ∈ jb'.localWorkers then jb'
          else { jb' with localWorkers := jb'.localWorkers ++ [wIdx] }) wIdx
          fun wk => { wk with isMoving := false, jobId := some j }).frontierOps := by
        rw [updateWorker_frontier, updateJob_frontier]
        exact hm
      have hmid := invMid_of_inv _ j o hInv2 hm2
      exact (inv_scheduleWorkerOne _ wIdx j o hmid jbA op
        (sur2.2.1) (by rw [hAops]; exact hop) hnsat (by rw [hlen2]; exact hwlt)).1

theorem workerOK_movjob_congr (s s' : EnvState) (hj : s'.jobs = s.jobs)
    (hwk : ∀ w', (s'.workers.get? w').map (fun x => (x.isMoving, x.jobId)) =
      (s.workers.get? w').map (fun x => (x.isMoving, x.jobId)))
    (w : ℕ) : workerOK s' w = workerOK s w := by
  have hw := hwk w
  rw [workerOK, workerOK]
  cases h1 : s'.workers.get? w with
  | none =>
    cases h2 : s.workers.get? w with
    | none => rfl
    | some wk => rw [h1, h2] at hw; simp at hw
  | some wk' =>
    cases h2 : s.workers.get? w with
    | none => rw [h1, h2] at hw; simp at hw
    | some wk =>
      rw [h1, h2] at hw
      simp only [Option.map_some', Option.some.injEq, Prod.mk.injEq] at hw
      dsimp only
      rw [hw.1, hw.2]
      cases wk.jobId with
      | none => rfl
      | some jid =>
        dsimp only
        rw [show lookupJob s' jid = lookupJob s jid from by
          rw [lookupJob, lookupJob, hj]]

/-- Completing one more operation can only help dependency checks. -/
theorem checkDeps_mono (jb jbP : Job) (o : ℕ) (opN : Op)
    (hops : jbP.ops = jb.ops.set o opN) (hd : jbP.dagEdges = jb.dagEdges)
    (hcompN : opN.isComplete = true) (x : ℕ)
    (h : jb.checkDependencies x .completed = true) :
    jbP.checkDependencies x .completed = true := by
  rw [Job.checkDependencies, List.all_eq_true] at h ⊢
  intro e he
  rw [hd] at he
  have := h e he
  rw [hops]
  by_cases heo : e.1 = o
  · rw [heo]
    by_cases hlt : o < jb.ops.length
    · rw [List.get?_eq_getElem?, List.getElem?_set_self hlt]
      simp [Op.checkCriterion, hcompN]
    · rw [List.get?_eq_getElem?]
      rw [List.getElem?_eq_none (by rw [List.length_set]; omega)]
      rw [heo] at this
      rw [List.get?_eq_getElem?, List.getElem?_eq_none (by omega)] at this
      simp at this
  · rw [List.get?_eq_getElem?, List.getElem?_set_ne (Ne.symm heo),
      ← List.get?_eq_getElem?]
    exact this

/-- If `x` is not a DAG successor of `o`, its dependency check is unchanged
by an update of `o`'s record. -/
theorem checkDeps_nosucc (jb jbP : Job) (o : ℕ) (opN : Op)
    (hops : jbP.ops = jb.ops.set o opN) (hd : jbP.dagEdges = jb.dagEdges)
    (x : ℕ) (hnoe : ∀ e ∈ jb.dagEdges, e.2 = x → e.1 ≠ o) :
    jbP.checkDependencies x .completed = jb.checkDependencies x .completed := by
  rw [Job.checkDependencies, Job.checkDependencies, hd]
  apply all_congr_on
  intro e he
  rw [List.mem_filter] at he
  have heo : e.1 ≠ o := hnoe e he.1 (by simpa using he.2)
  rw [hops, List.get?_eq_getElem?, List.getElem?_set_ne (Ne.symm heo),
    ← List.get?_eq_getElem?]

theorem mem_findNewFrontierOps (jb' : Job) (o : ℕ) (opN : Op)
    (hget : jb'.ops.get? o = some opN) (hcompN : opN.isComplete = true)
    (su : ℕ) :
    su ∈ jb'.findNewFrontierOps o .completed ↔
      ((∃ e ∈ jb'.dagEdges, e.1 = o ∧ e.2 = su) ∧
       ∃ nop, jb'.ops.get? su = some nop ∧ nop.isComplete = false ∧
         jb'.checkDependencies su .completed = true) := by
  rw [Job.findNewFrontierOps, hget]
  dsimp only
  rw [if_neg (by simp [Op.checkCriterion, hcompN])]
  rw [List.mem_filter, List.mem_map]
  constructor
  · rintro ⟨⟨e, he, hesu⟩, hcond⟩
    rw [List.mem_filter] at he
    refine ⟨⟨e, he.1, by simpa using he.2, hesu⟩, ?_⟩
    cases hns : jb'.ops.get? su with
    | none => rw [hns] at hcond; simp at hcond
    | some nop =>
      rw [hns] at hcond
      dsimp only at hcond
      simp only [Bool.and_eq_true, Bool.not_eq_true'] at hcond
      exact ⟨nop, rfl, by simpa [Op.checkCriterion] using hcond.1, hcond.2⟩
  · rintro ⟨⟨e, he, he1, he2⟩, nop, hns, hnc, hdp⟩
    refine ⟨⟨e, ?_, he2⟩, ?_⟩
    · rw [List.mem_filter]
      exact ⟨he, by simpa using he1⟩
    · rw [hns]
      dsimp only
      simp [Op.checkCriterion, hnc, hdp]

/-- Structural well-formedness is preserved by `mark_task_completed`. -/
theorem OpWF_addTask (op : Op) (tid : ℕ) (task' : List Task)
    (hwf : OpWF op) (htid : tid ∈ op.processingTasks)
    (hlen : task'.length = op.tasks.length) :
    OpWF { op with
      processingTasks := op.processingTasks.erase tid
      completedTasks := op.completedTasks ++ [tid]
      tasks := task' } := by
  obtain ⟨hpos, hlen0, ndR, ndP, ndC, bR, bP, bC, dRP, dRC, dPC, hsum⟩ := hwf
  have htid_nC : tid ∉ op.completedTasks := dPC tid htid
  have htid_b : tid < op.numTasks := bP tid htid
  refine ⟨hpos, by rw [hlen, hlen0], ndR, ndP.erase tid, ?_, bR, ?_, ?_, ?_, ?_,
    ?_, ?_⟩
  · show (op.completedTasks ++ [tid]).Nodup
    rw [List.nodup_append]
    exact ⟨ndC, List.nodup_singleton _,
      fun a ha hb => htid_nC (List.mem_singleton.mp hb ▸ ha)⟩
  · intro x hx
    exact bP x (List.mem_of_mem_erase hx)
  · intro x hx
    rcases List.mem_append.mp hx with hx | hx
    · exact bC x hx
    · simp only [List.mem_singleton] at hx
      rw [hx]
      exact htid_b
  · intro x hx hx'
    exact dRP x hx (List.mem_of_mem_erase hx')
  · intro x hx hx'
    rcases List.mem_append.mp hx' with hx' | hx'
    · exact dRC x hx hx'
    · simp only [List.mem_singleton] at hx'
      rw [hx'] at hx
      exact dRP tid hx htid
  · intro x hx hx'
    rcases List.mem_append.mp hx' with hx' | hx'
    · exact dPC x (List.mem_of_mem_erase hx) hx'
    · simp only [List.mem_singleton] at hx'
      rw [hx'] at hx
      exact (ndP.mem_erase_iff.mp hx).1 rfl
  · show op.remainingTasks.length + (op.processingTasks.erase tid).length +
        (op.completedTasks ++ [tid]).length = op.numTasks
    rw [List.length_erase_of_mem htid]
    simp only [List.length_append, List.length_singleton]
    have hplen : 0 < op.processingTasks.length := List.length_pos_of_mem htid
    omega

theorem inv_of_invJC (s : EnvState) (j : ℕ) (h : InvJC s j) (jb : Job)
    (hjb : lookupJob s j = some jb) (hncomp : jb.isComplete = false) : Inv s := by
  obtain ⟨h1, h2, h3, h4, h5, h6, h7, h8, h9, ⟨g1, g2, g3⟩, h11, h12, hjm⟩ := h
  refine ⟨h1, h2, h3, h4, h5, h6, h7, h8, h9, ⟨?_, g2, g3⟩, h11, h12⟩
  intro jid hjid
  rcases g1 jid hjid with hok | hje
  · exact hok
  · rw [hje, activeJobOK, hjb]
    simp [hncomp]

/-- `_process_job_completion` of a just-completed job restores the full
invariant. -/
theorem inv_processJobCompletion (s : EnvState) (j : ℕ) (h : InvJC s j)
    (jb : Job) (hjb : lookupJob s j = some jb) (hcomp : jb.isComplete = true) :
    Inv (processJobCompletion s j) := by
  obtain ⟨h1, h2, h3, h4, h5, h6, h7, h8, h9, ⟨g1, g2, g3⟩, h11, h12, hjm⟩ := h
  rw [processJobCompletion, if_pos hjm]
  have hids' : InvIds { { s with activeJobIds := s.activeJobIds.erase j } with
      completedJobIds := s.completedJobIds ++ [j] } := h2
  have hjb' : lookupJob { { s with activeJobIds := s.activeJobIds.erase j } with
      completedJobIds := s.completedJobIds ++ [j] } j = some jb := hjb
  have sur := jobsSurgery_updateJob _ j
    (fun jb' => { jb' with tCompleted := some s.wallTime }) jb hids' hjb'
    (fun _ => rfl)
  have hInvI : Inv { { s with activeJobIds := s.activeJobIds.erase j } with
      completedJobIds := s.completedJobIds ++ [j] } := by
    refine ⟨h1, h2, h3, h4, h5, h6, h7, h8, h9, ⟨?_, ?_, g3.erase j⟩, h11, h12⟩
    · intro jid hjid
      have hjne : jid ≠ j := by
        intro he
        rw [he] at hjid
        exact g3.not_mem_erase hjid
      rcases g1 jid (List.mem_of_mem_erase hjid) with hok | hje
      · exact hok
      · exact absurd hje hjne
    · intro x hx hcx
      have hxj : x.id ≠ j := by
        intro he
        have hxe : x = jb := mem_eq_of_lookup s h2 jb x j hjb hx he
        rw [hxe, hcomp] at hcx
        exact Bool.noConfusion hcx
      exact (List.mem_erase_of_ne hxj).mpr (g2 x hx hcx)
  refine inv_surgery_fields _ _ j jb _ hInvI sur rfl rfl rfl
    ((h3 jb (lookupJob_mem s j jb hjb)).2.2.2.2.2.1)
    ((h3 jb (lookupJob_mem s j jb hjb)).2.2.2.2.2.2)
    rfl ?_ rfl rfl rfl h12.1 h12.2 h1
  intro w hw
  rw [workerOK_surgery _ _ j jb _ sur rfl (fun w' => rfl) w]
  exact h11 w hw

/-- Invariant transport for a surgery replacing one operation by a record
with the same completion status, saturation status, task-pool sizes
(only the internal processing/completed split and task records moved). -/
theorem inv_surgery_sameOp (s s' : EnvState) (j o : ℕ) (jb jbP : Job)
    (op opP : Op) (h : Inv s) (sur : JobsSurgery s s' j jb jbP)
    (hop : jb.ops.get? o = some op)
    (hopsP : jbP.ops = jb.ops.set o opP)
    (hd : jbP.dagEdges = jb.dagEdges) (hac : jbP.activeOps = jb.activeOps)
    (hloc : jbP.localWorkers = jb.localWorkers)
    (hcomp : opP.isComplete = op.isComplete)
    (hsatP : opP.saturated = op.saturated)
    (hremP : opP.remainingTasks.length = op.remainingTasks.length)
    (hnum : opP.numTasks = op.numTasks)
    (hwfP : OpWF opP)
    (hNwl : s'.workers.length = s.workers.length)
    (hNwmap : ∀ w', (s'.workers.get? w').map (fun x => (x.isMoving, x.jobId)) =
      (s.workers.get? w').map (fun x => (x.isMoving, x.jobId)))
    (hNf : s'.frontierOps = s.frontierOps)
    (hNs : s'.saturatedOps = s.saturatedOps)
    (hNa : s'.activeJobIds = s.activeJobIds)
    (hNav : s'.availWorkerIds = s.availWorkerIds)
    (hNfl : s'.assertFail = s.assertFail) : Inv s' := by
  have sur' := sur
  obtain ⟨sjb, sjbP, sne, smem, sids⟩ := sur
  obtain ⟨h1, h2, h3, h4, h5, h6, h7, h8, h9, h10, h11, h12⟩ := h
  have hlt : o < jb.ops.length := get?_lt _ _ _ hop
  have hjb_id : jb.id = j := lookupJob_id s j jb sjb
  have hjbP_id : jbP.id = j := lookupJob_id s' j jbP sjbP
  have hjbmem : jb ∈ s.jobs := lookupJob_mem s j jb sjb
  have hgetP : jbP.ops.get? o = some opP := by
    rw [hopsP, List.get?_eq_getElem?, List.getElem?_set_self hlt]
  have hlenP : jbP.ops.length = jb.ops.length := by
    rw [hopsP, List.length_set]
  have hcompP : jbP.isComplete = jb.isComplete := by
    rw [Job.isComplete, Job.isComplete, hac]
  have hrng : ∀ o'', o'' ∈ List.range jbP.ops.length →
      o'' ∈ List.range jb.ops.length := by
    intro o'' h''
    rw [List.mem_range] at h'' ⊢
    rw [hlenP] at h''
    exact h''
  have heligeq : ∀ o', eligibleAt jbP o' = eligibleAt jb o' := by
    intro o'
    by_cases ho'o : o' = o
    · rw [ho'o, eligibleAt_set_self jb jbP o op opP hopsP hd hop hcomp,
        eligibleAt, hop]
      dsimp only
      rw [hsatP]
    · exact eligibleAt_set_ne jb jbP o op opP hopsP hd hop hcomp o' ho'o
  have hsateq : ∀ o', satAt jbP o' = satAt jb o' := by
    intro o'
    by_cases ho'o : o' = o
    · rw [ho'o, satAt_set_self jb jbP o opP hopsP hlt, satAt, hop]
      dsimp only
      rw [hsatP, hcomp]
    · exact satAt_set_ne jb jbP o opP hopsP o' ho'o
  have hacteq : ∀ o', activeAt jbP o' = activeAt jb o' := by
    intro o'
    by_cases ho'o : o' = o
    · rw [ho'o, activeAt_set_self jb jbP o opP hopsP hlt, activeAt, hop]
      dsimp only
      rw [hcomp]
    · exact activeAt_set_ne jb jbP o opP hopsP o' ho'o
  have hunteq : ∀ o', untouchedOK jbP o' = untouchedOK jb o' := by
    intro o'
    by_cases ho'o : o' = o
    · rw [ho'o, untouchedOK, untouchedOK, hgetP, hop]
      dsimp only
      rw [checkDependencies_set jb jbP o op opP hopsP hd hop hcomp o,
        hremP, hnum]
    · exact untouchedOK_set_ne jb jbP o op opP hopsP hd hop hcomp o' ho'o
  have hfmemeq : ∀ p, frontierMemOK s' p = frontierMemOK s p := by
    intro p
    by_cases hp1 : p.1 = j
    · rw [frontierMemOK, frontierMemOK, hp1, sjb, sjbP]
      exact heligeq p.2
    · rw [frontierMemOK, frontierMemOK, sne p.1 hp1]
  have hsmemeq : ∀ p, satMemOK s' p = satMemOK s p := by
    intro p
    by_cases hp1 : p.1 = j
    · rw [satMemOK, satMemOK, hp1, sjb, sjbP]
      exact hsateq p.2
    · rw [satMemOK, satMemOK, sne p.1 hp1]
  refine ⟨by rw [InvFlag, hNfl]; exact h1, by rw [InvIds, sids]; exact h2,
    ?_, ?_, ?_, ?_, ?_, ?_, ?_, ?_, ?_, ?_⟩
  · intro x hx
    rcases smem x hx with hxP | ⟨hxold, hxne⟩
    · rw [hxP]
      obtain ⟨wpos, wops, wedges, wand, wab, wln, wlb⟩ := h3 jb hjbmem
      refine ⟨by rw [hlenP]; exact wpos, ?_,
        by rw [hd, hlenP]; exact wedges, by rw [hac]; exact wand,
        ?_, by rw [hloc]; exact wln, ?_⟩
      · intro q hq
        rw [hopsP] at hq
        rcases mem_set_or _ _ _ _ hq with hq | hq
        · rw [hq]; exact hwfP
        · exact wops q hq
      · intro o'' ho''
        rw [hac] at ho''
        rw [hlenP]
        exact wab o'' ho''
      · intro w' hw'
        rw [hloc] at hw'
        rw [hNwl]
        exact wlb w' hw'
    · obtain ⟨wpos, wops, wedges, wand, wab, wln, wlb⟩ := h3 x hxold
      exact ⟨wpos, wops, wedges, wand, wab, wln,
        fun w' hw' => by rw [hNwl]; exact wlb w' hw'⟩
  · intro p hp
    rw [hNf] at hp
    rw [hfmemeq p]
    exact h4 p hp
  · intro x hx o' ho' he
    rw [hNf]
    rcases smem x hx with hxP | ⟨hxold, hxne⟩
    · rw [hxP] at he ho' ⊢
      rw [hjbP_id]
      rw [heligeq o'] at he
      have := h5 jb hjbmem o' (hrng o' ho') he
      rw [hjb_id] at this
      exact this
    · exact h5 x hxold o' ho' he
  · intro p hp
    rw [hNs] at hp
    rw [hsmemeq p]
    exact h6 p hp
  · intro x hx o' ho' he
    rw [hNs]
    rcases smem x hx with hxP | ⟨hxold, hxne⟩
    · rw [hxP] at he ho' ⊢
      rw [hjbP_id]
      rw [hsateq o'] at he
      have := h7 jb hjbmem o' (hrng o' ho') he
      rw [hjb_id] at this
      exact this
    · exact h7 x hxold o' ho' he
  · intro x hx o' ho'
    rcases smem x hx with hxP | ⟨hxold, hxne⟩
    · rw [hxP] at ho' ⊢
      rw [hunteq o']
      exact h8 jb hjbmem o' (hrng o' ho')
    · exact h8 x hxold o' ho'
  · intro x hx o' ho'
    rcases smem x hx with hxP | ⟨hxold, hxne⟩
    · rw [hxP] at ho' ⊢
      rw [hac, hacteq o']
      exact h9 jb hjbmem o' (hrng o' ho')
    · exact h9 x hxold o' ho'
  · obtain ⟨g1, g2, g3⟩ := h10
    refine ⟨?_, ?_, ?_⟩
    · intro jid hjid
      rw [hNa] at hjid
      rw [activeJobOK_surgery s s' j jb jbP sur' hcompP jid]
      exact g1 jid hjid
    · intro x hx hc
      rw [hNa]
      rcases smem x hx with hxP | ⟨hxold, hxne⟩
      · rw [hxP] at hc ⊢
        rw [hjbP_id]
        rw [hcompP] at hc
        have := g2 jb hjbmem hc
        rw [hjb_id] at this
        exact this
      · exact g2 x hxold hc
    · rw [hNa]; exact g3
  · intro w hw
    rw [hNwl] at hw
    rw [workerOK_surgery s s' j jb jbP sur' hloc hNwmap w]
    exact h11 w hw
  · obtain ⟨a1, a2⟩ := h12
    rw [InvAvail, hNav]
    exact ⟨a1, fun w hw' => by rw [hNwl]; exact a2 w hw'⟩

/-- Core of `_process_op_completion`: with the operation's record completed,
its id dropped from the job's active set and from the saturated set, and the
newly ready successors merged into the frontier, the invariant holds up to
the pending job-completion check. -/
theorem invJC_opCompletion_core (s sF : EnvState) (j o : ℕ) (jb jbF : Job)
    (op₀ opN : Op) (h : Inv s)
    (hjb : lookupJob s j = some jb) (hop : jb.ops.get? o = some op₀)
    (hsat₀ : op₀.saturated = true) (hcomp₀ : op₀.isComplete = false)
    (hcompN : opN.isComplete = true) (hwfN : OpWF opN)
    (surF : JobsSurgery s sF j jb jbF)
    (hopsF : jbF.ops = jb.ops.set o opN)
    (hdF : jbF.dagEdges = jb.dagEdges)
    (hacF : jbF.activeOps = jb.activeOps.erase o)
    (hlocF : jbF.localWorkers = jb.localWorkers)
    (hFwl : sF.workers.length = s.workers.length)
    (hFwmap : ∀ w', (sF.workers.get? w').map (fun x => (x.isMoving, x.jobId)) =
      (s.workers.get? w').map (fun x => (x.isMoving, x.jobId)))
    (hFf : sF.frontierOps = s.frontierOps ∪
      ((jbF.findNewFrontierOps o .completed).map fun su => (j, su)).toFinset)
    (hFs : sF.saturatedOps = s.saturatedOps.erase (j, o))
    (hFa : sF.activeJobIds = s.activeJobIds)
    (hFavnd : sF.availWorkerIds.Nodup)
    (hFavb : ∀ w' ∈ sF.availWorkerIds, w' < s.workers.length)
    (hFfl : sF.assertFail = false) :
    InvJC sF j := by
  have surF' := surF
  obtain ⟨sjb, sjbF, sne, smem, sids⟩ := surF
  obtain ⟨h1, h2, h3, h4, h5, h6, h7, h8, h9, h10, h11, h12⟩ := h
  obtain ⟨g1, g2, g3⟩ := h10
  have hlt : o < jb.ops.length := get?_lt _ _ _ hop
  have hjb_id : jb.id = j := lookupJob_id s j jb sjb
  have hjbF_id : jbF.id = j := lookupJob_id sF j jbF sjbF
  have hjbmem : jb ∈ s.jobs := lookupJob_mem s j jb sjb
  have hwf0 : OpWF op₀ := (h3 jb hjbmem).2.1 op₀ (List.get?_mem hop)
  have hgetF : jbF.ops.get? o = some opN := by
    rw [hopsF, List.get?_eq_getElem?, List.getElem?_set_self hlt]
  have hlenF : jbF.ops.length = jb.ops.length := by
    rw [hopsF, List.length_set]
  have hrng : ∀ o'', o'' ∈ List.range jbF.ops.length →
      o'' ∈ List.range jb.ops.length := by
    intro o'' h''
    rw [List.mem_range] at h'' ⊢
    rw [hlenF] at h''
    exact h''
  have hre : op₀.remainingTasks = [] := by
    rw [Op.saturated] at hsat₀
    exact List.isEmpty_iff.mp hsat₀
  have hdeps0 : jb.checkDependencies o .completed = true := by
    have hu := h8 jb hjbmem o (List.mem_range.mpr hlt)
    rw [untouchedOK, hop] at hu
    dsimp only at hu
    have hpos := hwf0.1
    have hbad : (op₀.remainingTasks.length == op₀.numTasks) = false := by
      rw [hre]
      simp only [List.length_nil, beq_eq_false_iff_ne]
      omega
    rw [hbad] at hu
    simpa using hu
  have hsatmem : (j, o) ∈ s.saturatedOps := by
    have := h7 jb hjbmem o (List.mem_range.mpr hlt)
      (by rw [satAt, hop]; dsimp only; simp [hsat₀, hcomp₀])
    rw [hjb_id] at this
    exact this
  have hactive_o : o ∈ jb.activeOps :=
    (h9 jb hjbmem o (List.mem_range.mpr hlt)).mpr
      (by rw [activeAt, hop]; dsimp only; simp [hcomp₀])
  have hjactive : j ∈ s.activeJobIds := by
    have hjc : jb.isComplete = false := by
      rw [Job.isComplete]
      cases hao : jb.activeOps with
      | nil => rw [hao] at hactive_o; simp at hactive_o
      | cons a l => simp
    have := g2 jb hjbmem hjc
    rw [hjb_id] at this
    exact this
  have hnotfront : (j, o) ∉ s.frontierOps := by
    intro hmem
    obtain ⟨jb2, op2, hjb2, hop2, hs2, _⟩ := frontierMemOK_unpack s (j, o) (h4 _ hmem)
    dsimp only at hjb2 hop2
    rw [hjb] at hjb2
    have e1 := Option.some_injective _ hjb2.symm
    rw [e1, hop] at hop2
    have e2 := Option.some_injective _ hop2.symm
    rw [e2, hsat₀] at hs2
    exact Bool.noConfusion hs2
  have hmono : ∀ x, jb.checkDependencies x .completed = true →
      jbF.checkDependencies x .completed = true :=
    checkDeps_mono jb jbF o opN hopsF hdF hcompN
  have heligF : ∀ o', o' ≠ o → eligibleAt jb o' = true →
      eligibleAt jbF o' = true := by
    intro o' hne he
    rw [eligibleAt, hopsF, List.get?_eq_getElem?,
      List.getElem?_set_ne (Ne.symm hne), ← List.get?_eq_getElem?]
    rw [eligibleAt] at he
    cases hg : jb.ops.get? o' with
    | none => rw [hg] at he; simp at he
    | some nop =>
      rw [hg] at he
      dsimp only at he ⊢
      simp only [Bool.and_eq_true] at he ⊢
      exact ⟨he.1, hmono o' he.2⟩
  have hS : ∀ p : ℕ × ℕ,
      p ∈ ((jbF.findNewFrontierOps o .completed).map fun su => (j, su)).toFinset ↔
      (p.1 = j ∧ p.2 ∈ jbF.findNewFrontierOps o .completed) := by
    intro p
    rw [List.mem_toFinset, List.mem_map]
    constructor
    · rintro ⟨su, hsu, hpe⟩
      rw [← hpe]
      exact ⟨rfl, hsu⟩
    · rintro ⟨hp1, hp2⟩
      exact ⟨p.2, hp2, by rw [← hp1]⟩
  have hnewchar := mem_findNewFrontierOps jbF o opN hgetF hcompN
  have hdeps_new_false : ∀ su, (∃ e ∈ jb.dagEdges, e.1 = o ∧ e.2 = su) →
      jb.checkDependencies su .completed = false := by
    rintro su ⟨e, he, he1, he2⟩
    cases hd : jb.checkDependencies su .completed with
    | false => rfl
    | true =>
      exfalso
      rw [Job.checkDependencies, List.all_eq_true] at hd
      have hein : e ∈ jb.dagEdges.filter fun e' => e'.2 == su := by
        rw [List.mem_filter]
        exact ⟨he, by simp [he2]⟩
      have hthis := hd e hein
      rw [he1, hop] at hthis
      dsimp only at hthis
      rw [show op₀.checkCriterion .completed = op₀.isComplete from rfl, hcomp₀]
        at hthis
      exact Bool.noConfusion hthis
  refine ⟨hFfl, by rw [InvIds, sids]; exact h2, ?_, ?_, ?_, ?_, ?_, ?_, ?_,
    ⟨?_, ?_, by rw [hFa]; exact g3⟩, ?_, ?_, by rw [hFa]; exact hjactive⟩
  · -- InvWF
    intro x hx
    rcases smem x hx with hxP | ⟨hxold, hxne⟩
    · rw [hxP]
      obtain ⟨wpos, wops, wedges, wand, wab, wln, wlb⟩ := h3 jb hjbmem
      refine ⟨by rw [hlenF]; exact wpos, ?_,
        by rw [hdF, hlenF]; exact wedges, by rw [hacF]; exact wand.erase o,
        ?_, by rw [hlocF]; exact wln, ?_⟩
      · intro q hq
        rw [hopsF] at hq
        rcases mem_set_or _ _ _ _ hq with hq | hq
        · rw [hq]; exact hwfN
        · exact wops q hq
      · intro o'' ho''
        rw [hacF] at ho''
        rw [hlenF]
        exact wab o'' (List.mem_of_mem_erase ho'')
      · intro w' hw'
        rw [hlocF] at hw'
        rw [hFwl]
        exact wlb w' hw'
    · obtain ⟨wpos, wops, wedges, wand, wab, wln, wlb⟩ := h3 x hxold
      exact ⟨wpos, wops, wedges, wand, wab, wln,
        fun w' hw' => by rw [hFwl]; exact wlb w' hw'⟩
  · -- InvFrontier
    intro p hp
    rw [hFf] at hp
    rcases Finset.mem_union.mp hp with hp | hp
    · have hpe : p ≠ (j, o) := fun he => hnotfront (he ▸ hp)
      obtain ⟨jb2, op2, hjb2, hop2, hsat2, hdeps2⟩ :=
        frontierMemOK_unpack s p (h4 p hp)
      by_cases hp1 : p.1 = j
      · have e1 : jb2 = jb := by
          rw [hp1, hjb] at hjb2
          exact Option.some_injective _ hjb2.symm
        rw [e1] at hop2 hdeps2
        have hp2 : p.2 ≠ o := fun he => hpe (Prod.ext hp1 he)
        rw [frontierMemOK, hp1, sjbF]
        exact heligF p.2 hp2
          (by rw [eligibleAt, hop2]; dsimp only; simp [hsat2, hdeps2])
      · have hold := h4 p hp
        rw [frontierMemOK] at hold
        rw [frontierMemOK, sne p.1 hp1]
        exact hold
    · rw [hS p] at hp
      obtain ⟨hp1, hp2⟩ := hp
      rw [hnewchar p.2] at hp2
      obtain ⟨hedge, nop, hns, hnc, hdp⟩ := hp2
      rw [frontierMemOK, hp1, sjbF]
      dsimp only
      rw [eligibleAt, hns]
      dsimp only
      simp only [Bool.and_eq_true, Bool.not_eq_true']
      refine ⟨?_, hdp⟩
      have hsune : p.2 ≠ o := by
        intro he
        rw [he, hgetF] at hns
        have hee := Option.some_injective _ hns.symm
        rw [hee, hcompN] at hnc
        exact Bool.noConfusion hnc
      have hnsold : jb.ops.get? p.2 = some nop := by
        rw [hopsF, List.get?_eq_getElem?,
          List.getElem?_set_ne (Ne.symm hsune), ← List.get?_eq_getElem?] at hns
        exact hns
      have hedgejb : ∃ e ∈ jb.dagEdges, e.1 = o ∧ e.2 = p.2 := by
        rw [hdF] at hedge
        exact hedge
      have hdfalse := hdeps_new_false p.2 hedgejb
      have hu := h8 jb hjbmem p.2 (List.mem_range.mpr (get?_lt _ _ _ hnsold))
      rw [untouchedOK, hnsold] at hu
      dsimp only at hu
      rw [hdfalse] at hu
      simp only [Bool.false_or, beq_iff_eq] at hu
      have hposn := ((h3 jb hjbmem).2.1 nop (List.get?_mem hnsold)).1
      rw [Op.saturated]
      cases hrm : nop.remainingTasks with
      | nil => rw [hrm] at hu; simp at hu; omega
      | cons a l => simp
  · -- InvFrontierComplete
    intro x hx o' ho' he
    rw [hFf]
    rcases smem x hx with hxP | ⟨hxold, hxne⟩
    · rw [hxP] at he ho' ⊢
      rw [hjbF_id]
      by_cases ho'o : o' = o
      · exfalso
        rw [ho'o, eligibleAt, hgetF] at he
        dsimp only at he
        rw [OpWF_sat_of_complete opN hwfN hcompN] at he
        simp at he
      · rw [eligibleAt, hopsF, List.get?_eq_getElem?,
          List.getElem?_set_ne (Ne.symm ho'o), ← List.get?_eq_getElem?] at he
        cases hg : jb.ops.get? o' with
        | none => rw [hg] at he; simp at he
        | some nop =>
          rw [hg] at he
          dsimp only at he
          simp only [Bool.and_eq_true, Bool.not_eq_true'] at he
          obtain ⟨hnsat', hdp'⟩ := he
          by_cases hdold : jb.checkDependencies o' .completed = true
          · apply Finset.mem_union_left
            have := h5 jb hjbmem o' (hrng o' ho')
              (by rw [eligibleAt, hg]; dsimp only; simp [hnsat', hdold])
            rw [hjb_id] at this
            exact this
          · apply Finset.mem_union_right
            rw [hS]
            refine ⟨rfl, ?_⟩
            rw [hnewchar o']
            have hedge : ∃ e ∈ jbF.dagEdges, e.1 = o ∧ e.2 = o' := by
              by_contra hno
              have hnosucc : ∀ e ∈ jb.dagEdges, e.2 = o' → e.1 ≠ o := by
                intro e hee he2 he1
                exact hno ⟨e, by rw [hdF]; exact hee, he1, he2⟩
              have hceq := checkDeps_nosucc jb jbF o opN hopsF hdF o' hnosucc
              rw [hceq] at hdp'
              exact hdold hdp'
            refine ⟨hedge, nop, ?_, ?_, hdp'⟩
            · rw [hopsF, List.get?_eq_getElem?,
                List.getElem?_set_ne (Ne.symm ho'o), ← List.get?_eq_getElem?]
              exact hg
            · exact OpWF_not_complete nop ((h3 jb hjbmem).2.1 nop (List.get?_mem hg))
                hnsat'
    · exact Finset.mem_union_left _ (h5 x hxold o' ho' he)
  · -- InvSat
    intro p hp
    rw [hFs] at hp
    obtain ⟨hpne, hpmem⟩ := Finset.mem_erase.mp hp
    have hold := h6 p hpmem
    by_cases hp1 : p.1 = j
    · obtain ⟨jb2, op2, hjb2, hop2, hs2, hc2⟩ := satMemOK_unpack s p hold
      have e1 : jb2 = jb := by
        rw [hp1, hjb] at hjb2
        exact Option.some_injective _ hjb2.symm
      rw [e1] at hop2
      have hp2 : p.2 ≠ o := fun he => hpne (Prod.ext hp1 he)
      rw [satMemOK, hp1, sjbF]
      dsimp only
      rw [satAt_set_ne jb jbF o opN hopsF p.2 hp2, satAt, hop2]
      dsimp only
      simp [hs2, hc2]
    · rw [satMemOK, sne p.1 hp1]
      rw [satMemOK] at hold
      exact hold
  · -- InvSatComplete
    intro x hx o' ho' he
    rw [hFs]
    rcases smem x hx with hxP | ⟨hxold, hxne⟩
    · rw [hxP] at he ho' ⊢
      rw [hjbF_id]
      by_cases ho'o : o' = o
      · exfalso
        rw [ho'o, satAt, hgetF] at he
        dsimp only at he
        rw [hcompN] at he
        simp at he
      · rw [satAt_set_ne jb jbF o opN hopsF o' ho'o] at he
        have := h7 jb hjbmem o' (hrng o' ho') he
        rw [hjb_id] at this
        rw [Finset.mem_erase]
        exact ⟨fun hco => ho'o (congrArg Prod.snd hco), this⟩
    · have := h7 x hxold o' ho' he
      rw [Finset.mem_erase]
      refine ⟨?_, this⟩
      intro hco
      exact hxne (congrArg Prod.fst hco)
  · -- InvUntouched
    intro x hx o' ho'
    rcases smem x hx with hxP | ⟨hxold, hxne⟩
    · rw [hxP] at ho' ⊢
      by_cases ho'o : o' = o
      · rw [ho'o, untouchedOK, hgetF]
        dsimp only
        rw [hmono o hdeps0]
        simp
      · rw [untouchedOK, hopsF, List.get?_eq_getElem?,
          List.getElem?_set_ne (Ne.symm ho'o), ← List.get?_eq_getElem?]
        have hu := h8 jb hjbmem o' (hrng o' ho')
        rw [untouchedOK] at hu
        cases hg : jb.ops.get? o' with
        | none => rfl
        | some nop =>
          rw [hg] at hu
          dsimp only at hu ⊢
          simp only [Bool.or_eq_true] at hu ⊢
          rcases hu with hu | hu
          · exact Or.inl (hmono o' hu)
          · exact Or.inr hu
    · exact h8 x hxold o' ho'
  · -- InvActive
    intro x hx o' ho'
    rcases smem x hx with hxP | ⟨hxold, hxne⟩
    · rw [hxP] at ho' ⊢
      rw [hacF]
      by_cases ho'o : o' = o
      · rw [ho'o]
        constructor
        · intro hmem'
          exact absurd rfl
            ((((h3 jb hjbmem).2.2.2.1).mem_erase_iff.mp hmem').1)
        · intro hact
          exfalso
          rw [activeAt, hgetF] at hact
          dsimp only at hact
          rw [hcompN] at hact
          simp at hact
      · rw [activeAt_set_ne jb jbF o opN hopsF o' ho'o,
          List.mem_erase_of_ne ho'o]
        exact h9 jb hjbmem o' (hrng o' ho')
    · exact h9 x hxold o' ho'
  · -- active job ids, weakened soundness
    intro jid hjid
    rw [hFa] at hjid
    by_cases hje : jid = j
    · exact Or.inr hje
    · left
      have hold := g1 jid hjid
      rw [activeJobOK] at hold ⊢
      rw [sne jid hje]
      exact hold
  · -- active job ids, completeness
    intro x hx hcx
    rw [hFa]
    rcases smem x hx with hxP | ⟨hxold, hxne⟩
    · rw [hxP]
      rw [hjbF_id]
      exact hjactive
    · exact g2 x hxold hcx
  · -- workers
    intro w' hw'
    rw [hFwl] at hw'
    rw [workerOK_surgery s sF j jb jbF surF' hlocF hFwmap w']
    exact h11 w' hw'
  · -- avail
    exact ⟨hFavnd, fun w' hw' => by rw [hFwl]; exact hFavb w' hw'⟩

/-- `_process_op_completion` applied after the completing task was recorded
and its worker unbound. -/
theorem invJC_processOpCompletion (s s2 : EnvState) (j o w : ℕ)
    (jb jb1 : Job) (op₀ opN : Op) (h : Inv s)
    (hjb : lookupJob s j = some jb) (hop : jb.ops.get? o = some op₀)
    (hsat₀ : op₀.saturated = true) (hcomp₀ : op₀.isComplete = false)
    (hcompN : opN.isComplete = true) (hwfN : OpWF opN)
    (sur2 : JobsSurgery s s2 j jb jb1)
    (hops1 : jb1.ops = jb.ops.set o opN)
    (hd1 : jb1.dagEdges = jb.dagEdges) (hac1 : jb1.activeOps = jb.activeOps)
    (hloc1 : jb1.localWorkers = jb.localWorkers)
    (hNwl : s2.workers.length = s.workers.length)
    (hNwmap : ∀ w', (s2.workers.get? w').map (fun x => (x.isMoving, x.jobId)) =
      (s.workers.get? w').map (fun x => (x.isMoving, x.jobId)))
    (hNf : s2.frontierOps = s.frontierOps)
    (hNs : s2.saturatedOps = s.saturatedOps)
    (hNa : s2.activeJobIds = s.activeJobIds)
    (hNav : s2.availWorkerIds = s.availWorkerIds)
    (hNfl : s2.assertFail = s.assertFail)
    (hwlt : w < s.workers.length) :
    InvJC (processOpCompletion s2 j o w) j ∧
    ∃ jbF, lookupJob (processOpCompletion s2 j o w) j = some jbF ∧
      jbF.activeOps = jb.activeOps.erase o := by
  have hidsA : InvIds (addAvail s2 w) := by
    show ((addAvail s2 w).jobs.map Job.id).Nodup
    rw [addAvail_jobs, sur2.2.2.2.2]
    exact h.2.1
  have sur2A : JobsSurgery s (addAvail s2 w) j jb jb1 :=
    jobsSurgery_congr s s2 (addAvail s2 w) j jb jb1 (addAvail_jobs s2 w) sur2
  have surAB := jobsSurgery_updateJob (addAvail s2 w) j
    (fun jb' => { jb' with activeOps := jb'.activeOps.erase o }) jb1 hidsA
    sur2A.2.1 (fun _ => rfl)
  have surSB : JobsSurgery s (updateJob (addAvail s2 w) j fun jb' =>
      { jb' with activeOps := jb'.activeOps.erase o }) j jb
      { jb1 with activeOps := jb1.activeOps.erase o } :=
    jobsSurgery_trans s (addAvail s2 w) _ j jb jb1 _ sur2A surAB
  have hsatmemS : (j, o) ∈ s.saturatedOps := by
    have hlt : o < jb.ops.length := get?_lt _ _ _ hop
    have := h.2.2.2.2.2.2.1 jb (lookupJob_mem s j jb hjb) o
      (List.mem_range.mpr hlt)
      (by rw [satAt, hop]; dsimp only; simp [hsat₀, hcomp₀])
    rw [lookupJob_id s j jb hjb] at this
    exact this
  have hmemSat : (j, o) ∈ (updateJob (addAvail s2 w) j fun jb' =>
      { jb' with activeOps := jb'.activeOps.erase o }).saturatedOps := by
    rw [updateJob_saturated, addAvail_saturated, hNs]
    exact hsatmemS
  rw [processOpCompletion]
  dsimp only
  rw [if_pos hmemSat]
  have hlookC : lookupJob { updateJob (addAvail s2 w) j (fun jb' =>
      { jb' with activeOps := jb'.activeOps.erase o }) with
      saturatedOps := (updateJob (addAvail s2 w) j fun jb' =>
        { jb' with activeOps := jb'.activeOps.erase o }).saturatedOps.erase (j, o) }
      j = some { jb1 with activeOps := jb1.activeOps.erase o } := surSB.2.1
  rw [hlookC]
  dsimp only
  refine ⟨invJC_opCompletion_core s _ j o jb
    { jb1 with activeOps := jb1.activeOps.erase o } op₀ opN h hjb hop hsat₀ hcomp₀
    hcompN hwfN ?_ ?_ ?_ ?_ ?_ ?_ ?_ ?_ ?_ ?_ ?_ ?_ ?_,
    ⟨{ jb1 with activeOps := jb1.activeOps.erase o }, ?_, ?_⟩⟩
  · exact jobsSurgery_congr s _ _ j jb _ rfl surSB
  · exact hops1
  · exact hd1
  · show jb1.activeOps.erase o = jb.activeOps.erase o
    rw [hac1]
  · exact hloc1
  · show (addAvail s2 w).workers.length = s.workers.length
    rw [addAvail_workers, hNwl]
  · intro w'
    show ((addAvail s2 w).workers.get? w').map _ = _
    rw [addAvail_workers]
    exact hNwmap w'
  · show (updateJob (addAvail s2 w) j fun jb' =>
      { jb' with activeOps := jb'.activeOps.erase o }).frontierOps ∪ _ = _
    rw [updateJob_frontier, addAvail_frontier, hNf]
  · show (updateJob (addAvail s2 w) j fun jb' =>
      { jb' with activeOps := jb'.activeOps.erase o }).saturatedOps.erase (j, o) = _
    rw [updateJob_saturated, addAvail_saturated, hNs]
  · show (addAvail s2 w).activeJobIds = s.activeJobIds
    rw [addAvail_activeJobIds, hNa]
  · show (addAvail s2 w).availWorkerIds.Nodup
    rw [addAvail]
    split
    · rw [hNav]
      exact h.2.2.2.2.2.2.2.2.2.2.2.1
    · next hnin =>
      show (s2.availWorkerIds ++ [w]).Nodup
      rw [List.nodup_append]
      refine ⟨by rw [hNav]; exact h.2.2.2.2.2.2.2.2.2.2.2.1, by simp, ?_⟩
      intro a ha hb
      simp only [List.mem_singleton] at hb
      rw [hb] at ha
      exact hnin ha
  · intro w' hw'
    replace hw' : w' ∈ (addAvail s2 w).availWorkerIds := hw'
    rw [addAvail] at hw'
    split at hw'
    · rw [hNav] at hw'
      exact h.2.2.2.2.2.2.2.2.2.2.2.2 w' hw'
    · rcases List.mem_append.mp hw' with hw' | hw'
      · rw [hNav] at hw'
        exact h.2.2.2.2.2.2.2.2.2.2.2.2 w' hw'
      · simp only [List.mem_singleton] at hw'
        rw [hw']
        exact hwlt
  · show (addAvail s2 w).assertFail = false
    rw [addAvail_flag, hNfl]
    exact h.1
  · exact jobsSurgery_congr s _ _ j jb _ rfl surSB |>.2.1
  · show jb1.activeOps.erase o = jb.activeOps.erase o
    rw [hac1]

theorem job_not_complete_at (s : EnvState) (j o : ℕ) (h : Inv s) (jb : Job)
    (op : Op) (hjb : lookupJob s j = some jb) (hop : jb.ops.get? o = some op)
    (hncomp : op.isComplete = false) : jb.isComplete = false := by
  have hlt := get?_lt _ _ _ hop
  have hmem : o ∈ jb.activeOps :=
    (h.2.2.2.2.2.2.2.2.1 jb (lookupJob_mem s j jb hjb) o
      (List.mem_range.mpr hlt)).mpr
      (by rw [activeAt, hop]; dsimp only; simp [hncomp])
  rw [Job.isComplete]
  cases hao : jb.activeOps with
  | nil => rw [hao] at hmem; simp at hmem
  | cons a l => simp

theorem deps_true_of_processing (s : EnvState) (j o tid : ℕ) (h : Inv s)
    (jb : Job) (op : Op) (hjb : lookupJob s j = some jb)
    (hop : jb.ops.get? o = some op) (htid : tid ∈ op.processingTasks) :
    jb.checkDependencies o .completed = true := by
  have hlt := get?_lt _ _ _ hop
  have hjbmem := lookupJob_mem s j jb hjb
  have hwf : OpWF op := (h.2.2.1 jb hjbmem).2.1 op (List.get?_mem hop)
  have hu := h.2.2.2.2.2.2.2.1 jb hjbmem o (List.mem_range.mpr hlt)
  rw [untouchedOK, hop] at hu
  dsimp only at hu
  cases hdp : jb.checkDependencies o .completed with
  | true => rfl
  | false =>
    exfalso
    rw [hdp] at hu
    simp only [Bool.false_or, beq_iff_eq] at hu
    obtain ⟨_, _, _, _, _, _, _, _, _, _, _, hsum⟩ := hwf
    have hplen : 0 < op.processingTasks.length := List.length_pos_of_mem htid
    omega

/-- `_process_task_completion` preserves the invariant. -/
theorem inv_processTaskCompletion (s : EnvState) (j o tid : ℕ) (h : Inv s)
    (hok : EventOK s (.taskCompletion j o tid)) :
    Inv (processTaskCompletion s j o tid).1 := by
  have hok' : taskCompletionOK s j o tid = true := hok
  rw [taskCompletionOK] at hok'
  cases hgop : getOp s j o with
  | none => rw [hgop] at hok'; simp at hok'
  | some op₀ =>
    rw [hgop] at hok'
    dsimp only at hok'
    simp only [Bool.and_eq_true, decide_eq_true_eq] at hok'
    obtain ⟨htid, hok2⟩ := hok'
    cases hta : op₀.tasks.get? tid with
    | none => rw [hta] at hok2; simp at hok2
    | some task₀ =>
      rw [hta] at hok2
      dsimp only at hok2
      cases hwid : task₀.workerId with
      | none => rw [hwid] at hok2; simp at hok2
      | some w =>
        rw [hwid] at hok2
        dsimp only at hok2
        simp only [decide_eq_true_eq] at hok2
        obtain ⟨jb, hjb, hop⟩ := getOp_unpack s j o op₀ hgop
        have hjbmem := lookupJob_mem s j jb hjb
        have hwf0 : OpWF op₀ := (h.2.2.1 jb hjbmem).2.1 op₀ (List.get?_mem hop)
        have hwf0' := hwf0
        obtain ⟨hpos, hlen0, ndR, ndP, ndC, bR, bP, bC, dRP, dRC, dPC, hsum⟩ := hwf0'
        have hplen : 0 < op₀.processingTasks.length := List.length_pos_of_mem htid
        have hncomp0 : op₀.isComplete = false := by
          rw [Op.isComplete, beq_eq_false_iff_ne]
          omega
        have htidnc : tid ∉ op₀.completedTasks := dPC tid htid
        have htid_b : tid < op₀.numTasks := bP tid htid
        have htid_tb : tid < op₀.tasks.length := by rw [hlen0]; exact htid_b
        have hs1eq : addTaskCompletion s j o tid = updateOp s j o (fun op' =>
            { op' with
              processingTasks := op'.processingTasks.erase tid
              completedTasks := if tid ∈ op'.completedTasks then op'.completedTasks
                else op'.completedTasks ++ [tid]
              tasks := match op'.tasks.get? tid with
                | some task =>
                  op'.tasks.set tid { task with tCompleted := some s.wallTime }
                | none => op'.tasks }) := by
          rw [addTaskCompletion, hgop]
          dsimp only
          rw [if_neg (by rw [hncomp0]; exact Bool.false_ne_true)]
        have hopN : ({ op₀ with
            processingTasks := op₀.processingTasks.erase tid
            completedTasks := if tid ∈ op₀.completedTasks then op₀.completedTasks
              else op₀.completedTasks ++ [tid]
            tasks := match op₀.tasks.get? tid with
              | some task =>
                op₀.tasks.set tid { task with tCompleted := some s.wallTime }
              | none => op₀.tasks } : Op) =
            { op₀ with
              processingTasks := op₀.processingTasks.erase tid
              completedTasks := op₀.completedTasks ++ [tid]
              tasks := op₀.tasks.set tid { task₀ with tCompleted := some s.wallTime } } := by
          rw [if_neg htidnc, hta]
        have hwfN : OpWF { op₀ with
            processingTasks := op₀.processingTasks.erase tid
            completedTasks := op₀.completedTasks ++ [tid]
            tasks := op₀.tasks.set tid { task₀ with tCompleted := some s.wallTime } } :=
          OpWF_addTask op₀ tid _ hwf0 htid (List.length_set _ _ _)
        have sur1 := jobsSurgery_updateOp s j o (fun op' =>
            { op' with
              processingTasks := op'.processingTasks.erase tid
              completedTasks := if tid ∈ op'.completedTasks then op'.completedTasks
                else op'.completedTasks ++ [tid]
              tasks := match op'.tasks.get? tid with
                | some task =>
                  op'.tasks.set tid { task with tCompleted := some s.wallTime }
                | none => op'.tasks }) jb op₀ h.2.1 hjb hop
        simp only [hopN] at sur1
        rw [← hs1eq] at sur1
        have hg1 : getOp (addTaskCompletion s j o tid) j o = some { op₀ with
            processingTasks := op₀.processingTasks.erase tid
            completedTasks := op₀.completedTasks ++ [tid]
            tasks := op₀.tasks.set tid { task₀ with tCompleted := some s.wallTime } } := by
          rw [hs1eq]
          have hthis := getOp_updateOp s j o (fun op' =>
            { op' with
              processingTasks := op'.processingTasks.erase tid
              completedTasks := if tid ∈ op'.completedTasks then op'.completedTasks
                else op'.completedTasks ++ [tid]
              tasks := match op'.tasks.get? tid with
                | some task =>
                  op'.tasks.set tid { task with tCompleted := some s.wallTime }
                | none => op'.tasks }) op₀ hgop
          simp only [hopN] at hthis
          exact hthis
        rw [processTaskCompletion, hjb]
        dsimp only
        rw [hg1]
        dsimp only
        have hbind : (({ op₀ with
            processingTasks := op₀.processingTasks.erase tid
            completedTasks := op₀.completedTasks ++ [tid]
            tasks := op₀.tasks.set tid
              { task₀ with tCompleted := some s.wallTime } } : Op).tasks.get?
              tid).bind (fun t => t.workerId) = some w := by
          show ((op₀.tasks.set tid
            { task₀ with tCompleted := some s.wallTime }).get? tid).bind _ = _
          rw [List.get?_eq_getElem?, List.getElem?_set_self htid_tb]
          exact hwid
        rw [hbind]
        dsimp only
        have sur2 : JobsSurgery s (updateWorker (addTaskCompletion s j o tid) w
            fun wk => { wk with task := none }) j jb
            { jb with ops := jb.ops.set o { op₀ with
              processingTasks := op₀.processingTasks.erase tid
              completedTasks := op₀.completedTasks ++ [tid]
              tasks := op₀.tasks.set tid
                { task₀ with tCompleted := some s.wallTime } } } :=
          jobsSurgery_congr s _ _ j jb _ (updateWorker_jobs _ _ _) sur1
        have hF2w : (updateWorker (addTaskCompletion s j o tid) w
            fun wk => { wk with task := none }).workers.length =
            s.workers.length := by
          rw [updateWorker_workers_length, hs1eq]; rfl
        have hF2map : ∀ w', ((updateWorker (addTaskCompletion s j o tid) w
            fun wk => { wk with task := none }).workers.get? w').map
            (fun x => (x.isMoving, x.jobId)) =
            (s.workers.get? w').map (fun x => (x.isMoving, x.jobId)) := by
          intro w'
          rw [updateWorker_movjob _ w (fun wk => { wk with task := none })
            (fun x => ⟨rfl, rfl⟩) w', hs1eq]; rfl
        have hF2f : (updateWorker (addTaskCompletion s j o tid) w
            fun wk => { wk with task := none }).frontierOps = s.frontierOps := by
          rw [updateWorker_frontier, hs1eq]; rfl
        have hF2s : (updateWorker (addTaskCompletion s j o tid) w
            fun wk => { wk with task := none }).saturatedOps = s.saturatedOps := by
          rw [updateWorker_saturated, hs1eq]; rfl
        have hF2a : (updateWorker (addTaskCompletion s j o tid) w
            fun wk => { wk with task := none }).activeJobIds = s.activeJobIds := by
          rw [updateWorker_activeJobIds, hs1eq]; rfl
        have hF2av : (updateWorker (addTaskCompletion s j o tid) w
            fun wk => { wk with task := none }).availWorkerIds =
            s.availWorkerIds := by
          rw [updateWorker_avail, hs1eq]; rfl
        have hF2fl : (updateWorker (addTaskCompletion s j o tid) w
            fun wk => { wk with task := none }).assertFail = s.assertFail := by
          rw [updateWorker_flag, hs1eq]; rfl
        cases hNc : ({ op₀ with
            processingTasks := op₀.processingTasks.erase tid
            completedTasks := op₀.completedTasks ++ [tid]
            tasks := op₀.tasks.set tid
              { task₀ with tCompleted := some s.wallTime } } : Op).isComplete with
        | true =>
          rw [if_pos rfl]
          dsimp only
          have hsat0 : op₀.saturated = true := by
            have hcl : (op₀.completedTasks ++ [tid]).length = op₀.numTasks := by
              have hthis := hNc
              rw [Op.isComplete, beq_iff_eq] at hthis
              exact hthis
            simp only [List.length_append, List.length_singleton] at hcl
            have hrem0 : op₀.remainingTasks.length = 0 := by omega
            rw [Op.saturated]
            cases hrm : op₀.remainingTasks with
            | nil => simp
            | cons a l => rw [hrm] at hrem0; simp at hrem0
          obtain ⟨hJC, jbF, hlookF, hacF⟩ := invJC_processOpCompletion s _ j o w
            jb _ op₀ _ h hjb hop hsat0 hncomp0 hNc hwfN sur2 rfl rfl rfl rfl
            hF2w hF2map hF2f hF2s hF2a hF2av hF2fl hok2
          rw [hlookF]
          dsimp only
          cases hFc : jbF.isComplete with
          | true =>
            rw [if_pos rfl]
            exact inv_processJobCompletion _ j hJC jbF hlookF hFc
          | false =>
            rw [if_neg (by simp)]
            exact inv_of_invJC _ j hJC jbF hlookF hFc
        | false =>
          rw [if_neg (by simp)]
          have hInv2 : Inv (updateWorker (addTaskCompletion s j o tid) w
              fun wk => { wk with task := none }) :=
            inv_surgery_sameOp s _ j o jb _ op₀ _ h sur2 hop rfl rfl rfl rfl
              (by rw [hNc, hncomp0]) rfl rfl rfl hwfN hF2w hF2map hF2f hF2s
              hF2a hF2av hF2fl
          have hNsat : ({ op₀ with
              processingTasks := op₀.processingTasks.erase tid
              completedTasks := op₀.completedTasks ++ [tid]
              tasks := op₀.tasks.set tid
                { task₀ with tCompleted := some s.wallTime } } : Op).saturated =
              op₀.saturated := rfl
          rw [hNsat]
          cases hcs : op₀.saturated with
          | false =>
            simp only [Bool.not_false]
            rw [if_pos trivial]
            dsimp only
            have hdeps0 := deps_true_of_processing s j o tid h jb op₀ hjb hop htid
            have hm : (j, o) ∈ s.frontierOps := by
              have hthis := h.2.2.2.2.1 jb hjbmem o
                (List.mem_range.mpr (get?_lt _ _ _ hop))
                (by rw [eligibleAt, hop]; dsimp only; simp [hcs, hdeps0])
              rw [lookupJob_id s j jb hjb] at hthis
              exact hthis
            have hm2 : (j, o) ∈ (updateWorker (addTaskCompletion s j o tid) w
                fun wk => { wk with task := none }).frontierOps := by
              rw [hF2f]
              exact hm
            have hmid := invMid_of_inv _ j o hInv2 hm2
            obtain ⟨hInv3, _, _, _, op', hgop3, hcomp3⟩ :=
              inv_scheduleWorkerOne _ w j o hmid _ _ sur2.2.1
                (by show (jb.ops.set o _).get? o = _
                    rw [List.get?_eq_getElem?,
                      List.getElem?_set_self (get?_lt _ _ _ hop)])
                (by rw [hNsat, hcs]) (by rw [hF2w]; exact hok2)
            rw [hNc] at hcomp3
            obtain ⟨jb3, hjb3, hop3⟩ := getOp_unpack _ j o op' hgop3
            have hjb3nc : jb3.isComplete = false :=
              job_not_complete_at _ j o hInv3 jb3 op' hjb3 hop3 hcomp3
            rw [hjb3]
            dsimp only
            rw [if_neg (by rw [hjb3nc]; exact Bool.false_ne_true)]
            exact hInv3
          | true =>
            rw [if_neg (by simp)]
            dsimp only
            have hjb1 : lookupJob (updateWorker (addTaskCompletion s j o tid) w
                fun wk => { wk with task := none }) j = some
                { jb with ops := jb.ops.set o { op₀ with
                  processingTasks := op₀.processingTasks.erase tid
                  completedTasks := op₀.completedTasks ++ [tid]
                  tasks := op₀.tasks.set tid
                    { task₀ with tCompleted := some s.wallTime } } } := sur2.2.1
            have hjb1nc : ({ jb with ops := jb.ops.set o { op₀ with
                processingTasks := op₀.processingTasks.erase tid
                completedTasks := op₀.completedTasks ++ [tid]
                tasks := op₀.tasks.set tid
                  { task₀ with tCompleted := some s.wallTime } } } : Job).isComplete =
                false :=
              job_not_complete_at _ j o hInv2 _ _ hjb1
                (by show (jb.ops.set o _).get? o = _
                    rw [List.get?_eq_getElem?,
                      List.getElem?_set_self (get?_lt _ _ _ hop)])
                hNc
            rw [hjb1]
            dsimp only
            rw [if_neg (by rw [hjb1nc]; exact Bool.false_ne_true)]
            exact hInv2

/-- `_process_scheduling_event` (the event dispatcher) preserves the engine
invariant. -/
theorem inv_processSchedulingEvent (s : EnvState) (e : Event) (h : Inv s)
    (hok : EventOK s e) : Inv (processSchedulingEvent s e).1 := by
  cases e with
  | jobArrival job => exact inv_processJobArrival s job h hok
  | workerArrival w j o => exact inv_processWorkerArrival s w j o h hok
  | taskCompletion j o tid => exact inv_processTaskCompletion s j o tid h hok

/-- One engine transition — an action application on a frontier operation or
the processing of a popped well-formed event at its scheduled time — preserves
the engine invariant. -/
theorem inv_preserved (s : EnvState) (a : EngineAct) (h : Inv s)
    (hok : ActOK s a) : Inv (applyAct s a) := by
  cases a with
  | action j o prlvl => exact inv_takeAction s j o prlvl h hok
  | event t e =>
    exact inv_processSchedulingEvent { s with wallTime := t } e h hok

/-- In an invariant state, frontier membership is exactly the amended
condition: the job has arrived, the operation exists, its DAG predecessors are
all completed, and it is neither completed nor saturated. -/
theorem inv_frontier_iff (s : EnvState) (h : Inv s) (j o : ℕ) :
    ((j, o) ∈ s.frontierOps ↔ frontierAmendedCond s j o = true) := by
  constructor
  · intro hm
    obtain ⟨jb, op, hjb, hop, hsat, hdeps⟩ :=
      frontierMemOK_unpack s (j, o) (h.2.2.2.1 (j, o) hm)
    dsimp only at hjb hop hdeps
    have hwf : OpWF op := OpWF_of_lookup s h.2.2.1 jb op j o hjb hop
    rw [frontierAmendedCond, hjb]
    dsimp only
    rw [hop]
    simp [hdeps, hsat, OpWF_not_complete op hwf hsat]
  · intro hc
    rw [frontierAmendedCond] at hc
    cases hjb : lookupJob s j with
    | none => rw [hjb] at hc; simp at hc
    | some jb =>
      rw [hjb] at hc
      dsimp only at hc
      cases hop : jb.ops.get? o with
      | none => rw [hop] at hc; simp at hc
      | some op =>
        rw [hop] at hc
        simp only [Bool.and_eq_true, Bool.not_eq_true'] at hc
        obtain ⟨⟨hdeps, hcomp⟩, hsat⟩ := hc
        have helig : eligibleAt jb o = true := by
          rw [eligibleAt, hop]
          simp [hsat, hdeps]
        have hthis := h.2.2.2.2.1 jb (lookupJob_mem s j jb hjb) o
          (List.mem_range.mpr (get?_lt _ _ _ hop)) helig
        rw [lookupJob_id s j jb hjb] at hthis
        exact hthis

/-- `reset` establishes the engine invariant, for a worker pool whose workers
start bound to no job (as the environment's fresh workers do). -/
theorem inv_resetEnv (tl : List (ℚ × Event)) (ws : List Worker)
    (hws : ∀ wk ∈ ws, wk.jobId = none) : Inv (resetEnv tl ws) := by
  refine ⟨rfl, List.nodup_nil, ?_, ?_, ?_, ?_, ?_, ?_, ?_,
    ⟨?_, ?_, List.nodup_nil⟩, ?_, List.nodup_range _, ?_⟩
  · intro jb hjb; exact absurd hjb (List.not_mem_nil _)
  · intro p hp; exact absurd hp (Finset.not_mem_empty _)
  · intro jb hjb; exact absurd hjb (List.not_mem_nil _)
  · intro p hp; exact absurd hp (Finset.not_mem_empty _)
  · intro jb hjb; exact absurd hjb (List.not_mem_nil _)
  · intro jb hjb; exact absurd hjb (List.not_mem_nil _)
  · intro jb hjb; exact absurd hjb (List.not_mem_nil _)
  · intro jid hjid; exact absurd hjid (List.not_mem_nil _)
  · intro jb hjb; exact absurd hjb (List.not_mem_nil _)
  · intro w hw
    rw [workerOK]
    cases hwk : (resetEnv tl ws).workers.get? w with
    | none => rfl
    | some wk =>
      have hmem : wk ∈ ws := List.get?_mem hwk
      simp [hws wk hmem]
  · intro w hw
    exact List.mem_range.mp hw

/-- The invariant is preserved along any legal list of engine transitions. -/
theorem inv_runActs (acts : List EngineAct) : ∀ s : EnvState, Inv s →
    ActsOK s acts → Inv (runActs s acts) := by
  induction acts with
  | nil => intro s h _; exact h
  | cons a rest ih =>
    intro s h hok
    exact ih (applyAct s a) (inv_preserved s a h hok.1) hok.2

/-- C1 (corrected): from any state satisfying the engine invariant — the
invariant `reset` establishes and every transition preserves — one further
engine transition (an action on a frontier operation, or the processing of a
popped well-formed event) keeps the invariant, and in the resulting state an
operation `(j, o)` is in the frontier set if and only if its job has arrived,
the operation exists, all of its DAG predecessors are completed, it is not
itself completed, and — the amendment — it is not saturated. -/
theorem c1_frontier_invariant (s : EnvState) (a : EngineAct) (h : Inv s)
    (hok : ActOK s a) :
    Inv (applyAct s a) ∧
    ∀ j o, ((j, o) ∈ (applyAct s a).frontierOps ↔
      frontierAmendedCond (applyAct s a) j o = true) := by
  have hinv := inv_preserved s a h hok
  exact ⟨hinv, fun j o => inv_frontier_iff (applyAct s a) hinv j o⟩

/-- C1 witness: the characterisation applied at the concrete invariant state
`sW` and the action `(0, 0, 1)` on its frontier operation. -/
theorem c1_frontier_invariant_witness :
    Inv sW ∧ ActOK sW (.action 0 0 1) ∧
    (Inv (applyAct sW (.action 0 0 1)) ∧
      ∀ j o, ((j, o) ∈ (applyAct sW (.action 0 0 1)).frontierOps ↔
        frontierAmendedCond (applyAct sW (.action 0 0 1)) j o = true)) := by
  have h1 : InvFlag sW := by unfold InvFlag; decide
  have h2 : InvIds sW := by unfold InvIds; decide
  have h3 : InvWF sW := by unfold InvWF JobWF OpWF; decide
  have h4 : InvFrontier sW := by unfold InvFrontier; decide
  have h5 : InvFrontierComplete sW := by unfold InvFrontierComplete; decide
  have h6 : InvSat sW := by unfold InvSat; decide
  have h7 : InvSatComplete sW := by unfold InvSatComplete; decide
  have h8 : InvUntouched sW := by unfold InvUntouched; decide
  have h9 : InvActive sW := by unfold InvActive; decide
  have h10 : InvActiveJobs sW := by unfold InvActiveJobs; decide
  have h11 : InvWorkers sW := by unfold InvWorkers; decide
  have h12 : InvAvail sW := by unfold InvAvail; decide
  have hInv : Inv sW := ⟨h1, h2, h3, h4, h5, h6, h7, h8, h9, h10, h11, h12⟩
  have hAct : ActOK sW (.action 0 0 1) := by
    show (0, 0) ∈ sW.frontierOps
    decide
  exact ⟨hInv, hAct, c1_frontier_invariant sW (.action 0 0 1) hInv hAct⟩

/-- C9 (confirmed): along any legal run of the public API — a `reset` with a
job-free worker pool followed by transitions whose actions reference frontier
operations and whose events are well formed (as the `step` loop pops them) —
the assertion-failure flag stays false; in particular `assign_worker`'s
saturated-operation assertion (`op.num_saturated_tasks < op.num_tasks`,
modelled by the flag) is never violated: every call site is guarded. -/
theorem c9_assert_unreachable (tl : List (ℚ × Event)) (ws : List Worker)
    (hws : ∀ wk ∈ ws, wk.jobId = none) (acts : List EngineAct)
    (hacts : ActsOK (resetEnv tl ws) acts) :
    (runActs (resetEnv tl ws) acts).assertFail = false :=
  (inv_runActs acts (resetEnv tl ws) (inv_resetEnv tl ws hws) hacts).1

/-- C9 witness: a concrete run — reset with one idle worker, then the arrival
of the single-operation job `jobC` — ends with the assertion flag false. -/
theorem c9_assert_unreachable_witness :
    (∀ wk ∈ [idleWorker], wk.jobId = none) ∧
    ActsOK (resetEnv [(0, .jobArrival jobC)] [idleWorker])
      [.event 0 (.jobArrival jobC)] ∧
    (runActs (resetEnv [(0, .jobArrival jobC)] [idleWorker])
      [.event 0 (.jobArrival jobC)]).assertFail = false := by
  have hws : ∀ wk ∈ [idleWorker], wk.jobId = none := by decide
  have hacts : ActsOK (resetEnv [(0, .jobArrival jobC)] [idleWorker])
      [.event 0 (.jobArrival jobC)] := by
    refine ⟨?_, trivial⟩
    show (lookupJob (resetEnv [(0, .jobArrival jobC)] [idleWorker])
        jobC.id).isNone = true ∧
      JobWF (resetEnv [(0, .jobArrival jobC)] [idleWorker]).workers.length
        jobC ∧
      FreshJob jobC
    refine ⟨by decide, ?_, ?_⟩
    · unfold JobWF OpWF
      decide
    · unfold FreshJob
      decide
  exact ⟨hws, hacts,
    c9_assert_unreachable [(0, .jobArrival jobC)] [idleWorker] hws
      [.event 0 (.jobArrival jobC)] hacts⟩

end DagSched
